import Mathlib

/-!
# Sequence cursor of `types/sequence_cursor.go`

A shallow embedding of the cursor that walks a tree of chunked sequences.

* A Go `int` is modelled by `Int`: every index the code computes lies between `-1` and the
  length of a sequence, so no arithmetic can wrap.
* A Go pointer chain `cur.parent` is a value of type `Option (sequenceCursor α)`; a method that
  mutates the receiver returns the new receiver (with its new ancestors) next to its result.
* A failed `d.Chk` assertion, a nil dereference and an out-of-range index are all the result
  `none`; `some` is a normal return.
* Where a claim is about which objects a call writes to (`clone`, `maxNPrevItems`), the cursors
  are objects in a heap with parent pointers (`cursorCell`, namespace `heap`), written in place;
  the calls through pointers are shown to do what the calls on chains do.
-/

namespace Noms

/-- A node of the tree of sequences. A leaf holds items; a meta-sequence holds tuples, each an
item together with the child sequence it refers to (the items of a meta-sequence map one to one
to its children). -/
inductive Sequence (α : Type) where
  | leaf (items : List α)
  | meta (tuples : List (α × Sequence α))

/-- The cursor of the source: `parent *sequenceCursor`, `seq sequence` (an interface value, which
may be nil), `idx int`. -/
inductive sequenceCursor (α : Type) where
  | mk (parent : Option (sequenceCursor α)) (seq : Option (Sequence α)) (idx : Int)

namespace Sequence
variable {α : Type}

/-- The items held at this level, in order. -/
def items : Sequence α → List α
  | leaf xs => xs
  | meta ts => ts.map Prod.fst

/-- The child sequences of this level, in order (none for a leaf). -/
def children : Sequence α → List (Sequence α)
  | leaf _ => []
  | meta ts => ts.map Prod.snd

/-- Modelled from the spec: `seqLen()` of the `sequence` interface, whose implementations are not
part of the source file; it is the count of items at this level. -/
def seqLen (s : Sequence α) : Int := s.items.length

/-- Modelled from the spec: `getItem(idx)` of the `sequence` interface, whose implementations are
not part of the source file; the item at a local index in `[0, length)`, and a fatal failure
(`none`) for any other index. -/
def getItem (s : Sequence α) (idx : Int) : Option α :=
  if 0 ≤ idx then s.items[idx.toNat]? else none

/-- Modelled from the spec: `getChildSequence(idx)` of the `metaSequence` interface, whose
implementations are not part of the source file; the child that the tuple at a local index in
`[0, length)` refers to, and a fatal failure (`none`) for any other index. -/
def getChildSequence (s : Sequence α) (idx : Int) : Option (Sequence α) :=
  if 0 ≤ idx then s.children[idx.toNat]? else none

/-- The type assertion `cur.seq.(metaSequence)`. -/
def isMeta : Sequence α → Bool
  | leaf _ => false
  | meta _ => true

mutual
/-- All leaf items below a node, in chunk order. -/
def leafItems : Sequence α → List α
  | leaf xs => xs
  | meta ts => leafItemsTuples ts
/-- All leaf items below a list of tuples, in chunk order. -/
def leafItemsTuples : List (α × Sequence α) → List α
  | [] => []
  | t :: ts => leafItemsTuple t ++ leafItemsTuples ts
/-- All leaf items below the child of one tuple. -/
def leafItemsTuple : α × Sequence α → List α
  | (_, c) => leafItems c
end

/-- Every leaf of the tree lies exactly `d` levels below the root. -/
def leafDepth : Nat → Sequence α → Prop
  | 0, s => s.isMeta = false
  | d + 1, s => s.isMeta = true ∧ ∀ c ∈ s.children, leafDepth d c

/-- Two conditions at once on the levels `0 .. d` below the root: every sequence on a level
above `d` is a meta-sequence (the tree has no leaf above level `d`), and every chunk on the
levels `0 .. d` is non-empty. For non-emptiness alone see `chunksNonEmptyTo`. -/
def nonEmptyTo : Nat → Sequence α → Prop
  | 0, s => 0 < s.seqLen
  | d + 1, s => s.isMeta = true ∧ 0 < s.seqLen ∧ ∀ c ∈ s.children, nonEmptyTo d c

/-- Every chunk on the levels `0 .. d` below the root is non-empty; nothing is asked of the kind
of the sequences (a leaf above level `d` has no chunks below it). -/
def chunksNonEmptyTo : Nat → Sequence α → Prop
  | 0, s => 0 < s.seqLen
  | d + 1, s => 0 < s.seqLen ∧ ∀ c ∈ s.children, chunksNonEmptyTo d c

/-- The sequences `d` levels below the root, in order. -/
def seqsAtDepth : Nat → Sequence α → List (Sequence α)
  | 0, s => [s]
  | d + 1, s => (seqsAtDepth d s).flatMap children

/-- The items of the level `d` below the root, concatenated in chunk order. -/
def itemsAtDepth (d : Nat) (s : Sequence α) : List α :=
  (seqsAtDepth d s).flatMap items

end Sequence

/-- Go's `sort.Search` loop `for i < j`, with `h := int(uint(i+j) >> 1)`; the first argument
bounds the number of iterations. -/
def searchLoop (f : Int → Option Bool) : Nat → Int → Int → Option Int
  | 0, i, j => if i < j then none else some i
  | fuel + 1, i, j =>
    if i < j then
      match f ((i + j) / 2) with
      | none => none
      | some false => searchLoop f fuel ((i + j) / 2 + 1) j
      | some true => searchLoop f fuel i ((i + j) / 2)
    else some i

/-- Go's `sort.Search(n, f)`: `i, j := 0, n`, then the loop; `n` iterations always suffice. -/
def sortSearch (n : Int) (f : Int → Option Bool) : Option Int :=
  searchLoop f n.toNat 0 n

namespace sequenceCursor
variable {α : Type}

/-- Field `parent`. -/
def parent : sequenceCursor α → Option (sequenceCursor α)
  | mk p _ _ => p

/-- Field `seq`. -/
def seq : sequenceCursor α → Option (Sequence α)
  | mk _ s _ => s

/-- Field `idx`. -/
def idx : sequenceCursor α → Int
  | mk _ _ i => i

/-- Source function `newSequenceCursor`. -/
def newSequenceCursor (parent : Option (sequenceCursor α)) (seq : Option (Sequence α))
    (idx : Int) : sequenceCursor α :=
  mk parent seq idx

/-- Source function `length`: `cur.seq.seqLen()`; fails on a nil sequence. -/
def length (cur : sequenceCursor α) : Option Int :=
  cur.seq.map Sequence.seqLen

/-- Source function `getItem`: `cur.seq.getItem(idx)`; fails on a nil sequence. -/
def getItem (cur : sequenceCursor α) (idx : Int) : Option α :=
  cur.seq.bind fun s => s.getItem idx

/-- Source function `getChildSequence`: the child at `cur.idx` when `cur.seq` is a meta-sequence, nil (the inner
`none`) otherwise. The outer `none` is a failure of the child lookup. -/
def getChildSequence (cur : sequenceCursor α) : Option (Option (Sequence α)) :=
  match cur.seq with
  | some s => if s.isMeta then (s.getChildSequence cur.idx).map some else some none
  | none => some none

/-- Source function `sync`: asserts that a parent exists, then takes the parent's child as sequence. -/
def sync (cur : sequenceCursor α) : Option (sequenceCursor α) :=
  match cur.parent with
  | none => none
  | some p => (getChildSequence p).map fun s => mk (some p) s cur.idx

/-- Source function `valid`: `cur.idx >= 0 && cur.idx < cur.length()`; the length is only read when
`cur.idx >= 0`. -/
def valid (cur : sequenceCursor α) : Option Bool :=
  if 0 ≤ cur.idx then cur.length.map fun len => decide (cur.idx < len) else some false

/-- Source function `maybeCurrent`: asserts `-1 <= idx <= length()`, then returns `(nil, false)` (here
`(none, false)`) when the cursor is not valid and `(item, true)` otherwise. -/
def maybeCurrent (cur : sequenceCursor α) : Option (Option α × Bool) :=
  if -1 ≤ cur.idx then
    cur.length.bind fun len =>
      if cur.idx ≤ len then
        cur.valid.bind fun v =>
          if v then (cur.getItem cur.idx).map fun item => (some item, true)
          else some (none, false)
      else none
  else none

/-- Source function `current`: `maybeCurrent` followed by the assertion that it found an item. -/
def current (cur : sequenceCursor α) : Option α :=
  cur.maybeCurrent.bind fun r => if r.2 then r.1 else none

/-- Source function `indexInChunk`. -/
def indexInChunk (cur : sequenceCursor α) : Int := cur.idx

/-- Source function `advanceMaybeAllowPastEnd`: the new cursor and the returned flag. -/
def advanceMaybeAllowPastEnd : sequenceCursor α → Bool → Option (sequenceCursor α × Bool)
  | mk parent seq idx, allowPastEnd =>
    (length (mk parent seq idx)).bind fun len =>
      if idx < len - 1 then some (mk parent seq (idx + 1), true)
      else if idx = len then some (mk parent seq idx, false)
      else
        match parent with
        | some p =>
          match advanceMaybeAllowPastEnd p false with
          | none => none
          | some (p', true) =>
            (sync (mk (some p') seq idx)).map fun cur => (mk cur.parent cur.seq 0, true)
          | some (p', false) =>
            some (mk (some p') seq (if allowPastEnd then idx + 1 else idx), false)
        | none => some (mk none seq (if allowPastEnd then idx + 1 else idx), false)

/-- Source function `advance`. -/
def advance (cur : sequenceCursor α) : Option (sequenceCursor α × Bool) :=
  cur.advanceMaybeAllowPastEnd true

/-- Source function `retreatMaybeAllowBeforeStart`: the new cursor and the returned flag. -/
def retreatMaybeAllowBeforeStart : sequenceCursor α → Bool → Option (sequenceCursor α × Bool)
  | mk parent seq idx, allowBeforeStart =>
    if 0 < idx then some (mk parent seq (idx - 1), true)
    else if idx = -1 then some (mk parent seq idx, false)
    else if idx ≠ 0 then none
    else
      match parent with
      | some p =>
        match retreatMaybeAllowBeforeStart p false with
        | none => none
        | some (p', true) =>
          (sync (mk (some p') seq idx)).bind fun cur =>
            cur.length.map fun len => (mk cur.parent cur.seq (len - 1), true)
        | some (p', false) =>
          some (mk (some p') seq (if allowBeforeStart then idx - 1 else idx), false)
      | none => some (mk none seq (if allowBeforeStart then idx - 1 else idx), false)

/-- Source function `retreat`. -/
def retreat (cur : sequenceCursor α) : Option (sequenceCursor α × Bool) :=
  cur.retreatMaybeAllowBeforeStart true

/-- Source function `clone`: a copy of the cursor with a copy of every ancestor. -/
def clone : sequenceCursor α → sequenceCursor α
  | mk none seq idx => mk none seq idx
  | mk (some p) seq idx => mk (some (clone p)) seq idx

/-- Source function `seekBinary`, for a non-nil `compare`. -/
def seekBinary (compare : α → Bool) : sequenceCursor α → Option (sequenceCursor α)
  | mk parent seq idx =>
    let synced : Option (sequenceCursor α) :=
      match parent with
      | some p =>
        match seekBinary compare p with
        | none => none
        | some p' => sync (mk (some p') seq idx)
      | none => some (mk none seq idx)
    synced.bind fun cur =>
      cur.length.bind fun len =>
        (sortSearch len fun i => (cur.getItem i).map compare).map fun i =>
          if i = len then mk cur.parent cur.seq (len - 1) else mk cur.parent cur.seq i

end sequenceCursor

namespace Sequence
variable {α : Type}

mutual
/-- Equality of sequences is decidable when equality of items is. -/
def decEq [DecidableEq α] : (a b : Sequence α) → Decidable (a = b)
  | leaf x, leaf y =>
    if h : x = y then isTrue (by rw [h]) else isFalse (by intro h2; cases h2; exact h rfl)
  | leaf _, meta _ => isFalse (by intro h; cases h)
  | meta _, leaf _ => isFalse (by intro h; cases h)
  | meta x, meta y =>
    match decEqTuples x y with
    | isTrue h => isTrue (by rw [h])
    | isFalse h => isFalse (by intro h2; cases h2; exact h rfl)
/-- Equality of lists of tuples. -/
def decEqTuples [DecidableEq α] : (a b : List (α × Sequence α)) → Decidable (a = b)
  | [], [] => isTrue rfl
  | [], _ :: _ => isFalse (by intro h; cases h)
  | _ :: _, [] => isFalse (by intro h; cases h)
  | x :: xs, y :: ys =>
    match decEqTuple x y, decEqTuples xs ys with
    | isTrue h1, isTrue h2 => isTrue (by rw [h1, h2])
    | isFalse h, _ => isFalse (by intro h2; cases h2; exact h rfl)
    | _, isFalse h => isFalse (by intro h2; cases h2; exact h rfl)
/-- Equality of tuples. -/
def decEqTuple [DecidableEq α] : (a b : α × Sequence α) → Decidable (a = b)
  | (a1, s1), (a2, s2) =>
    if h : a1 = a2 then
      match decEq s1 s2 with
      | isTrue h2 => isTrue (by rw [h, h2])
      | isFalse h2 => isFalse (by intro h3; cases h3; exact h2 rfl)
    else isFalse (by intro h3; cases h3; exact h rfl)
end

instance [DecidableEq α] : DecidableEq (Sequence α) := decEq

end Sequence

namespace sequenceCursor
variable {α : Type}

/-- Equality of cursor chains is decidable when equality of items is. -/
def decEq [DecidableEq α] : (a b : sequenceCursor α) → Decidable (a = b)
  | mk none s1 i1, mk none s2 i2 =>
    if h : s1 = s2 ∧ i1 = i2 then isTrue (by rw [h.1, h.2])
    else isFalse (by intro h2; cases h2; exact h ⟨rfl, rfl⟩)
  | mk none _ _, mk (some _) _ _ => isFalse (by intro h; cases h)
  | mk (some _) _ _, mk none _ _ => isFalse (by intro h; cases h)
  | mk (some p1) s1 i1, mk (some p2) s2 i2 =>
    match decEq p1 p2 with
    | isTrue hp =>
      if h : s1 = s2 ∧ i1 = i2 then isTrue (by rw [hp, h.1, h.2])
      else isFalse (by intro h2; cases h2; exact h ⟨rfl, rfl⟩)
    | isFalse hp => isFalse (by intro h2; cases h2; exact hp rfl)

instance [DecidableEq α] : DecidableEq (sequenceCursor α) := decEq

/-- The parent is absent, or its probe `advanceMaybeAllowPastEnd(false)` returns false. -/
def parentCannotAdvance : Option (sequenceCursor α) → Prop
  | none => True
  | some p => (advanceMaybeAllowPastEnd p false).map Prod.snd = some false

/-- The parent is absent, or its probe `retreatMaybeAllowBeforeStart(false)` returns false. -/
def parentCannotRetreat : Option (sequenceCursor α) → Prop
  | none => True
  | some p => (retreatMaybeAllowBeforeStart p false).map Prod.snd = some false

/-- The cursor after `n` calls of `advance` in a row. -/
def advanceTimes : Nat → sequenceCursor α → Option (sequenceCursor α)
  | 0, cur => some cur
  | n + 1, cur => (advance cur).bind fun r => advanceTimes n r.1

/-- The tree of the scenarios: a root meta-sequence over the leaves `[a, b, c]` and `[d, e, f]`,
each tuple of the root carrying the last item of its child. -/
def sampleTree : Sequence Char :=
  Sequence.meta [('c', Sequence.leaf ['a', 'b', 'c']), ('f', Sequence.leaf ['d', 'e', 'f'])]

/-- The leaf cursor over `sampleTree` whose root is at `i` and which is at `j` in chunk `i`. -/
def sampleCursor (i j : Int) : sequenceCursor Char :=
  mk (some (mk none (some sampleTree) i)) (sampleTree.getChildSequence i) j

end sequenceCursor

/-- The predicate is false on a first part of the list and true on the rest. -/
def monotoneOver {α : Type} (compare : α → Bool) (xs : List α) : Prop :=
  ∃ k : Nat, (∀ x ∈ xs.take k, compare x = false) ∧ (∀ x ∈ xs.drop k, compare x = true)

/-- The index `i` is the one a seek must find in `xs`: it points at an item, no item before it
satisfies the predicate, the item at `i` satisfies it when some item of `xs` does, and `i` is the
last index when no item of `xs` does. -/
def seekTarget {α : Type} (compare : α → Bool) (xs : List α) (i : Int) : Prop :=
  0 ≤ i ∧ i < xs.length
  ∧ (∀ k : Nat, (k : Int) < i → ∀ x, xs[k]? = some x → compare x = false)
  ∧ ((∃ x ∈ xs, compare x = true) → ∃ x, xs[i.toNat]? = some x ∧ compare x = true)
  ∧ ((∀ x ∈ xs, compare x = false) → i = xs.length - 1)

namespace sequenceCursor
variable {α : Type}

/-- The part of `seekBinary` that follows the seek and sync of the parent: the binary search of
this level and the clamp to the last index. -/
def localSeek (compare : α → Bool) (cur : sequenceCursor α) : Option (sequenceCursor α) :=
  cur.length.bind fun len =>
    (sortSearch len fun i => (cur.getItem i).map compare).map fun i =>
      if i = len then mk cur.parent cur.seq (len - 1) else mk cur.parent cur.seq i

end sequenceCursor

namespace sequenceCursor
variable {α : Type}

/-- The number of ancestors of the cursor. -/
def depth : sequenceCursor α → Nat
  | mk none _ _ => 0
  | mk (some p) _ _ => depth p + 1

/-- The sequence of the topmost ancestor (of the cursor itself when it has no parent). -/
def rootSeq : sequenceCursor α → Option (Sequence α)
  | mk none seq _ => seq
  | mk (some p) _ _ => rootSeq p

end sequenceCursor

namespace sequenceCursor
variable {α : Type}

/-- Every non-root level's sequence is the child that its parent resolves at the parent's
index. -/
def inSync : sequenceCursor α → Prop
  | mk none _ _ => True
  | mk (some p) seq _ => getChildSequence p = some seq ∧ inSync p

/-- The cursor and each of its ancestors point at an item (`valid()` returns true). -/
def allValid : sequenceCursor α → Prop
  | mk none seq idx => valid (mk none seq idx) = some true
  | mk (some p) seq idx => valid (mk (some p) seq idx) = some true ∧ allValid p

/-- Each ancestor of the cursor points at an item. -/
def ancestorsValid : sequenceCursor α → Prop
  | mk none _ _ => True
  | mk (some p) _ _ => allValid p

/-- Every level of the chain has index 0. -/
def allIdxZero : sequenceCursor α → Prop
  | mk none _ idx => idx = 0
  | mk (some p) _ idx => idx = 0 ∧ allIdxZero p

/-- The chain is in sync, every level points at an item, and the sequence of the cursor
satisfies `nonEmptyTo k` (so that of its parent `nonEmptyTo (k + 1)`, and so on): non-empty
chunks below meta-sequences, `k` levels down. -/
def wellPlaced : Nat → sequenceCursor α → Prop
  | k, mk none seq idx => ∃ s, seq = some s ∧ s.nonEmptyTo k ∧ 0 ≤ idx ∧ idx < s.seqLen
  | k, mk (some p) seq idx =>
    ∃ s, seq = some s ∧ s.nonEmptyTo k ∧ 0 ≤ idx ∧ idx < s.seqLen
      ∧ getChildSequence p = some (some s) ∧ wellPlaced (k + 1) p

/-- The entries `proj` reads off a sequence, none for a nil sequence. -/
def optList {β : Type} (proj : Sequence α → List β) : Option (Sequence α) → List β
  | some s => proj s
  | none => []

/-- The sequences of the cursor's level that come before the cursor's own sequence. -/
def leftSeqs : sequenceCursor α → List (Sequence α)
  | mk none _ _ => []
  | mk (some p) _ _ =>
    (leftSeqs p).flatMap Sequence.children ++ (optList Sequence.children p.seq).take p.idx.toNat

/-- The sequences of the cursor's level that come after the cursor's own sequence. -/
def rightSeqs : sequenceCursor α → List (Sequence α)
  | mk none _ _ => []
  | mk (some p) _ _ =>
    (optList Sequence.children p.seq).drop (p.idx.toNat + 1)
      ++ (rightSeqs p).flatMap Sequence.children

/-- The entries of the cursor's level strictly before the cursor's position. -/
def beforeCursor {β : Type} (proj : Sequence α → List β) (c : sequenceCursor α) : List β :=
  (leftSeqs c).flatMap proj ++ (optList proj c.seq).take c.idx.toNat

/-- The entries of the cursor's level up to and including the cursor's position. -/
def uptoCursor {β : Type} (proj : Sequence α → List β) (c : sequenceCursor α) : List β :=
  (leftSeqs c).flatMap proj ++ (optList proj c.seq).take (c.idx.toNat + 1)

/-- The entries of the cursor's level from the cursor's position on. -/
def fromCursor {β : Type} (proj : Sequence α → List β) (c : sequenceCursor α) : List β :=
  (optList proj c.seq).drop c.idx.toNat ++ (rightSeqs c).flatMap proj

/-- The entries of the cursor's level strictly after the cursor's position. -/
def afterCursor {β : Type} (proj : Sequence α → List β) (c : sequenceCursor α) : List β :=
  (optList proj c.seq).drop (c.idx.toNat + 1) ++ (rightSeqs c).flatMap proj

/-- Reading `current()` and then calling `advance()` until it returns false: the items read.
The first argument bounds the number of items that may be read. -/
def collect : Nat → sequenceCursor α → Option (List α)
  | 0, _ => none
  | fuel + 1, cur =>
    cur.current.bind fun item =>
      cur.advance.bind fun r =>
        if r.2 then (collect fuel r.1).map fun rest => item :: rest else some [item]

end sequenceCursor

namespace sequenceCursor
variable {α : Type}

/-- The first loop of `maxNPrevItems`: `for i := 0; i < n && retreater.retreat(); i++` with the
body `prev = append(prev, retreater.current())`. The first argument is the number `n - i` of
rounds that the counter still allows. -/
def prevLoop : Nat → sequenceCursor α → List α → Option (List α)
  | 0, _, prev => some prev
  | m + 1, retreater, prev =>
    retreater.retreat.bind fun r =>
      if r.2 then r.1.current.bind fun item => prevLoop m r.1 (prev ++ [item])
      else some prev

/-- The second loop of `maxNPrevItems`: `for i := 0; i < len(prev)/2; i++`, swapping `prev[i]`
and `prev[len(prev)-i-1]` in place. The first argument is the number `len(prev)/2 - i` of rounds
left, the second is `i`. -/
def swapLoop : Nat → Nat → List α → Option (List α)
  | 0, _, prev => some prev
  | m + 1, i, prev =>
    match prev[i]?, prev[prev.length - i - 1]? with
    | some t, some u => swapLoop m (i + 1) ((prev.set i u).set (prev.length - i - 1) t)
    | _, _ => none

/-- Source function `maxNPrevItems`: the returned slice. -/
def maxNPrevItems (cur : sequenceCursor α) (n : Int) : Option (List α) :=
  (prevLoop n.toNat cur.clone []).bind fun prev => swapLoop (prev.length / 2) 0 prev

end sequenceCursor

/-- The two ways a call can fail: a `d.Chk` assertion of the cursor code itself, or a lookup in
the sequence behind it (an index outside the sequence). -/
inductive Failure where
  | assertion
  | lookup

namespace sequenceCursor
variable {α : Type}

/-- Source function `sync` with the kind of failure kept apart: the assertion
`d.Chk.NotNil(cur.parent)` fails when there is no parent; with a parent the call fails only when
the parent's child lookup does. -/
def syncE (cur : sequenceCursor α) : Except Failure (sequenceCursor α) :=
  match cur.parent with
  | none => Except.error Failure.assertion
  | some p =>
    match getChildSequence p with
    | none => Except.error Failure.lookup
    | some s => Except.ok (mk (some p) s cur.idx)

end sequenceCursor

/-- The nodes on the levels above `d` below the root are all meta-sequences. -/
def Sequence.metaTo {α : Type} : Nat → Sequence α → Prop
  | 0, _ => True
  | d + 1, s => s.isMeta = true ∧ ∀ c ∈ s.children, Sequence.metaTo d c

namespace sequenceCursor
variable {α : Type}

/-- Every level of the chain has a sequence and an index with `-1 <= idx <= length()`. -/
def rangeOk : sequenceCursor α → Prop
  | mk none seq idx => ∃ s, seq = some s ∧ -1 ≤ idx ∧ idx ≤ s.seqLen
  | mk (some p) seq idx => (∃ s, seq = some s ∧ -1 ≤ idx ∧ idx ≤ s.seqLen) ∧ rangeOk p

/-- The chain is over non-empty chunks: every level has a sequence, and the chunks of the
sequence of the cursor are non-empty `k` levels down, those of its parent `k + 1` levels down,
and so on up to the root. Nothing is asked of the kind of the sequences. -/
def levelsNonEmpty : Nat → sequenceCursor α → Prop
  | k, mk none seq _ => ∃ s, seq = some s ∧ s.chunksNonEmptyTo k
  | k, mk (some p) seq _ =>
    (∃ s, seq = some s ∧ s.chunksNonEmptyTo k) ∧ levelsNonEmpty (k + 1) p

/-- Two conditions at once on a chain (`levelsNonEmpty` and `levelsMeta` together): the
sequence of the cursor satisfies `nonEmptyTo k`, that of its parent `nonEmptyTo (k + 1)`, and so
on up to the root; so every chunk from each ancestor down to the level of the cursor is
non-empty, and every sequence above the level of the cursor is a meta-sequence. -/
def uniformNonEmpty : Nat → sequenceCursor α → Prop
  | k, mk none seq _ => ∃ s, seq = some s ∧ s.nonEmptyTo k
  | k, mk (some p) seq _ => (∃ s, seq = some s ∧ s.nonEmptyTo k) ∧ uniformNonEmpty (k + 1) p

/-- The sequences above the level of the cursor are meta-sequences throughout: the sequence of
the cursor's parent is one, that of the grandparent is one over meta-sequences, and so on. -/
def levelsMeta : Nat → sequenceCursor α → Prop
  | k, mk none seq _ => ∃ s, seq = some s ∧ s.metaTo k
  | k, mk (some p) seq _ => (∃ s, seq = some s ∧ s.metaTo k) ∧ levelsMeta (k + 1) p

end sequenceCursor

namespace sequenceCursor

/-- A tree whose leaves lie at different depths: the first child of the root is a meta-sequence
over the leaf `[a]`, the second child is the leaf `[b]`. -/
def lopsidedTree : Sequence Char :=
  Sequence.meta [('a', Sequence.meta [('a', Sequence.leaf ['a'])]), ('b', Sequence.leaf ['b'])]

/-- The chain of three levels on the item `a` of `lopsidedTree`, in sync, every index 0. -/
def lopsidedCursor : sequenceCursor Char :=
  mk (some (mk (some (mk none (some lopsidedTree) 0))
      (some (Sequence.meta [('a', Sequence.leaf ['a'])])) 0))
    (some (Sequence.leaf ['a'])) 0

/-- The mirror image of `lopsidedTree`: the first child of the root is the leaf `[a]`, the
second child is a meta-sequence over the leaf `[b]`. -/
def mirrorTree : Sequence Char :=
  Sequence.meta [('a', Sequence.leaf ['a']), ('b', Sequence.meta [('b', Sequence.leaf ['b'])])]

/-- The chain of three levels on the item `b` of `mirrorTree`, in sync, every level on an
item. -/
def mirrorCursor : sequenceCursor Char :=
  mk (some (mk (some (mk none (some mirrorTree) 1))
      (some (Sequence.meta [('b', Sequence.leaf ['b'])])) 0))
    (some (Sequence.leaf ['b'])) 0

end sequenceCursor

namespace sequenceCursor
variable {α : Type}

/-- Source function `iter`: `for cur.valid() && !cb(cur.getItem(cur.idx)) { cur.advance() }`,
for a callback whose result is a function of the item. The result is the cursor after the loop
together with the items the callback was called on, in the order of the calls (the third
argument holds the calls made so far). The first argument bounds the number of times the loop
condition may be evaluated. -/
def iter (cb : α → Bool) : Nat → sequenceCursor α → List α → Option (sequenceCursor α × List α)
  | 0, _, _ => none
  | fuel + 1, cur, calls =>
    cur.valid.bind fun v =>
      if v then
        (cur.getItem cur.idx).bind fun item =>
          if cb item then some (cur, calls ++ [item])
          else cur.advance.bind fun r => iter cb fuel r.1 (calls ++ [item])
      else some (cur, calls)

end sequenceCursor

/-- One cursor object in memory: the three fields of the Go struct, the parent pointer being
the address of another object. -/
structure cursorCell (α : Type) where
  parent : Option Nat
  seq : Option (Sequence α)
  idx : Int
  deriving DecidableEq

/-- The cursor objects allocated so far. The address of an object is its place in the list; a
new object is put at the end. -/
abbrev cursorHeap (α : Type) := List (cursorCell α)

namespace heap
variable {α : Type}

/-- The assignment `cur.idx = idx` through the pointer `cur`. -/
def setIdx (h : cursorHeap α) (cur : Nat) (idx : Int) : Option (cursorHeap α) :=
  h[cur]?.map fun c => h.set cur { c with idx := idx }

/-- Source function `length` through the pointer `cur`. -/
def length (h : cursorHeap α) (cur : Nat) : Option Int :=
  h[cur]?.bind fun c => c.seq.map Sequence.seqLen

/-- Source function `getChildSequence` through the pointer `cur`. -/
def getChildSequence (h : cursorHeap α) (cur : Nat) : Option (Option (Sequence α)) :=
  h[cur]?.bind fun c =>
    match c.seq with
    | some s => if s.isMeta then (s.getChildSequence c.idx).map some else some none
    | none => some none

/-- Source function `sync` through the pointer `cur`: the assignment
`cur.seq = cur.parent.getChildSequence()`. -/
def sync (h : cursorHeap α) (cur : Nat) : Option (cursorHeap α) :=
  h[cur]?.bind fun c =>
    match c.parent with
    | none => none
    | some pp => (getChildSequence h pp).map fun s => h.set cur { c with seq := s }

/-- Source function `advanceMaybeAllowPastEnd` through the pointer `cur`, writing to the
objects in place. The first argument bounds the depth of the recursion along the parent
pointers. -/
def advanceMaybeAllowPastEnd :
    Nat → cursorHeap α → Nat → Bool → Option (cursorHeap α × Bool)
  | 0, _, _, _ => none
  | fuel + 1, h, cur, allowPastEnd =>
    h[cur]?.bind fun c =>
      (c.seq.map Sequence.seqLen).bind fun len =>
        if c.idx < len - 1 then some (h.set cur { c with idx := c.idx + 1 }, true)
        else if c.idx = len then some (h, false)
        else
          match c.parent with
          | some pp =>
            match advanceMaybeAllowPastEnd fuel h pp false with
            | none => none
            | some (h1, true) =>
              (sync h1 cur).bind fun h2 => (setIdx h2 cur 0).map fun h3 => (h3, true)
            | some (h1, false) =>
              if allowPastEnd then
                h1[cur]?.map fun c1 => (h1.set cur { c1 with idx := c1.idx + 1 }, false)
              else some (h1, false)
          | none =>
            if allowPastEnd then some (h.set cur { c with idx := c.idx + 1 }, false)
            else some (h, false)

/-- Source function `retreatMaybeAllowBeforeStart` through the pointer `cur`, writing to the
objects in place. The first argument bounds the depth of the recursion along the parent
pointers. -/
def retreatMaybeAllowBeforeStart :
    Nat → cursorHeap α → Nat → Bool → Option (cursorHeap α × Bool)
  | 0, _, _, _ => none
  | fuel + 1, h, cur, allowBeforeStart =>
    h[cur]?.bind fun c =>
      if 0 < c.idx then some (h.set cur { c with idx := c.idx - 1 }, true)
      else if c.idx = -1 then some (h, false)
      else if c.idx ≠ 0 then none
      else
        match c.parent with
        | some pp =>
          match retreatMaybeAllowBeforeStart fuel h pp false with
          | none => none
          | some (h1, true) =>
            (sync h1 cur).bind fun h2 =>
              (length h2 cur).bind fun len =>
                (setIdx h2 cur (len - 1)).map fun h3 => (h3, true)
          | some (h1, false) =>
            if allowBeforeStart then
              h1[cur]?.map fun c1 => (h1.set cur { c1 with idx := c1.idx - 1 }, false)
            else some (h1, false)
        | none =>
          if allowBeforeStart then some (h.set cur { c with idx := c.idx - 1 }, false)
          else some (h, false)

/-- Source function `advance` through a pointer; a chain of parent pointers that ends has at
most as many objects as the heap. -/
def advance (h : cursorHeap α) (cur : Nat) : Option (cursorHeap α × Bool) :=
  advanceMaybeAllowPastEnd h.length h cur true

/-- Source function `retreat` through a pointer. -/
def retreat (h : cursorHeap α) (cur : Nat) : Option (cursorHeap α × Bool) :=
  retreatMaybeAllowBeforeStart h.length h cur true

/-- Source function `clone` through the pointer `cur`: the parent is cloned first, then a new
object `&sequenceCursor{parent, cur.seq, cur.idx}` is allocated; the result is the heap and the
address of the new object. The first argument bounds the depth of the recursion. -/
def cloneAux : Nat → cursorHeap α → Nat → Option (cursorHeap α × Nat)
  | 0, _, _ => none
  | fuel + 1, h, cur =>
    h[cur]?.bind fun c =>
      match c.parent with
      | none => some (h ++ [{ parent := none, seq := c.seq, idx := c.idx }], h.length)
      | some pp =>
        (cloneAux fuel h pp).bind fun r =>
          r.1[cur]?.map fun c1 =>
            (r.1 ++ [{ parent := some r.2, seq := c1.seq, idx := c1.idx }], r.1.length)

/-- Source function `clone` through a pointer. -/
def clone (h : cursorHeap α) (cur : Nat) : Option (cursorHeap α × Nat) :=
  cloneAux h.length h cur

/-- Source function `current` through the pointer `cur`; it reads only the sequence and the
index of the object. -/
def current (h : cursorHeap α) (cur : Nat) : Option α :=
  h[cur]?.bind fun c => sequenceCursor.current (sequenceCursor.mk none c.seq c.idx)

/-- The first loop of `maxNPrevItems` on the pointer `retreater`. -/
def prevLoop : Nat → cursorHeap α → Nat → List α → Option (cursorHeap α × List α)
  | 0, h, _, prev => some (h, prev)
  | m + 1, h, retreater, prev =>
    (retreat h retreater).bind fun r =>
      if r.2 then (current r.1 retreater).bind fun item =>
        prevLoop m r.1 retreater (prev ++ [item])
      else some (r.1, prev)

/-- Source function `maxNPrevItems` through the pointer `cur`: the heap after the call and the
returned slice. -/
def maxNPrevItems (h : cursorHeap α) (cur : Nat) (n : Int) :
    Option (cursorHeap α × List α) :=
  (clone h cur).bind fun r =>
    (prevLoop n.toNat r.1 r.2 []).bind fun l =>
      (sequenceCursor.swapLoop (l.2.length / 2) 0 l.2).map fun prev => (l.1, prev)

/-- The heap holds the chain `c` at the addresses `addrs`, the cursor first and its ancestors
after it, every object allocated after its parent. -/
def holds (h : cursorHeap α) : List Nat → sequenceCursor α → Prop
  | [a], sequenceCursor.mk none seq idx => h[a]? = some { parent := none, seq := seq, idx := idx }
  | a :: b :: rest, sequenceCursor.mk (some p) seq idx =>
    h[a]? = some { parent := some b, seq := seq, idx := idx } ∧ b < a ∧ holds h (b :: rest) p
  | _, _ => False

/-- The heap `h'` has the objects of `h`, unchanged at every address outside `addrs`. -/
def sameOutside (h h' : cursorHeap α) (addrs : List Nat) : Prop :=
  h'.length = h.length ∧ ∀ x, x ∉ addrs → h'[x]? = h[x]?

/-- The result of a call through a pointer agrees with the result of the call on the chain
`addrs` holds: both fail, or both return the same flag, the heap then holding the new chain at
the same addresses and being unchanged elsewhere. -/
def agrees (h : cursorHeap α) (addrs : List Nat) :
    Option (sequenceCursor α × Bool) → Option (cursorHeap α × Bool) → Prop
  | none, none => True
  | some r, some r' => r'.2 = r.2 ∧ holds r'.1 addrs r.1 ∧ sameOutside h r'.1 addrs
  | _, _ => False

end heap

namespace heap

/-- A heap with the two objects of the chain `sampleCursor 0 2`: the root at address 0 and the
cursor on `c` at address 1. -/
def sampleHeap : cursorHeap Char :=
  [{ parent := none, seq := some sequenceCursor.sampleTree, idx := 0 },
   { parent := some 0, seq := some (Sequence.leaf ['a', 'b', 'c']), idx := 2 }]

end heap

namespace sequenceCursor
variable {α : Type}

/-! ## Unfolding of the two stepping functions -/

theorem advance_eq (parent : Option (sequenceCursor α)) (seq : Option (Sequence α)) (idx : Int)
    (allowPastEnd : Bool) :
    advanceMaybeAllowPastEnd (mk parent seq idx) allowPastEnd =
    (length (mk parent seq idx)).bind fun len =>
      if idx < len - 1 then some (mk parent seq (idx + 1), true)
      else if idx = len then some (mk parent seq idx, false)
      else
        match parent with
        | some p =>
          match advanceMaybeAllowPastEnd p false with
          | none => none
          | some (p', true) =>
            (sync (mk (some p') seq idx)).map fun cur => (mk cur.parent cur.seq 0, true)
          | some (p', false) =>
            some (mk (some p') seq (if allowPastEnd then idx + 1 else idx), false)
        | none => some (mk none seq (if allowPastEnd then idx + 1 else idx), false) := by
  rw [advanceMaybeAllowPastEnd.eq_def]

theorem retreat_eq (parent : Option (sequenceCursor α)) (seq : Option (Sequence α)) (idx : Int)
    (allowBeforeStart : Bool) :
    retreatMaybeAllowBeforeStart (mk parent seq idx) allowBeforeStart =
    if 0 < idx then some (mk parent seq (idx - 1), true)
    else if idx = -1 then some (mk parent seq idx, false)
    else if idx ≠ 0 then none
    else
      match parent with
      | some p =>
        match retreatMaybeAllowBeforeStart p false with
        | none => none
        | some (p', true) =>
          (sync (mk (some p') seq idx)).bind fun cur =>
            cur.length.map fun len => (mk cur.parent cur.seq (len - 1), true)
        | some (p', false) =>
          some (mk (some p') seq (if allowBeforeStart then idx - 1 else idx), false)
      | none => some (mk none seq (if allowBeforeStart then idx - 1 else idx), false) := by
  rw [retreatMaybeAllowBeforeStart.eq_def]

@[simp] theorem length_mk (parent : Option (sequenceCursor α)) (seq : Option (Sequence α))
    (idx : Int) : length (mk parent seq idx) = seq.map Sequence.seqLen := rfl

@[simp] theorem idx_mk (parent : Option (sequenceCursor α)) (seq : Option (Sequence α))
    (idx : Int) : (mk parent seq idx).idx = idx := rfl

@[simp] theorem seq_mk (parent : Option (sequenceCursor α)) (seq : Option (Sequence α))
    (idx : Int) : (mk parent seq idx).seq = seq := rfl

@[simp] theorem parent_mk (parent : Option (sequenceCursor α)) (seq : Option (Sequence α))
    (idx : Int) : (mk parent seq idx).parent = parent := rfl

theorem mk_eta (c : sequenceCursor α) : mk c.parent c.seq c.idx = c := by
  cases c; rfl

/-- A step of the ancestor probe that returns false has moved nothing. -/
theorem advance_false_unchanged :
    ∀ (c c' : sequenceCursor α),
      advanceMaybeAllowPastEnd c false = some (c', false) → c' = c
  | mk parent seq idx, c', h => by
    rw [advance_eq] at h
    cases seq with
    | none => simp at h
    | some s =>
      simp only [length_mk, Option.map_some', Option.some_bind, Bool.false_eq_true,
        if_false] at h
      by_cases h1 : idx < s.seqLen - 1
      · simp [h1] at h
      · rw [if_neg h1] at h
        by_cases h2 : idx = s.seqLen
        · subst h2
          simp at h
          exact h.symm
        · rw [if_neg h2] at h
          cases parent with
          | none => simp at h; exact h.symm
          | some p =>
            simp only at h
            cases hp : advanceMaybeAllowPastEnd p false with
            | none => simp [hp] at h
            | some r =>
              obtain ⟨p', b⟩ := r
              cases b with
              | true => simp [hp] at h
              | false =>
                have := advance_false_unchanged p p' hp
                simp [hp] at h
                rw [← h, this]

/-- A step of the ancestor probe that returns false has moved nothing. -/
theorem retreat_false_unchanged :
    ∀ (c c' : sequenceCursor α),
      retreatMaybeAllowBeforeStart c false = some (c', false) → c' = c
  | mk parent seq idx, c', h => by
    rw [retreat_eq] at h
    simp only [Bool.false_eq_true, if_false] at h
    by_cases h1 : 0 < idx
    · simp [h1] at h
    · by_cases h2 : idx = -1
      · simp [h2] at h
        simpa [h2] using h.symm
      · by_cases h3 : idx ≠ 0
        · simp [h1, h2, h3] at h
        · simp only [h1, h2, h3, if_false] at h
          cases parent with
          | none => simp at h; exact h.symm
          | some p =>
            simp only at h
            cases hp : retreatMaybeAllowBeforeStart p false with
            | none => simp [hp] at h
            | some r =>
              obtain ⟨p', b⟩ := r
              cases b with
              | true =>
                simp only [hp] at h
                cases hs : sync (mk (some p') seq idx) with
                | none => simp [hs] at h
                | some cur =>
                  cases hl : cur.length with
                  | none => simp [hs, hl] at h
                  | some len => simp [hs, hl] at h
              | false =>
                have := retreat_false_unchanged p p' hp
                simp [hp] at h
                rw [← h, this]

end sequenceCursor

namespace sequenceCursor
variable {α : Type}

theorem parentCannotAdvance_step (p : sequenceCursor α) (h : parentCannotAdvance (some p)) :
    advanceMaybeAllowPastEnd p false = some (p, false) := by
  unfold parentCannotAdvance at h
  cases hp : advanceMaybeAllowPastEnd p false with
  | none => simp [hp] at h
  | some r =>
    obtain ⟨p', b⟩ := r
    simp [hp] at h
    subst h
    rw [advance_false_unchanged p p' hp]

theorem parentCannotRetreat_step (p : sequenceCursor α) (h : parentCannotRetreat (some p)) :
    retreatMaybeAllowBeforeStart p false = some (p, false) := by
  unfold parentCannotRetreat at h
  cases hp : retreatMaybeAllowBeforeStart p false with
  | none => simp [hp] at h
  | some r =>
    obtain ⟨p', b⟩ := r
    simp [hp] at h
    subst h
    rw [retreat_false_unchanged p p' hp]

theorem advance_last (parent : Option (sequenceCursor α)) (s : Sequence α)
    (hp : parentCannotAdvance parent) :
    advance (mk parent (some s) (s.seqLen - 1)) = some (mk parent (some s) s.seqLen, false) := by
  unfold advance
  rw [advance_eq]
  simp only [length_mk, Option.map_some', Option.some_bind, lt_self_iff_false, if_false]
  rw [if_neg (by omega)]
  cases parent with
  | none => simp
  | some p => simp [parentCannotAdvance_step p hp]

theorem advance_at_end (parent : Option (sequenceCursor α)) (s : Sequence α) :
    advance (mk parent (some s) s.seqLen) = some (mk parent (some s) s.seqLen, false) := by
  unfold advance
  rw [advance_eq]
  simp

theorem retreat_pos (parent : Option (sequenceCursor α)) (seq : Option (Sequence α)) (idx : Int)
    (allow : Bool) (h : 0 < idx) :
    retreatMaybeAllowBeforeStart (mk parent seq idx) allow = some (mk parent seq (idx - 1), true) := by
  rw [retreat_eq, if_pos h]

/-- C3 as stated fails: the cursor on the last item `f` of the sample tree has
`idx = length() - 1` and a parent that cannot advance, yet `advance` returns false and moves the
index from 2 to 3, and the following `retreat` returns true and moves it back to 2. -/
theorem advance_at_last_item_moves :
    length (sampleCursor 1 2) = some ((sampleCursor 1 2).idx + 1)
    ∧ parentCannotAdvance (some (mk none (some sampleTree) 1))
    ∧ advance (sampleCursor 1 2) = some (sampleCursor 1 3, false)
    ∧ (sampleCursor 1 3).idx ≠ (sampleCursor 1 2).idx
    ∧ retreat (sampleCursor 1 3) = some (sampleCursor 1 2, true)
    ∧ (sampleCursor 1 2).idx ≠ (sampleCursor 1 3).idx :=
  ⟨by decide, by unfold parentCannotAdvance; decide, by decide, by decide, by decide,
    by decide⟩

/-- C3, amended: on the last item of the whole tree (`idx = length() - 1` in a non-empty
sequence, the parent absent or unable to advance) `advance` returns false and moves the index to
the end sentinel `length()`, leaving the sequence and every ancestor as they were; the following
`retreat` returns true and moves the index back to `length() - 1`. -/
theorem advance_then_retreat_at_last_item (parent : Option (sequenceCursor α)) (s : Sequence α)
    (hp : parentCannotAdvance parent) (hne : 0 < s.seqLen) :
    advance (mk parent (some s) (s.seqLen - 1)) = some (mk parent (some s) s.seqLen, false)
    ∧ retreat (mk parent (some s) s.seqLen) = some (mk parent (some s) (s.seqLen - 1), true) :=
  ⟨advance_last parent s hp, retreat_pos parent (some s) s.seqLen true hne⟩

theorem advance_then_retreat_at_last_item_witness :
    parentCannotAdvance (some (mk none (some sampleTree) 1))
    ∧ 0 < (Sequence.leaf ['d', 'e', 'f']).seqLen
    ∧ advance (sampleCursor 1 2) = some (sampleCursor 1 3, false)
    ∧ retreat (sampleCursor 1 3) = some (sampleCursor 1 2, true) :=
  ⟨by unfold parentCannotAdvance; decide, by decide,
    advance_then_retreat_at_last_item (some (mk none (some sampleTree) 1))
      (Sequence.leaf ['d', 'e', 'f']) (by unfold parentCannotAdvance; decide) (by decide)⟩

end sequenceCursor

namespace sequenceCursor
variable {α : Type}

theorem advanceTimes_at_end (parent : Option (sequenceCursor α)) (s : Sequence α) (n : Nat) :
    advanceTimes n (mk parent (some s) s.seqLen) = some (mk parent (some s) s.seqLen) := by
  induction n with
  | zero => rfl
  | succ n ih => simp [advanceTimes, advance_at_end, ih]

/-- C4: at `idx = length() - 1` with the parent absent or unable to advance, `advance` returns
false, sets the index to `length()` and leaves the sequence and all ancestors as they were; at
`idx = length()` it returns false and changes nothing, and so does any number of further calls. -/
theorem advance_end_sentinel :
    (∀ (parent : Option (sequenceCursor α)) (s : Sequence α), parentCannotAdvance parent →
      advance (mk parent (some s) (s.seqLen - 1)) = some (mk parent (some s) s.seqLen, false))
    ∧ (∀ (parent : Option (sequenceCursor α)) (s : Sequence α),
      advance (mk parent (some s) s.seqLen) = some (mk parent (some s) s.seqLen, false))
    ∧ (∀ (parent : Option (sequenceCursor α)) (s : Sequence α) (n : Nat),
      advanceTimes n (mk parent (some s) s.seqLen) = some (mk parent (some s) s.seqLen)) :=
  ⟨advance_last, advance_at_end, advanceTimes_at_end⟩

theorem advance_end_sentinel_witness :
    parentCannotAdvance (some (mk none (some sampleTree) 1))
    ∧ advance (sampleCursor 1 2) = some (sampleCursor 1 3, false) :=
  ⟨by unfold parentCannotAdvance; decide,
    advance_end_sentinel.1 (some (mk none (some sampleTree) 1)) (Sequence.leaf ['d', 'e', 'f'])
      (by unfold parentCannotAdvance; decide)⟩

theorem retreat_at_start (parent : Option (sequenceCursor α)) (seq : Option (Sequence α))
    (allow : Bool) :
    retreatMaybeAllowBeforeStart (mk parent seq (-1)) allow = some (mk parent seq (-1), false) := by
  rw [retreat_eq]
  simp

theorem retreat_first (parent : Option (sequenceCursor α)) (seq : Option (Sequence α))
    (hp : parentCannotRetreat parent) :
    retreat (mk parent seq 0) = some (mk parent seq (-1), false) := by
  unfold retreat
  rw [retreat_eq]
  cases parent with
  | none => simp
  | some p => simp [parentCannotRetreat_step p hp]

theorem valid_true_iff (c : sequenceCursor α) :
    valid c = some true ↔ ∃ s, c.seq = some s ∧ 0 ≤ c.idx ∧ c.idx < s.seqLen := by
  obtain ⟨parent, seq, idx⟩ := c
  simp only [valid, idx_mk, length_mk, seq_mk]
  by_cases h0 : 0 ≤ idx
  · cases seq with
    | none => simp [h0]
    | some s => simp [h0]
  · simp [h0]

theorem getChildSequence_of_valid (p : sequenceCursor α) (s : Sequence α)
    (hs : p.seq = some s) (hm : s.isMeta = true) (hv : p.valid = some true) :
    ∃ child, s.children[p.idx.toNat]? = some child
      ∧ getChildSequence p = some (some child) := by
  obtain ⟨par, sq, i⟩ := p
  simp only [seq_mk] at hs
  subst hs
  simp only [valid, idx_mk, length_mk, Option.map_some'] at hv
  by_cases h0 : 0 ≤ i
  · simp only [h0, if_true, Option.some.injEq, decide_eq_true_eq] at hv
    have hlen : s.items.length = s.children.length := by
      cases s with
      | leaf xs => simp [Sequence.isMeta] at hm
      | meta ts => simp [Sequence.items, Sequence.children]
    have hlt : i.toNat < s.children.length := by
      unfold Sequence.seqLen at hv
      omega
    refine ⟨s.children[i.toNat], List.getElem?_eq_getElem hlt, ?_⟩
    simp [getChildSequence, hm, Sequence.getChildSequence, h0, List.getElem?_eq_getElem hlt]
  · simp [h0] at hv

theorem retreat_cross (p p' : sequenceCursor α) (seq : Option (Sequence α)) (s : Sequence α)
    (allow : Bool)
    (hp : retreatMaybeAllowBeforeStart p false = some (p', true))
    (hs : p'.seq = some s) (hm : s.isMeta = true) (hv : p'.valid = some true) :
    ∃ child, 0 ≤ p'.idx ∧ s.children[p'.idx.toNat]? = some child
      ∧ retreatMaybeAllowBeforeStart (mk (some p) seq 0) allow
          = some (mk (some p') (some child) (child.seqLen - 1), true) := by
  obtain ⟨child, hget, hc⟩ := getChildSequence_of_valid p' s hs hm hv
  obtain ⟨_, _, h0, _⟩ := (valid_true_iff p').mp hv
  refine ⟨child, h0, hget, ?_⟩
  rw [retreat_eq]
  simp [hp, sync, hc]

/-- C5 as stated fails: on the chain `mirrorCursor` the cursor has `idx = 0` and the probe of
its parent returns true, leaving the parent on a real previous item (the item `a` of the leaf
`[a]`, where `valid()` holds); that item has no child, so `sync()` leaves the cursor with a nil
sequence and `retreat()` fails on reading its length instead of returning true. -/
theorem retreat_mirror_fails :
    mirrorCursor.idx = 0
    ∧ mirrorCursor.parent
        = some (mk (some (mk none (some mirrorTree) 1))
            (some (Sequence.meta [('b', Sequence.leaf ['b'])])) 0)
    ∧ retreatMaybeAllowBeforeStart
          (mk (some (mk none (some mirrorTree) 1))
            (some (Sequence.meta [('b', Sequence.leaf ['b'])])) 0) false
        = some (mk (some (mk none (some mirrorTree) 0)) (some (Sequence.leaf ['a'])) 0, true)
    ∧ valid (mk (some (mk none (some mirrorTree) 0)) (some (Sequence.leaf ['a'])) 0)
        = some true
    ∧ current (mk (some (mk none (some mirrorTree) 0)) (some (Sequence.leaf ['a'])) 0)
        = some 'a'
    ∧ sync (mk (some (mk (some (mk none (some mirrorTree) 0)) (some (Sequence.leaf ['a'])) 0))
          (some (Sequence.leaf ['b'])) 0)
        = some (mk (some (mk (some (mk none (some mirrorTree) 0))
            (some (Sequence.leaf ['a'])) 0)) none 0)
    ∧ retreat mirrorCursor = none := by
  decide

/-- C5, amended: `retreat` decrements a positive index and returns true; at `idx = -1` it
returns false and changes nothing; at `idx = 0`, when the parent's probe returns true and leaves
the parent on a real item of a meta-sequence `s`, it returns true, takes as sequence the child
of `s` at the parent's new index and sets the index to that child's `length() - 1`; at
`idx = 0` with the parent absent or unable to retreat it returns false and sets the index to
`-1`, leaving every ancestor as it was. -/
theorem retreat_mirrors_advance :
    (∀ (parent : Option (sequenceCursor α)) (seq : Option (Sequence α)) (idx : Int), 0 < idx →
      retreat (mk parent seq idx) = some (mk parent seq (idx - 1), true))
    ∧ (∀ (parent : Option (sequenceCursor α)) (seq : Option (Sequence α)),
      retreat (mk parent seq (-1)) = some (mk parent seq (-1), false))
    ∧ (∀ (p p' : sequenceCursor α) (seq : Option (Sequence α)) (s : Sequence α),
      retreatMaybeAllowBeforeStart p false = some (p', true) →
      p'.seq = some s → s.isMeta = true → p'.valid = some true →
      ∃ child, 0 ≤ p'.idx ∧ s.children[p'.idx.toNat]? = some child
        ∧ retreat (mk (some p) seq 0) = some (mk (some p') (some child) (child.seqLen - 1), true))
    ∧ (∀ (parent : Option (sequenceCursor α)) (seq : Option (Sequence α)),
      parentCannotRetreat parent →
      retreat (mk parent seq 0) = some (mk parent seq (-1), false)) :=
  ⟨fun parent seq idx h => retreat_pos parent seq idx true h,
   fun parent seq => retreat_at_start parent seq true,
   fun p p' seq s hp hs hm hv => retreat_cross p p' seq s true hp hs hm hv,
   retreat_first⟩

theorem retreat_mirrors_advance_witness :
    (0 : Int) < 2
    ∧ retreat (sampleCursor 1 2) = some (sampleCursor 1 1, true)
    ∧ retreatMaybeAllowBeforeStart (mk none (some sampleTree) 1) false
        = some (mk none (some sampleTree) 0, true)
    ∧ sampleTree.children[(0 : Int).toNat]? = some (Sequence.leaf ['a', 'b', 'c'])
    ∧ retreat (sampleCursor 1 0) = some (sampleCursor 0 2, true)
    ∧ (∃ child, 0 ≤ (mk none (some sampleTree) 0 : sequenceCursor Char).idx
        ∧ sampleTree.children[(mk none (some sampleTree) 0 : sequenceCursor Char).idx.toNat]?
            = some child
        ∧ retreat (sampleCursor 1 0)
            = some (mk (some (mk none (some sampleTree) 0)) (some child) (child.seqLen - 1), true))
    ∧ parentCannotRetreat (some (mk none (some sampleTree) 0))
    ∧ retreat (sampleCursor 0 0) = some (sampleCursor 0 (-1), false) :=
  ⟨by decide,
   retreat_mirrors_advance.1 (some (mk none (some sampleTree) 1))
     (sampleTree.getChildSequence 1) 2 (by decide),
   by decide, by decide, by decide,
   retreat_mirrors_advance.2.2.1 (mk none (some sampleTree) 1) (mk none (some sampleTree) 0)
     (sampleTree.getChildSequence 1) sampleTree (by decide) rfl (by decide) (by decide),
   by unfold parentCannotRetreat; decide,
   retreat_mirrors_advance.2.2.2 (some (mk none (some sampleTree) 0))
     (sampleTree.getChildSequence 0) (by unfold parentCannotRetreat; decide)⟩

end sequenceCursor

/-! ## Binary search -/

theorem searchLoop_spec (f : Int → Option Bool) (g : Int → Bool) (n : Int)
    (hf : ∀ h, 0 ≤ h → h < n → f h = some (g h)) :
    ∀ (fuel : Nat) (i j : Int), 0 ≤ i → i ≤ j → j ≤ n → j - i ≤ fuel →
      ∃ r, searchLoop f fuel i j = some r ∧ i ≤ r ∧ r ≤ j
        ∧ ((∀ a b, 0 ≤ a → a ≤ b → b < n → g a = true → g b = true) →
            (∀ k, 0 ≤ k → k < i → g k = false) → (∀ k, j ≤ k → k < n → g k = true) →
            (∀ k, 0 ≤ k → k < r → g k = false) ∧ (∀ k, r ≤ k → k < n → g k = true)) := by
  intro fuel
  induction fuel with
  | zero =>
    intro i j _ hij _ hfuel
    have : i = j := by omega
    subst this
    exact ⟨i, by simp [searchLoop], le_refl _, le_refl _, fun _ h1 h2 => ⟨h1, h2⟩⟩
  | succ fuel ih =>
    intro i j hi hij hjn hfuel
    by_cases hlt : i < j
    · have hh0 : 0 ≤ (i + j) / 2 := by omega
      have hhi : i ≤ (i + j) / 2 := by omega
      have hhj : (i + j) / 2 < j := by omega
      have hfh := hf ((i + j) / 2) hh0 (by omega)
      cases hg : g ((i + j) / 2) with
      | false =>
        obtain ⟨r, hr, h1, h2, h3⟩ := ih ((i + j) / 2 + 1) j (by omega) (by omega) hjn (by omega)
        refine ⟨r, ?_, by omega, h2, ?_⟩
        · rw [searchLoop, if_pos hlt, hfh, hg]
          exact hr
        · intro hmono hlo hhi2
          apply h3 hmono _ hhi2
          intro k hk0 hk
          cases hgk : g k with
          | false => rfl
          | true =>
            have := hmono k ((i + j) / 2) hk0 (by omega) (by omega) hgk
            rw [hg] at this
            exact absurd this (by simp)
      | true =>
        obtain ⟨r, hr, h1, h2, h3⟩ := ih i ((i + j) / 2) hi hhi (by omega) (by omega)
        refine ⟨r, ?_, h1, by omega, ?_⟩
        · rw [searchLoop, if_pos hlt, hfh, hg]
          exact hr
        · intro hmono hlo hhi2
          apply h3 hmono hlo
          intro k hk hkn
          exact hmono ((i + j) / 2) k hh0 hk hkn hg
    · have : i = j := by omega
      subst this
      exact ⟨i, by simp [searchLoop], le_refl _, le_refl _, fun _ h1 h2 => ⟨h1, h2⟩⟩

theorem sortSearch_spec (f : Int → Option Bool) (g : Int → Bool) (n : Int) (hn : 0 ≤ n)
    (hf : ∀ h, 0 ≤ h → h < n → f h = some (g h)) :
    ∃ r, sortSearch n f = some r ∧ 0 ≤ r ∧ r ≤ n
      ∧ ((∀ a b, 0 ≤ a → a ≤ b → b < n → g a = true → g b = true) →
          (∀ k, 0 ≤ k → k < r → g k = false) ∧ (∀ k, r ≤ k → k < n → g k = true)) := by
  obtain ⟨r, hr, h1, h2, h3⟩ :=
    searchLoop_spec f g n hf n.toNat 0 n (le_refl _) hn (le_refl _) (by omega)
  refine ⟨r, hr, h1, h2, fun hmono => h3 hmono ?_ ?_⟩
  · intro k hk0 hk
    omega
  · intro k hk hkn
    omega

theorem monotoneOver_getElem {α : Type} (compare : α → Bool) (xs : List α)
    (hm : monotoneOver compare xs) (a b : Nat) (x y : α) (hab : a ≤ b)
    (hx : xs[a]? = some x) (hy : xs[b]? = some y) (hc : compare x = true) :
    compare y = true := by
  obtain ⟨k, hlo, hhi⟩ := hm
  by_cases hak : a < k
  · have hmem : x ∈ xs.take k := by
      apply List.getElem?_mem (n := a)
      rw [List.getElem?_take_of_lt hak]
      exact hx
    rw [hlo x hmem] at hc
    exact absurd hc (by simp)
  · apply hhi
    apply List.getElem?_mem (n := b - k)
    rw [List.getElem?_drop]
    have : k + (b - k) = b := by omega
    rw [this]
    exact hy

namespace sequenceCursor
variable {α : Type}

theorem seekBinary_eq (compare : α → Bool) (parent : Option (sequenceCursor α))
    (seq : Option (Sequence α)) (idx : Int) :
    seekBinary compare (mk parent seq idx) =
      (match parent with
        | some p =>
          match seekBinary compare p with
          | none => none
          | some p' => sync (mk (some p') seq idx)
        | none => some (mk none seq idx)).bind (localSeek compare) := by
  rw [seekBinary.eq_def]
  rfl

/-- The item test that `seekBinary` hands to `sort.Search`, as a total function. -/
theorem localSeek_spec (compare : α → Bool) (parent : Option (sequenceCursor α))
    (s : Sequence α) (idx : Int) :
    ∃ i, localSeek compare (mk parent (some s) idx) = some (mk parent (some s) i)
      ∧ -1 ≤ i ∧ i < s.seqLen ∧ (0 < s.seqLen → 0 ≤ i)
      ∧ (0 < s.seqLen →
          (∀ (a b : Nat) (x y : α), a ≤ b → s.items[a]? = some x → s.items[b]? = some y →
            compare x = true → compare y = true) →
          seekTarget compare s.items i) := by
  have hn : 0 ≤ s.seqLen := by unfold Sequence.seqLen; omega
  obtain ⟨r, hr, h0, hle, hmono⟩ := sortSearch_spec
    (fun i => (getItem (mk parent (some s) idx) i).map compare)
    (fun i => match s.items[i.toNat]? with
      | some x => compare x
      | none => false) s.seqLen hn (by
        intro h h0 hlt
        have : h.toNat < s.items.length := by unfold Sequence.seqLen at hlt; omega
        simp [getItem, Sequence.getItem, h0, List.getElem?_eq_getElem this])
  have hloc : localSeek compare (mk parent (some s) idx)
      = some (if r = s.seqLen then mk parent (some s) (s.seqLen - 1)
          else mk parent (some s) r) := by
    simp only [localSeek, length_mk, Option.map_some', Option.some_bind, hr, seq_mk, parent_mk]
  by_cases hrn : r = s.seqLen
  · refine ⟨s.seqLen - 1, by rw [hloc, if_pos hrn], by omega, by omega, by omega, ?_⟩
    intro hpos hm
    subst hrn
    have hall := (hmono (by
      intro a b ha hab hb
      unfold Sequence.seqLen at hb
      have h1 : a.toNat < s.items.length := by omega
      have h2 : b.toNat < s.items.length := by omega
      rw [List.getElem?_eq_getElem h1, List.getElem?_eq_getElem h2]
      exact hm a.toNat b.toNat _ _ (by omega)
        (List.getElem?_eq_getElem h1) (List.getElem?_eq_getElem h2))).1
    have hfalse : ∀ x ∈ s.items, compare x = false := by
      intro x hx
      obtain ⟨k, hk⟩ := List.mem_iff_getElem?.mp hx
      have hklt : k < s.items.length := by
        by_contra hcon
        rw [List.getElem?_eq_none (by omega)] at hk
        exact absurd hk (by simp)
      have := hall (k : Int) (by omega) (by unfold Sequence.seqLen; omega)
      simpa [hk] using this
    refine ⟨by omega, by unfold Sequence.seqLen at *; omega, ?_, ?_, ?_⟩
    · intro k _ x hx
      exact hfalse x (List.getElem?_mem hx)
    · rintro ⟨x, hx, hc⟩
      rw [hfalse x hx] at hc
      exact absurd hc (by simp)
    · intro _
      rfl
  · refine ⟨r, by rw [hloc, if_neg hrn], by omega, by omega, fun _ => h0, ?_⟩
    intro hpos hm
    obtain ⟨hlo, hhi⟩ := hmono (by
      intro a b ha hab hb
      unfold Sequence.seqLen at hb
      have h1 : a.toNat < s.items.length := by omega
      have h2 : b.toNat < s.items.length := by omega
      rw [List.getElem?_eq_getElem h1, List.getElem?_eq_getElem h2]
      exact hm a.toNat b.toNat _ _ (by omega)
        (List.getElem?_eq_getElem h1) (List.getElem?_eq_getElem h2))
    have hrlt : r < s.seqLen := by omega
    have hr' : r.toNat < s.items.length := by unfold Sequence.seqLen at hrlt; omega
    have htrue := hhi r (le_refl _) hrlt
    simp only [List.getElem?_eq_getElem hr'] at htrue
    refine ⟨h0, by unfold Sequence.seqLen at hrlt; exact hrlt, ?_, ?_, ?_⟩
    · intro k hk x hx
      have := hlo (k : Int) (by omega) hk
      simpa [hx] using this
    · intro _
      exact ⟨_, List.getElem?_eq_getElem hr', htrue⟩
    · intro hall
      rw [hall _ (List.getElem_mem hr')] at htrue
      exact absurd htrue (by simp)

/-- C6: on a root cursor over a non-empty sequence, for a predicate that is false on a first part
of the items and true on the rest, `seekBinary` returns with the index on the first item that
satisfies the predicate, and on the last item when none does, whatever the index was before. -/
theorem seekBinary_root_first (compare : α → Bool) (s : Sequence α) (idx : Int)
    (hne : 0 < s.seqLen) (hm : monotoneOver compare s.items) :
    ∃ i, seekBinary compare (mk none (some s) idx) = some (mk none (some s) i)
      ∧ seekTarget compare s.items i := by
  obtain ⟨i, hi, _, _, _, ht⟩ := localSeek_spec compare none s idx
  exact ⟨i, by rw [seekBinary_eq]; exact hi, ht hne (monotoneOver_getElem compare s.items hm)⟩

theorem seekBinary_root_first_witness :
    0 < (Sequence.leaf ['a', 'b', 'c', 'd']).seqLen
    ∧ monotoneOver (fun x => decide ('c' ≤ x)) (Sequence.leaf ['a', 'b', 'c', 'd']).items
    ∧ ∃ i, seekBinary (fun x => decide ('c' ≤ x)) (mk none (some (Sequence.leaf ['a', 'b', 'c', 'd'])) 3)
          = some (mk none (some (Sequence.leaf ['a', 'b', 'c', 'd'])) i)
        ∧ seekTarget (fun x => decide ('c' ≤ x)) (Sequence.leaf ['a', 'b', 'c', 'd']).items i :=
  ⟨by decide, ⟨2, by decide, by decide⟩,
    seekBinary_root_first (fun x => decide ('c' ≤ x)) (Sequence.leaf ['a', 'b', 'c', 'd']) 3
      (by decide) ⟨2, by decide, by decide⟩⟩

end sequenceCursor

namespace sequenceCursor
variable {α : Type}

theorem localSeek_inv (compare : α → Bool) (cur c' : sequenceCursor α)
    (h : localSeek compare cur = some c') :
    ∃ s i, cur.seq = some s ∧ c' = mk cur.parent (some s) i
      ∧ -1 ≤ i ∧ i < s.seqLen ∧ (0 < s.seqLen → 0 ≤ i) := by
  obtain ⟨parent, seq, idx⟩ := cur
  cases seq with
  | none => simp [localSeek] at h
  | some s =>
    obtain ⟨i, hi, h1, h2, h3, _⟩ := localSeek_spec compare parent s idx
    rw [hi] at h
    exact ⟨s, i, rfl, by simpa using h.symm, h1, h2, h3⟩

theorem localSeek_idx (compare : α → Bool) (parent : Option (sequenceCursor α))
    (seq : Option (Sequence α)) (i j : Int) :
    localSeek compare (mk parent seq i) = localSeek compare (mk parent seq j) := rfl

theorem seekBinary_fixed (compare : α → Bool) :
    ∀ (c c' : sequenceCursor α), seekBinary compare c = some c' → seekBinary compare c' = some c'
  | mk none seq idx, c', h => by
    rw [seekBinary_eq] at h
    simp only [Option.some_bind] at h
    obtain ⟨s, i, hs, hc, -⟩ := localSeek_inv compare _ c' h
    simp only [seq_mk, parent_mk] at hs hc
    subst hs
    subst hc
    rw [seekBinary_eq]
    simp only [Option.some_bind]
    rw [localSeek_idx compare none (some s) i idx]
    exact h
  | mk (some p) seq idx, c', h => by
    rw [seekBinary_eq] at h
    cases hp : seekBinary compare p with
    | none => simp [hp] at h
    | some p' =>
      simp only [hp] at h
      cases hch : getChildSequence p' with
      | none => simp [sync, hch] at h
      | some chseq =>
        simp only [sync, parent_mk, hch, Option.map_some', idx_mk, Option.some_bind] at h
        obtain ⟨s, i, hs, hc, -⟩ := localSeek_inv compare _ c' h
        simp only [seq_mk, parent_mk] at hs hc
        subst hs
        subst hc
        have ih := seekBinary_fixed compare p p' hp
        rw [seekBinary_eq]
        simp only [ih, sync, parent_mk, hch, Option.map_some', idx_mk, Option.some_bind]
        rw [localSeek_idx compare (some p') (some s) i idx]
        exact h

end sequenceCursor

theorem Sequence.nonEmptyTo_pos {α : Type} (k : Nat) (s : Sequence α)
    (h : s.nonEmptyTo k) : 0 < s.seqLen := by
  cases k with
  | zero => exact h
  | succ k => exact h.2.1

/-- On a tree whose leaves all lie at depth `d`, non-empty chunks down to level `d` give the two
conditions of `nonEmptyTo`. -/
theorem Sequence.nonEmptyTo_of_leafDepth {α : Type} : ∀ (d : Nat) (s : Sequence α),
    s.chunksNonEmptyTo d → s.leafDepth d → s.nonEmptyTo d
  | 0, _, hne, _ => hne
  | d + 1, _, hne, hleaf =>
    ⟨hleaf.1, hne.1, fun c hc =>
      Sequence.nonEmptyTo_of_leafDepth d c (hne.2 c hc) (hleaf.2 c hc)⟩

/-- Non-empty chunks down to level `d` below meta-sequences give the two conditions of
`nonEmptyTo`. -/
theorem Sequence.nonEmptyTo_of_metaTo {α : Type} : ∀ (d : Nat) (s : Sequence α),
    s.chunksNonEmptyTo d → s.metaTo d → s.nonEmptyTo d
  | 0, _, hne, _ => hne
  | d + 1, _, hne, hm =>
    ⟨hm.1, hne.1, fun c hc =>
      Sequence.nonEmptyTo_of_metaTo d c (hne.2 c hc) (hm.2 c hc)⟩

namespace sequenceCursor
variable {α : Type}

theorem valid_of_bounds (parent : Option (sequenceCursor α)) (s : Sequence α) (i : Int)
    (h0 : 0 ≤ i) (h1 : i < s.seqLen) : valid (mk parent (some s) i) = some true := by
  simp [valid, h0, h1]

/-- On a tree whose chunks are non-empty down to the level of the cursor, `seekBinary` returns,
and it leaves the cursor valid on a sequence whose own subtree has non-empty chunks. -/
theorem seekBinary_total (compare : α → Bool) :
    ∀ (c : sequenceCursor α) (t : Sequence α) (k : Nat),
      rootSeq c = some t → t.nonEmptyTo (depth c + k) →
      ∃ c' s, seekBinary compare c = some c' ∧ c'.seq = some s ∧ s.nonEmptyTo k
        ∧ valid c' = some true
  | mk none seq idx, t, k, hroot, hne => by
    simp only [rootSeq] at hroot
    subst hroot
    simp only [depth, Nat.zero_add] at hne
    obtain ⟨i, hi, _, h2, h3, _⟩ := localSeek_spec compare none t idx
    have hpos := Sequence.nonEmptyTo_pos k t hne
    refine ⟨mk none (some t) i, t, ?_, rfl, hne, valid_of_bounds none t i (h3 hpos) h2⟩
    rw [seekBinary_eq]
    exact hi
  | mk (some p) seq idx, t, k, hroot, hne => by
    simp only [rootSeq] at hroot
    simp only [depth] at hne
    have hne' : t.nonEmptyTo (depth p + (k + 1)) := by
      have : depth p + 1 + k = depth p + (k + 1) := by omega
      rw [this] at hne
      exact hne
    obtain ⟨p', s, hp, hs, hsne, hv⟩ := seekBinary_total compare p t (k + 1) hroot hne'
    obtain ⟨hmeta, _, hch⟩ := hsne
    obtain ⟨child, hget, hchild⟩ := getChildSequence_of_valid p' s hs hmeta hv
    have hcne : child.nonEmptyTo k := hch child (List.getElem?_mem hget)
    obtain ⟨i, hi, _, h2, h3, _⟩ := localSeek_spec compare (some p') child idx
    have hpos := Sequence.nonEmptyTo_pos k child hcne
    refine ⟨mk (some p') (some child) i, child, ?_, rfl, hcne,
      valid_of_bounds _ child i (h3 hpos) h2⟩
    rw [seekBinary_eq]
    simp only [hp, sync, parent_mk, hchild, Option.map_some', idx_mk, Option.some_bind]
    exact hi

theorem seekBinary_range (compare : α → Bool) (c c' : sequenceCursor α)
    (h : seekBinary compare c = some c') :
    ∃ len, c'.length = some len ∧ -1 ≤ c'.idx ∧ c'.idx < len
      ∧ (0 < len → valid c' = some true) := by
  obtain ⟨parent, seq, idx⟩ := c
  rw [seekBinary_eq] at h
  cases hcur : (match parent with
      | some p =>
        match seekBinary compare p with
        | none => none
        | some p' => sync (mk (some p') seq idx)
      | none => some (mk none seq idx)) with
  | none => simp [hcur] at h
  | some cur =>
    rw [hcur] at h
    simp only [Option.some_bind] at h
    obtain ⟨s, i, _, hc, h1, h2, h3⟩ := localSeek_inv compare cur c' h
    subst hc
    exact ⟨s.seqLen, rfl, h1, h2, fun hpos => valid_of_bounds _ s i (h3 hpos) h2⟩

/-- C8 as stated fails: on a root cursor over an empty sequence `seekBinary` leaves the index at
`-1`, where `valid()` is false. -/
theorem seekBinary_empty_not_valid :
    seekBinary (fun _ => true) (mk none (some (Sequence.leaf ([] : List Char))) 0)
      = some (mk none (some (Sequence.leaf [])) (-1))
    ∧ valid (mk none (some (Sequence.leaf ([] : List Char))) (-1)) = some false := by
  decide

/-- C8, amended: for every predicate and every cursor chain over a tree whose chunks are
non-empty down to the level of the cursor (every ancestor holding a meta-sequence), `seekBinary`
returns and `valid()` holds afterwards; and whenever `seekBinary` returns, `-1 <= idx < length()`,
so the index is never the end sentinel, and `valid()` holds if the sequence is non-empty. -/
theorem seekBinary_in_range (compare : α → Bool) (c : sequenceCursor α) :
    (∀ t, rootSeq c = some t → t.nonEmptyTo (depth c) →
      ∃ c', seekBinary compare c = some c' ∧ valid c' = some true)
    ∧ (∀ c', seekBinary compare c = some c' →
      ∃ len, c'.length = some len ∧ -1 ≤ c'.idx ∧ c'.idx < len
        ∧ (0 < len → valid c' = some true)) := by
  refine ⟨?_, seekBinary_range compare c⟩
  intro t hroot hne
  obtain ⟨c', _, hc, _, _, hv⟩ := seekBinary_total compare c t 0 hroot hne
  exact ⟨c', hc, hv⟩

theorem seekBinary_in_range_witness :
    rootSeq (sampleCursor 0 0) = some sampleTree
    ∧ sampleTree.nonEmptyTo (depth (sampleCursor 0 0))
    ∧ (∃ c', seekBinary (fun x => decide ('z' ≤ x)) (sampleCursor 0 0) = some c'
        ∧ valid c' = some true)
    ∧ seekBinary (fun x => decide ('z' ≤ x)) (sampleCursor 0 0) = some (sampleCursor 1 2)
    ∧ ∃ len, (sampleCursor 1 2).length = some len ∧ -1 ≤ (sampleCursor 1 2).idx
        ∧ (sampleCursor 1 2).idx < len ∧ (0 < len → valid (sampleCursor 1 2) = some true) :=
  ⟨rfl, by simp [sampleTree, sampleCursor, depth, Sequence.nonEmptyTo, Sequence.isMeta,
      Sequence.seqLen, Sequence.items, Sequence.children, Sequence.getChildSequence],
    (seekBinary_in_range (fun x => decide ('z' ≤ x)) (sampleCursor 0 0)).1 sampleTree rfl
      (by simp [sampleTree, sampleCursor, depth, Sequence.nonEmptyTo, Sequence.isMeta,
        Sequence.seqLen, Sequence.items, Sequence.children, Sequence.getChildSequence]),
    by decide,
    (seekBinary_in_range (fun x => decide ('z' ≤ x)) (sampleCursor 0 0)).2 (sampleCursor 1 2)
      (by decide)⟩

/-- C9: calling `seekBinary` twice with the same predicate leaves the same chain, with the same
sequence and index at every level, as calling it once (a failed first call fails both); and on
a tree whose chunks are non-empty down to the level of the cursor both calls return. -/
theorem seekBinary_idempotent (compare : α → Bool) (c : sequenceCursor α) :
    (seekBinary compare c).bind (seekBinary compare) = seekBinary compare c
    ∧ (∀ t, rootSeq c = some t → t.nonEmptyTo (depth c) →
      ∃ c', seekBinary compare c = some c' ∧ seekBinary compare c' = some c') := by
  constructor
  · cases h : seekBinary compare c with
    | none => rfl
    | some c' => exact seekBinary_fixed compare c c' h
  · intro t hroot hne
    obtain ⟨c', _, hc, _⟩ := seekBinary_total compare c t 0 hroot hne
    exact ⟨c', hc, seekBinary_fixed compare c c' hc⟩

theorem seekBinary_idempotent_witness :
    rootSeq (sampleCursor 1 2) = some sampleTree
    ∧ sampleTree.nonEmptyTo (depth (sampleCursor 1 2))
    ∧ ∃ c', seekBinary (fun x => decide ('b' ≤ x)) (sampleCursor 1 2) = some c'
        ∧ seekBinary (fun x => decide ('b' ≤ x)) c' = some c' :=
  ⟨rfl, by simp [sampleTree, sampleCursor, depth, Sequence.nonEmptyTo, Sequence.isMeta,
      Sequence.seqLen, Sequence.items, Sequence.children, Sequence.getChildSequence],
    (seekBinary_idempotent (fun x => decide ('b' ≤ x)) (sampleCursor 1 2)).2 sampleTree rfl
      (by simp [sampleTree, sampleCursor, depth, Sequence.nonEmptyTo, Sequence.isMeta,
        Sequence.seqLen, Sequence.items, Sequence.children, Sequence.getChildSequence])⟩

end sequenceCursor

/-! ## Positions in a concatenation of chunks -/

theorem flatMap_split {β γ : Type} (f : β → List γ) (cs : List β) (i : Nat) (c : β)
    (h : cs[i]? = some c) :
    cs.flatMap f = (cs.take i).flatMap f ++ (f c ++ (cs.drop (i + 1)).flatMap f) := by
  obtain ⟨hi, hc⟩ := List.getElem?_eq_some.mp h
  conv_lhs => rw [← List.take_append_drop i cs, List.drop_eq_getElem_cons hi, hc]
  simp

theorem flatMap_take_succ {β γ : Type} (f : β → List γ) (cs : List β) (i : Nat) (c : β)
    (h : cs[i]? = some c) :
    (cs.take (i + 1)).flatMap f = (cs.take i).flatMap f ++ f c := by
  rw [List.take_succ, h]
  simp

theorem flatMap_take_length_mono {β γ : Type} (f : β → List γ) (cs : List β) (a b : Nat)
    (hab : a ≤ b) :
    ((cs.take a).flatMap f).length ≤ ((cs.take b).flatMap f).length := by
  have h1 : cs.take a = (cs.take b).take a := by
    rw [List.take_take, Nat.min_eq_left hab]
  have h2 : cs.take b = (cs.take b).take a ++ (cs.take b).drop a :=
    (List.take_append_drop a (cs.take b)).symm
  rw [h1]
  conv_rhs => rw [h2]
  rw [List.flatMap_append, List.length_append]
  omega

theorem flatMap_take_length_le {β γ : Type} (f : β → List γ) (cs : List β) (a : Nat) :
    ((cs.take a).flatMap f).length ≤ (cs.flatMap f).length := by
  have := flatMap_take_length_mono f cs a (max a cs.length) (le_max_left _ _)
  rwa [List.take_of_length_le (le_max_right _ _)] at this

theorem flatMap_getElem {β γ : Type} (f : β → List γ) (cs : List β) (i j : Nat) (c : β)
    (h : cs[i]? = some c) (hj : j < (f c).length) :
    (cs.flatMap f)[((cs.take i).flatMap f).length + j]? = (f c)[j]? := by
  rw [flatMap_split f cs i c h, List.getElem?_append_right (by omega)]
  simp only [Nat.add_sub_cancel_left]
  rw [List.getElem?_append_left hj]

theorem Sequence.children_length {α : Type} (s : Sequence α) (h : s.isMeta = true) :
    s.children.length = s.items.length := by
  cases s with
  | leaf xs => simp [Sequence.isMeta] at h
  | meta ts => simp [Sequence.items, Sequence.children]

namespace sequenceCursor
variable {α : Type}

/-- What the hypotheses of a two-level seek give for one chunk `a`: the root item of the chunk,
the last item of the chunk, their agreement under the predicate, and the place of the last item
in the concatenation. -/
theorem chunk_last (compare : α → Bool) (t : Sequence α) (hne : t.nonEmptyTo 1)
    (hlast : ∀ (i : Nat) (x : α) (c : Sequence α) (y : α), t.items[i]? = some x →
      t.children[i]? = some c → c.items.getLast? = some y → compare x = compare y)
    (a : Nat) (c : Sequence α) (hc : t.children[a]? = some c) :
    ∃ x y, t.items[a]? = some x ∧ 0 < c.items.length ∧ c.items[c.items.length - 1]? = some y
      ∧ compare x = compare y
      ∧ (t.children.flatMap Sequence.items)[((t.children.take a).flatMap Sequence.items).length
          + (c.items.length - 1)]? = some y := by
  obtain ⟨hmeta, _, hch⟩ := hne
  have hlen := Sequence.children_length t hmeta
  have ha : a < t.items.length := by
    rw [← hlen]
    exact (List.getElem?_eq_some.mp hc).1
  have hcpos : 0 < c.seqLen := hch c (List.getElem?_mem hc)
  have hcpos' : 0 < c.items.length := by
    unfold Sequence.seqLen at hcpos
    omega
  have hy : c.items[c.items.length - 1]? = some (c.items[c.items.length - 1]) :=
    List.getElem?_eq_getElem (by omega)
  refine ⟨t.items[a], c.items[c.items.length - 1], List.getElem?_eq_getElem ha, hcpos', hy, ?_, ?_⟩
  · apply hlast a _ c _ (List.getElem?_eq_getElem ha) hc
    rw [List.getLast?_eq_getElem?]
    exact hy
  · rw [flatMap_getElem Sequence.items t.children a _ c hc (by omega)]
    exact hy

end sequenceCursor

namespace sequenceCursor
variable {α : Type}

theorem root_items_mono (compare : α → Bool) (t : Sequence α) (hne : t.nonEmptyTo 1)
    (hm : monotoneOver compare (t.children.flatMap Sequence.items))
    (hlast : ∀ (i : Nat) (x : α) (c : Sequence α) (y : α), t.items[i]? = some x →
      t.children[i]? = some c → c.items.getLast? = some y → compare x = compare y)
    (a b : Nat) (x y : α) (hab : a ≤ b) (hx : t.items[a]? = some x) (hy : t.items[b]? = some y)
    (hcx : compare x = true) : compare y = true := by
  have hlen := Sequence.children_length t hne.1
  have ha : a < t.children.length := by
    rw [hlen]
    exact (List.getElem?_eq_some.mp hx).1
  have hb : b < t.children.length := by
    rw [hlen]
    exact (List.getElem?_eq_some.mp hy).1
  obtain ⟨x', ya, hx', hpa, _, hca, hcata⟩ :=
    chunk_last compare t hne hlast a _ (List.getElem?_eq_getElem ha)
  obtain ⟨y', yb, hy', hpb, _, hcb, hcatb⟩ :=
    chunk_last compare t hne hlast b _ (List.getElem?_eq_getElem hb)
  rw [hx] at hx'
  rw [hy] at hy'
  cases hx'
  cases hy'
  rw [hcb]
  rw [hca] at hcx
  refine monotoneOver_getElem compare _ hm _ _ ya yb ?_ hcata hcatb hcx
  rcases Nat.eq_or_lt_of_le hab with h | h
  · subst h
    exact le_refl _
  · have h1 := flatMap_take_succ Sequence.items t.children a _ (List.getElem?_eq_getElem ha)
    have h2 := flatMap_take_length_mono Sequence.items t.children (a + 1) b h
    rw [h1, List.length_append] at h2
    omega

theorem child_items_mono (compare : α → Bool) (t : Sequence α)
    (hm : monotoneOver compare (t.children.flatMap Sequence.items))
    (i : Nat) (child : Sequence α) (hchild : t.children[i]? = some child)
    (a b : Nat) (x y : α) (hab : a ≤ b) (hx : child.items[a]? = some x)
    (hy : child.items[b]? = some y) (hcx : compare x = true) : compare y = true := by
  have ha := (List.getElem?_eq_some.mp hx).1
  have hb := (List.getElem?_eq_some.mp hy).1
  refine monotoneOver_getElem compare _ hm
    (((t.children.take i).flatMap Sequence.items).length + a)
    (((t.children.take i).flatMap Sequence.items).length + b) x y (by omega) ?_ ?_ hcx
  · rw [flatMap_getElem Sequence.items t.children i a child hchild ha]
    exact hx
  · rw [flatMap_getElem Sequence.items t.children i b child hchild hb]
    exact hy

end sequenceCursor

namespace sequenceCursor
variable {α : Type}

theorem concat_length_last {α : Type} (t : Sequence α) (a : Nat) (c : Sequence α)
    (hc : t.children[a]? = some c) (hlast : a + 1 = t.children.length) :
    (t.children.flatMap Sequence.items).length
      = ((t.children.take a).flatMap Sequence.items).length + c.items.length := by
  have h1 := flatMap_take_succ Sequence.items t.children a c hc
  rw [hlast, List.take_of_length_le (le_refl _)] at h1
  rw [h1, List.length_append]

theorem seekTarget_two_level (compare : α → Bool) (t : Sequence α) (hne : t.nonEmptyTo 1)
    (hm : monotoneOver compare (t.children.flatMap Sequence.items))
    (hlast : ∀ (i : Nat) (x : α) (c : Sequence α) (y : α), t.items[i]? = some x →
      t.children[i]? = some c → c.items.getLast? = some y → compare x = compare y)
    (i j : Int) (child : Sequence α) (hchild : t.children[i.toNat]? = some child)
    (hi : seekTarget compare t.items i) (hj : seekTarget compare child.items j) :
    seekTarget compare (t.children.flatMap Sequence.items)
      (((t.children.take i.toNat).flatMap Sequence.items).length + j) := by
  obtain ⟨hi0, hilt, hib, hit, hia⟩ := hi
  obtain ⟨hj0, hjlt, hjb, hjt, hja⟩ := hj
  have hlen := Sequence.children_length t hne.1
  have hmc := monotoneOver_getElem compare _ hm
  have hsucc := flatMap_take_succ Sequence.items t.children i.toNat child hchild
  have htot := flatMap_take_length_le Sequence.items t.children (i.toNat + 1)
  rw [hsucc, List.length_append] at htot
  obtain ⟨xi, yi, hxi, hposi, hyi, hci, hcati⟩ :=
    chunk_last compare t hne hlast i.toNat child hchild
  refine ⟨by omega, by omega, ?_, ?_, ?_⟩
  · intro k hk x hx
    by_cases hko : k < ((t.children.take i.toNat).flatMap Sequence.items).length
    · have hipos : 0 < i.toNat := by
        by_contra hcon
        have : i.toNat = 0 := by omega
        rw [this] at hko
        simp at hko
      have ha : i.toNat - 1 < t.children.length := by
        have := (List.getElem?_eq_some.mp hchild).1
        omega
      obtain ⟨xa, ya, hxa, hpa, _, hca, hcata⟩ :=
        chunk_last compare t hne hlast (i.toNat - 1) _ (List.getElem?_eq_getElem ha)
      have hoff := flatMap_take_succ Sequence.items t.children (i.toNat - 1) _
        (List.getElem?_eq_getElem ha)
      have hi1 : i.toNat - 1 + 1 = i.toNat := by omega
      rw [hi1] at hoff
      rw [hoff, List.length_append] at hko
      have hxa_false : compare xa = false := hib (i.toNat - 1) (by omega) xa hxa
      cases hcx : compare x with
      | false => rfl
      | true =>
        have := hmc k _ x ya (by omega) hx hcata hcx
        rw [← hca, hxa_false] at this
        exact absurd this (by simp)
    · have hb : k - ((t.children.take i.toNat).flatMap Sequence.items).length
          < child.items.length := by omega
      have hget := flatMap_getElem Sequence.items t.children i.toNat _ child hchild hb
      have hk' : ((t.children.take i.toNat).flatMap Sequence.items).length
          + (k - ((t.children.take i.toNat).flatMap Sequence.items).length) = k := by omega
      rw [hk', hx] at hget
      exact hjb _ (by omega) x hget.symm
  · rintro ⟨x, hxmem, hcx⟩
    obtain ⟨k, hk⟩ := List.mem_iff_getElem?.mp hxmem
    have hklt := (List.getElem?_eq_some.mp hk).1
    have hnpos : 0 < t.children.length := by
      have := (List.getElem?_eq_some.mp hchild).1
      omega
    have hn : t.children.length - 1 < t.children.length := by omega
    obtain ⟨xn, yn, hxn, hpn, _, hcn, hcatn⟩ :=
      chunk_last compare t hne hlast (t.children.length - 1) _ (List.getElem?_eq_getElem hn)
    have hall := concat_length_last t (t.children.length - 1) _
      (List.getElem?_eq_getElem hn) (by omega)
    have hyn : compare yn = true := hmc k _ x yn (by omega) hk hcatn hcx
    obtain ⟨xi', hxi', hcxi'⟩ := hit ⟨xn, List.getElem?_mem hxn, by rw [hcn]; exact hyn⟩
    rw [hxi] at hxi'
    cases hxi'
    obtain ⟨z, hz, hcz⟩ := hjt ⟨yi, List.getElem?_mem hyi, by rw [← hci]; exact hcxi'⟩
    refine ⟨z, ?_, hcz⟩
    have hidx : (((((t.children.take i.toNat).flatMap Sequence.items).length : Int) + j)).toNat
        = ((t.children.take i.toNat).flatMap Sequence.items).length + j.toNat := by omega
    rw [hidx, flatMap_getElem Sequence.items t.children i.toNat _ child hchild (by omega)]
    exact hz
  · intro hall
    have hroot : ∀ x ∈ t.items, compare x = false := by
      intro x hx
      obtain ⟨a, ha⟩ := List.mem_iff_getElem?.mp hx
      have halt : a < t.children.length := by
        rw [hlen]
        exact (List.getElem?_eq_some.mp ha).1
      obtain ⟨xa, ya, hxa, _, _, hca, hcata⟩ :=
        chunk_last compare t hne hlast a _ (List.getElem?_eq_getElem halt)
      rw [ha] at hxa
      cases hxa
      rw [hca]
      exact hall ya (List.getElem?_mem hcata)
    have hchildall : ∀ y ∈ child.items, compare y = false := by
      intro y hy
      exact hall y (List.mem_flatMap.mpr ⟨child, List.getElem?_mem hchild, hy⟩)
    have hieq := hia hroot
    have hjeq := hja hchildall
    have hcl := concat_length_last t i.toNat child hchild (by omega)
    omega

/-- C7: on a two-level tree (a non-empty root meta-sequence over non-empty chunks), for a
predicate that is false on a first part of the concatenated chunk items and true on the rest and
whose value on each root item is its value on the last item of that item's chunk, `seekBinary`
on a cursor below the root returns with the root on chunk `i` and the cursor at `j` in that
chunk, where `(i, j)` is the place, in the concatenation, of the first item that satisfies the
predicate, and of the last item of the last chunk when no item does. -/
theorem seekBinary_two_level (compare : α → Bool) (t : Sequence α) (i0 j0 : Int)
    (seq0 : Option (Sequence α)) (hne : t.nonEmptyTo 1)
    (hm : monotoneOver compare (t.children.flatMap Sequence.items))
    (hlast : ∀ (i : Nat) (x : α) (c : Sequence α) (y : α), t.items[i]? = some x →
      t.children[i]? = some c → c.items.getLast? = some y → compare x = compare y) :
    ∃ (i j : Int) (child : Sequence α),
      seekBinary compare (mk (some (mk none (some t) i0)) seq0 j0)
        = some (mk (some (mk none (some t) i)) (some child) j)
      ∧ 0 ≤ i ∧ t.children[i.toNat]? = some child ∧ 0 ≤ j ∧ j < child.seqLen
      ∧ seekTarget compare (t.children.flatMap Sequence.items)
          (((t.children.take i.toNat).flatMap Sequence.items).length + j) := by
  have hlen := Sequence.children_length t hne.1
  obtain ⟨i, hi, _, _, _, hti⟩ := localSeek_spec compare none t i0
  have hroot := hti hne.2.1 (root_items_mono compare t hne hm hlast)
  have hilt : i.toNat < t.children.length := by
    have h1 := hroot.1
    have h2 := hroot.2.1
    omega
  have hchild : t.children[i.toNat]? = some (t.children[i.toNat]) :=
    List.getElem?_eq_getElem hilt
  have hcpos : 0 < (t.children[i.toNat]).seqLen := hne.2.2 _ (List.getElem?_mem hchild)
  obtain ⟨j, hj, _, _, _, htj⟩ :=
    localSeek_spec compare (some (mk none (some t) i)) (t.children[i.toNat]) j0
  have hleaf := htj hcpos (child_items_mono compare t hm i.toNat _ hchild)
  refine ⟨i, j, t.children[i.toNat], ?_, hroot.1, hchild, hleaf.1, ?_,
    seekTarget_two_level compare t hne hm hlast i j _ hchild hroot hleaf⟩
  · rw [seekBinary_eq]
    simp only
    rw [seekBinary_eq]
    simp only [Option.some_bind, hi, sync, parent_mk, getChildSequence, seq_mk, hne.1, if_true,
      Sequence.getChildSequence, idx_mk, hroot.1, hchild, Option.map_some']
    exact hj
  · have := hleaf.2.1
    unfold Sequence.seqLen
    exact this

end sequenceCursor

namespace sequenceCursor

theorem seekBinary_two_level_witness :
    sampleTree.nonEmptyTo 1
    ∧ monotoneOver (fun x => decide ('e' ≤ x)) (sampleTree.children.flatMap Sequence.items)
    ∧ ∃ (i j : Int) (child : Sequence Char),
      seekBinary (fun x => decide ('e' ≤ x)) (sampleCursor 0 0)
        = some (mk (some (mk none (some sampleTree) i)) (some child) j)
      ∧ 0 ≤ i ∧ sampleTree.children[i.toNat]? = some child ∧ 0 ≤ j ∧ j < child.seqLen
      ∧ seekTarget (fun x => decide ('e' ≤ x)) (sampleTree.children.flatMap Sequence.items)
          (((sampleTree.children.take i.toNat).flatMap Sequence.items).length + j) :=
  ⟨by simp [sampleTree, Sequence.nonEmptyTo, Sequence.isMeta, Sequence.seqLen, Sequence.items,
      Sequence.children],
   ⟨4, by decide, by decide⟩,
   seekBinary_two_level (fun x => decide ('e' ≤ x)) sampleTree 0 0
    (sampleTree.getChildSequence 0)
    (by simp [sampleTree, Sequence.nonEmptyTo, Sequence.isMeta, Sequence.seqLen, Sequence.items,
      Sequence.children])
    ⟨4, by decide, by decide⟩
    (by
      intro i x c y hx hc hy
      rcases i with _ | _ | i
      · simp [sampleTree, Sequence.items, Sequence.children] at hx hc
        subst hx
        subst hc
        simp [Sequence.items] at hy
        subst hy
        decide
      · simp [sampleTree, Sequence.items, Sequence.children] at hx hc
        subst hx
        subst hc
        simp [Sequence.items] at hy
        subst hy
        decide
      · simp [sampleTree, Sequence.items, Sequence.children] at hx)⟩

end sequenceCursor

namespace sequenceCursor
variable {α : Type}

theorem proj_children_le (s : Sequence α) : s.children.length ≤ s.items.length := by
  cases s <;> simp [Sequence.children, Sequence.items]

theorem rightSeqs_child (p : sequenceCursor α) (seq : Option (Sequence α)) (idx : Int) :
    rightSeqs (mk (some p) seq idx) = afterCursor Sequence.children p := rfl

theorem leftSeqs_child (p : sequenceCursor α) (seq : Option (Sequence α)) (idx : Int) :
    leftSeqs (mk (some p) seq idx) = beforeCursor Sequence.children p := rfl

theorem wellPlaced_seq : ∀ (c : sequenceCursor α) (k : Nat), wellPlaced k c →
    ∃ s, c.seq = some s ∧ s.nonEmptyTo k ∧ 0 ≤ c.idx ∧ c.idx < s.seqLen
  | mk none seq idx, k, h => by
    obtain ⟨s, h1, h2, h3, h4⟩ := h
    exact ⟨s, h1, h2, h3, h4⟩
  | mk (some p) seq idx, k, h => by
    obtain ⟨s, h1, h2, h3, h4, _⟩ := h
    exact ⟨s, h1, h2, h3, h4⟩

theorem wellPlaced_child (p : sequenceCursor α) (k : Nat) (h : wellPlaced (k + 1) p) :
    ∃ child, getChildSequence p = some (some child) ∧ child.nonEmptyTo k
      ∧ (optList Sequence.children p.seq).drop p.idx.toNat
          = child :: (optList Sequence.children p.seq).drop (p.idx.toNat + 1) := by
  obtain ⟨s, hs, hne, h0, h1⟩ := wellPlaced_seq p (k + 1) h
  obtain ⟨hmeta, _, hch⟩ := hne
  have hv : valid p = some true := by
    obtain ⟨par, sq, i⟩ := p
    simp only [seq_mk] at hs
    subst hs
    exact valid_of_bounds par s i h0 h1
  obtain ⟨child, hget, hchild⟩ := getChildSequence_of_valid p s hs hmeta hv
  refine ⟨child, hchild, hch child (List.getElem?_mem hget), ?_⟩
  rw [hs]
  simp only [optList]
  obtain ⟨hlt, heq⟩ := List.getElem?_eq_some.mp hget
  rw [List.drop_eq_getElem_cons hlt, heq]

end sequenceCursor

namespace sequenceCursor
variable {α : Type}

theorem optList_some {β : Type} (proj : Sequence α → List β) (s : Sequence α) :
    optList proj (some s) = proj s := rfl

/-- One step of `advanceMaybeAllowPastEnd(false)` from a well placed chain: it returns; on false
nothing has moved and there is nothing to the right; on true the new chain is well placed, a
following `retreatMaybeAllowBeforeStart(false)` leads back, and what lay after the cursor now
starts at the cursor. -/
theorem advance_probe : ∀ (c : sequenceCursor α) (k : Nat), wellPlaced k c →
    ∃ c' b, advanceMaybeAllowPastEnd c false = some (c', b)
      ∧ (b = false → c' = c ∧ c.length = some (c.idx + 1) ∧ rightSeqs c = [])
      ∧ (b = true → wellPlaced k c'
          ∧ retreatMaybeAllowBeforeStart c' false = some (c, true)
          ∧ ∀ (β : Type) (proj : Sequence α → List β),
              (∀ s, (proj s).length ≤ s.items.length) →
              afterCursor proj c = fromCursor proj c')
  | mk none seq idx, k, h => by
    obtain ⟨s, hs, hne, h0, h1⟩ := h
    subst hs
    rw [advance_eq]
    simp only [length_mk, Option.map_some', Option.some_bind, Bool.false_eq_true, if_false]
    by_cases hlt : idx < s.seqLen - 1
    · rw [if_pos hlt]
      refine ⟨_, true, rfl, by simp, fun _ => ⟨⟨s, rfl, hne, by omega, by omega⟩, ?_, ?_⟩⟩
      · rw [retreat_pos _ _ _ _ (by omega)]
        simp
      · intro β proj _
        simp only [afterCursor, fromCursor, idx_mk, seq_mk, rightSeqs]
        have : (idx + 1).toNat = idx.toNat + 1 := by omega
        rw [this]
    · rw [if_neg hlt, if_neg (by omega)]
      refine ⟨_, false, rfl, fun _ => ⟨rfl, ?_, rfl⟩, by simp⟩
      simp only [idx_mk, Option.some.injEq]
      omega
  | mk (some p) seq idx, k, h => by
    obtain ⟨s, hs, hne, h0, h1, hsync, hp⟩ := h
    subst hs
    rw [advance_eq]
    simp only [length_mk, Option.map_some', Option.some_bind, Bool.false_eq_true, if_false]
    by_cases hlt : idx < s.seqLen - 1
    · rw [if_pos hlt]
      refine ⟨_, true, rfl, by simp,
        fun _ => ⟨⟨s, rfl, hne, by omega, by omega, hsync, hp⟩, ?_, ?_⟩⟩
      · rw [retreat_pos _ _ _ _ (by omega)]
        simp
      · intro β proj _
        simp only [afterCursor, fromCursor, idx_mk, seq_mk, rightSeqs_child]
        have : (idx + 1).toNat = idx.toNat + 1 := by omega
        rw [this]
    · rw [if_neg hlt, if_neg (by omega)]
      obtain ⟨p', b, hadv, hfalse, htrue⟩ := advance_probe p (k + 1) hp
      cases b with
      | false =>
        obtain ⟨hpp, hplen, hpright⟩ := hfalse rfl
        subst hpp
        refine ⟨_, false, by simp only [hadv], fun _ => ⟨rfl, ?_, ?_⟩, by simp⟩
        · simp only [length_mk, Option.map_some', idx_mk, Option.some.injEq]
          omega
        · rw [rightSeqs_child]
          simp only [afterCursor, hpright, List.flatMap_nil, List.append_nil]
          apply List.drop_of_length_le
          obtain ⟨ps, hps, _, _, _⟩ := wellPlaced_seq _ (k + 1) hp
          rw [hps, optList_some]
          have hle := proj_children_le ps
          simp only [length, hps, Option.map_some', Option.some.injEq] at hplen
          unfold Sequence.seqLen at hplen
          omega
      | true =>
        obtain ⟨hp', hback, hproj⟩ := htrue rfl
        obtain ⟨child, hchild, hcne, hdrop⟩ := wellPlaced_child p' k hp'
        have hcpos := Sequence.nonEmptyTo_pos k child hcne
        refine ⟨mk (some p') (some child) 0, true, ?_, by simp,
          fun _ => ⟨⟨child, rfl, hcne, le_refl _, hcpos, hchild, hp'⟩, ?_, ?_⟩⟩
        · simp only [hadv, sync, parent_mk, hchild, Option.map_some', seq_mk]
        · rw [retreat_eq]
          simp only [lt_self_iff_false, if_false, hback, sync, parent_mk, hsync,
            Option.map_some', idx_mk, Option.some_bind, length_mk, seq_mk]
          have : s.seqLen - 1 = idx := by omega
          simp [this]
        · intro β proj hle
          have hright := hproj _ Sequence.children proj_children_le
          rw [afterCursor, fromCursor, rightSeqs_child, rightSeqs_child, hright]
          simp only [idx_mk, seq_mk, optList_some]
          have hnil : (proj s).drop (idx.toNat + 1) = [] := by
            apply List.drop_of_length_le
            have := hle s
            unfold Sequence.seqLen at hlt h1
            omega
          rw [hnil]
          rw [fromCursor, hdrop, afterCursor]
          simp only [List.cons_append, List.flatMap_cons, List.nil_append,
            Int.toNat_zero, List.drop_zero]

end sequenceCursor

namespace sequenceCursor
variable {α : Type}

theorem advance_allow_of_true :
    ∀ (c c' : sequenceCursor α), advanceMaybeAllowPastEnd c false = some (c', true) →
      advanceMaybeAllowPastEnd c true = some (c', true)
  | mk parent seq idx, c', h => by
    rw [advance_eq] at h ⊢
    cases seq with
    | none => simp at h
    | some s =>
      simp only [length_mk, Option.map_some', Option.some_bind, Bool.false_eq_true,
        if_false, if_true] at h ⊢
      by_cases h1 : idx < s.seqLen - 1
      · rw [if_pos h1] at h ⊢
        exact h
      · rw [if_neg h1] at h ⊢
        by_cases h2 : idx = s.seqLen
        · rw [if_pos h2] at h
          simp at h
        · rw [if_neg h2] at h ⊢
          cases parent with
          | none => simp at h
          | some p =>
            simp only at h ⊢
            cases hp : advanceMaybeAllowPastEnd p false with
            | none => simp [hp] at h
            | some r =>
              obtain ⟨p', b⟩ := r
              cases b with
              | true =>
                simp only [hp] at h ⊢
                exact h
              | false => simp [hp] at h

theorem advance_allow_of_false (parent : Option (sequenceCursor α)) (s : Sequence α) (idx : Int)
    (c' : sequenceCursor α)
    (h : advanceMaybeAllowPastEnd (mk parent (some s) idx) false = some (c', false))
    (hlen : s.seqLen = idx + 1) :
    advanceMaybeAllowPastEnd (mk parent (some s) idx) true
      = some (mk parent (some s) (idx + 1), false) := by
  have hc := advance_false_unchanged _ _ h
  subst hc
  rw [advance_eq] at h ⊢
  simp only [length_mk, Option.map_some', Option.some_bind, Bool.false_eq_true,
    if_false, if_true] at h ⊢
  rw [if_neg (by omega), if_neg (by omega)] at h ⊢
  cases parent with
  | none => rfl
  | some p =>
    simp only at h ⊢
    cases hp : advanceMaybeAllowPastEnd p false with
    | none => simp [hp] at h
    | some r =>
      obtain ⟨p', b⟩ := r
      cases b with
      | true =>
        simp only [hp] at h
        cases hs : sync (mk (some p') (some s) idx) with
        | none => simp [hs] at h
        | some cur => simp [hs] at h
      | false =>
        have := advance_false_unchanged p p' hp
        subst this
        simp only [hp]

theorem retreat_allow_of_true :
    ∀ (c c' : sequenceCursor α), retreatMaybeAllowBeforeStart c false = some (c', true) →
      retreatMaybeAllowBeforeStart c true = some (c', true)
  | mk parent seq idx, c', h => by
    rw [retreat_eq] at h ⊢
    simp only [Bool.false_eq_true, if_false, if_true] at h ⊢
    by_cases h1 : 0 < idx
    · rw [if_pos h1] at h ⊢
      exact h
    · rw [if_neg h1] at h ⊢
      by_cases h2 : idx = -1
      · rw [if_pos h2] at h
        simp at h
      · rw [if_neg h2] at h ⊢
        by_cases h3 : idx ≠ 0
        · rw [if_pos h3] at h
          simp at h
        · rw [if_neg h3] at h ⊢
          cases parent with
          | none => simp at h
          | some p =>
            simp only at h ⊢
            cases hp : retreatMaybeAllowBeforeStart p false with
            | none => simp [hp] at h
            | some r =>
              obtain ⟨p', b⟩ := r
              cases b with
              | true =>
                simp only [hp] at h ⊢
                exact h
              | false => simp [hp] at h

theorem retreat_allow_of_false (parent : Option (sequenceCursor α)) (seq : Option (Sequence α))
    (c' : sequenceCursor α)
    (h : retreatMaybeAllowBeforeStart (mk parent seq 0) false = some (c', false)) :
    retreatMaybeAllowBeforeStart (mk parent seq 0) true = some (mk parent seq (-1), false) := by
  rw [retreat_eq] at h ⊢
  simp only [lt_self_iff_false, if_false, Bool.false_eq_true, if_true] at h ⊢
  cases parent with
  | none => simp
  | some p =>
    cases hp : retreatMaybeAllowBeforeStart p false with
    | none => simp [hp] at h
    | some r =>
      obtain ⟨p', b⟩ := r
      cases b with
      | true =>
        simp only [hp] at h
        cases hs : sync (mk (some p') seq 0) with
        | none => simp [hs] at h
        | some cur =>
          cases hl : cur.length with
          | none => simp [hs, hl] at h
          | some len => simp [hs, hl] at h
      | false =>
        have := retreat_false_unchanged p p' hp
        subst this
        simp [hp]

/-- A chain in sync whose levels all point at an item, over a tree of non-empty chunks, is well
placed. -/
theorem wellPlaced_of : ∀ (c : sequenceCursor α) (t : Sequence α) (k : Nat),
    rootSeq c = some t → t.nonEmptyTo (depth c + k) → inSync c → allValid c → wellPlaced k c
  | mk none seq idx, t, k, hroot, hne, _, hv => by
    simp only [rootSeq] at hroot
    subst hroot
    simp only [depth, Nat.zero_add] at hne
    simp only [allValid, valid, idx_mk, length_mk, Option.map_some'] at hv
    by_cases h0 : 0 ≤ idx
    · simp only [h0, if_true, Option.some.injEq, decide_eq_true_eq] at hv
      exact ⟨t, rfl, hne, h0, hv⟩
    · simp [h0] at hv
  | mk (some p) seq idx, t, k, hroot, hne, hsync, hv => by
    simp only [rootSeq] at hroot
    simp only [depth] at hne
    have hne' : t.nonEmptyTo (depth p + (k + 1)) := by
      have : depth p + 1 + k = depth p + (k + 1) := by omega
      rw [this] at hne
      exact hne
    obtain ⟨hsy, hsp⟩ := hsync
    obtain ⟨hvc, hvp⟩ := hv
    have hp := wellPlaced_of p t (k + 1) hroot hne' hsp hvp
    obtain ⟨child, hchild, hcne, _⟩ := wellPlaced_child p k hp
    rw [hchild] at hsy
    simp only [Option.some.injEq] at hsy
    subst hsy
    simp only [valid, idx_mk, length_mk, Option.map_some'] at hvc
    by_cases h0 : 0 ≤ idx
    · simp only [h0, if_true, Option.some.injEq, decide_eq_true_eq] at hvc
      exact ⟨child, rfl, hcne, h0, hvc, hchild, hp⟩
    · simp [h0] at hvc

/-- C2: on a chain in sync over a tree of non-empty chunks, every level pointing at an item,
`advance()` returns, and the `retreat()` that follows returns true and leaves every level of the
chain with the sequence and index it had before the two calls. -/
theorem advance_retreat_roundtrip (c : sequenceCursor α) (t : Sequence α)
    (hroot : rootSeq c = some t) (hne : t.nonEmptyTo (depth c))
    (hsync : inSync c) (hvalid : allValid c) :
    ∃ c1 b, advance c = some (c1, b) ∧ retreat c1 = some (c, true) := by
  have hw := wellPlaced_of c t 0 hroot hne hsync hvalid
  obtain ⟨c', b, hadv, hfalse, htrue⟩ := advance_probe c 0 hw
  cases b with
  | true =>
    obtain ⟨_, hback, _⟩ := htrue rfl
    exact ⟨c', true, advance_allow_of_true c c' hadv, retreat_allow_of_true c' c hback⟩
  | false =>
    obtain ⟨_, hlen, _⟩ := hfalse rfl
    obtain ⟨s, hs, _, h0, h1⟩ := wellPlaced_seq c 0 hw
    obtain ⟨parent, seq, idx⟩ := c
    simp only [seq_mk] at hs
    subst hs
    simp only [idx_mk] at h0 h1
    simp only [length_mk, Option.map_some', idx_mk, Option.some.injEq] at hlen
    refine ⟨mk parent (some s) (idx + 1), false,
      advance_allow_of_false parent s idx c' hadv hlen, ?_⟩
    unfold retreat
    rw [retreat_pos _ _ _ _ (by omega)]
    simp

theorem advance_retreat_roundtrip_witness :
    rootSeq (sampleCursor 0 2) = some sampleTree
    ∧ sampleTree.nonEmptyTo (depth (sampleCursor 0 2))
    ∧ inSync (sampleCursor 0 2) ∧ allValid (sampleCursor 0 2)
    ∧ ∃ c1 b, advance (sampleCursor 0 2) = some (c1, b)
        ∧ retreat c1 = some (sampleCursor 0 2, true) :=
  have h1 : sampleTree.nonEmptyTo (depth (sampleCursor 0 2)) := by
    simp [sampleTree, sampleCursor, depth, Sequence.nonEmptyTo, Sequence.isMeta,
      Sequence.seqLen, Sequence.items, Sequence.children, Sequence.getChildSequence]
  have h2 : inSync (sampleCursor 0 2) := ⟨by decide, trivial⟩
  have h3 : allValid (sampleCursor 0 2) := ⟨by decide, by unfold allValid; decide⟩
  ⟨rfl, h1, h2, h3, advance_retreat_roundtrip (sampleCursor 0 2) sampleTree rfl h1 h2 h3⟩

end sequenceCursor

/-! ## The level of a cursor as a concatenation -/

theorem flatMap_congr_mem {β γ : Type} (f g : β → List γ) (l : List β)
    (h : ∀ x ∈ l, f x = g x) : l.flatMap f = l.flatMap g := by
  induction l with
  | nil => rfl
  | cons x xs ih =>
    simp only [List.flatMap_cons]
    rw [h x (List.mem_cons_self _ _), ih (fun y hy => h y (List.mem_cons_of_mem _ hy))]

namespace Sequence
variable {α : Type}

theorem seqsAtDepth_succ (d : Nat) (s : Sequence α) :
    seqsAtDepth (d + 1) s = s.children.flatMap (seqsAtDepth d) := by
  induction d with
  | zero => simp [seqsAtDepth]
  | succ d ih =>
    rw [seqsAtDepth, ih, List.flatMap_assoc]
    apply flatMap_congr_mem
    intro c _
    rfl

theorem itemsAtDepth_succ (d : Nat) (s : Sequence α) :
    itemsAtDepth (d + 1) s = s.children.flatMap (itemsAtDepth d) := by
  unfold itemsAtDepth
  rw [seqsAtDepth_succ, List.flatMap_assoc]

theorem leafItemsTuples_eq (ts : List (α × Sequence α)) :
    leafItemsTuples ts = (ts.map Prod.snd).flatMap leafItems := by
  induction ts with
  | nil => simp [leafItemsTuples]
  | cons x xs ih =>
    obtain ⟨a, c⟩ := x
    simp [leafItemsTuples, leafItemsTuple, ih]

theorem leafItems_eq_children (s : Sequence α) (h : s.isMeta = true) :
    leafItems s = s.children.flatMap leafItems := by
  cases s with
  | leaf xs => simp [isMeta] at h
  | meta ts => simp [leafItems, children, leafItemsTuples_eq]

/-- In a tree whose leaves all lie `d` levels below the root, the items of level `d` are the
leaf items. -/
theorem itemsAtDepth_eq_leafItems : ∀ (d : Nat) (s : Sequence α), leafDepth d s →
    itemsAtDepth d s = leafItems s
  | 0, s, h => by
    cases s with
    | leaf xs => simp [itemsAtDepth, seqsAtDepth, items, leafItems]
    | meta ts => simp [leafDepth, isMeta] at h
  | d + 1, s, h => by
    obtain ⟨hmeta, hch⟩ := h
    rw [itemsAtDepth_succ, leafItems_eq_children s hmeta]
    apply flatMap_congr_mem
    intro c hc
    exact itemsAtDepth_eq_leafItems d c (hch c hc)

end Sequence

namespace sequenceCursor
variable {α : Type}

theorem wellPlaced_rootSeq : ∀ (c : sequenceCursor α) (k : Nat), wellPlaced k c →
    ∃ t, rootSeq c = some t
  | mk none seq idx, k, h => by
    obtain ⟨s, hs, _⟩ := h
    exact ⟨s, hs⟩
  | mk (some p) seq idx, k, h => by
    obtain ⟨s, _, _, _, _, _, hp⟩ := h
    exact wellPlaced_rootSeq p (k + 1) hp

/-- The sequences around a well placed cursor make up the whole level of the cursor. -/
theorem level_seqs : ∀ (c : sequenceCursor α) (k : Nat) (t s : Sequence α), wellPlaced k c →
    rootSeq c = some t → c.seq = some s →
    leftSeqs c ++ s :: rightSeqs c = Sequence.seqsAtDepth (depth c) t
  | mk none seq idx, k, t, s, _, hroot, hs => by
    simp only [rootSeq] at hroot
    simp only [seq_mk] at hs
    rw [hroot] at hs
    cases hs
    simp [leftSeqs, rightSeqs, depth, Sequence.seqsAtDepth]
  | mk (some p) seq idx, k, t, s, h, hroot, hs => by
    obtain ⟨s', hs', _, _, _, hsync, hp⟩ := h
    simp only [seq_mk] at hs
    rw [hs'] at hs
    cases hs
    simp only [rootSeq] at hroot
    obtain ⟨ps, hps, _⟩ := wellPlaced_seq p (k + 1) hp
    obtain ⟨child, hchild, _, hdrop⟩ := wellPlaced_child p k hp
    rw [hchild] at hsync
    cases hsync
    have ih := level_seqs p (k + 1) t ps hp hroot hps
    rw [leftSeqs_child, rightSeqs_child, beforeCursor, afterCursor, depth,
      Sequence.seqsAtDepth, ← ih]
    have hsplit : (optList Sequence.children p.seq).take p.idx.toNat
        ++ s :: (optList Sequence.children p.seq).drop (p.idx.toNat + 1) = ps.children := by
      rw [← hdrop, List.take_append_drop, hps, optList_some]
    simp only [List.flatMap_append, List.flatMap_cons, List.append_assoc]
    rw [← hsplit]
    simp only [List.append_assoc, List.cons_append]

/-- The entries around a well placed cursor make up the whole level of the cursor. -/
theorem level_entries {β : Type} (proj : Sequence α → List β) (c : sequenceCursor α) (k : Nat)
    (t : Sequence α) (h : wellPlaced k c) (hroot : rootSeq c = some t) :
    beforeCursor proj c ++ fromCursor proj c
      = (Sequence.seqsAtDepth (depth c) t).flatMap proj := by
  obtain ⟨s, hs, _⟩ := wellPlaced_seq c k h
  rw [← level_seqs c k t s h hroot hs, beforeCursor, fromCursor, hs, optList_some]
  simp only [List.flatMap_append, List.flatMap_cons, List.append_assoc]
  congr 1
  rw [← List.append_assoc, List.take_append_drop]

end sequenceCursor

namespace sequenceCursor
variable {α : Type}

/-- The item at a well placed cursor is the first of the items from the cursor on. -/
theorem current_of_wellPlaced (c : sequenceCursor α) (k : Nat) (h : wellPlaced k c) :
    ∃ x, current c = some x
      ∧ fromCursor Sequence.items c = x :: afterCursor Sequence.items c := by
  obtain ⟨s, hs, _, h0, h1⟩ := wellPlaced_seq c k h
  obtain ⟨parent, seq, idx⟩ := c
  simp only [seq_mk] at hs
  subst hs
  simp only [idx_mk] at h0 h1
  have hlt : idx.toNat < s.items.length := by
    unfold Sequence.seqLen at h1
    omega
  refine ⟨s.items[idx.toNat], ?_, ?_⟩
  · have hv := valid_of_bounds parent s idx h0 h1
    have hle : idx ≤ s.seqLen := by omega
    have hm1 : -1 ≤ idx := by omega
    simp [current, maybeCurrent, hv, getItem, Sequence.getItem, h0, hle, hm1,
      List.getElem?_eq_getElem hlt]
  · simp only [fromCursor, afterCursor, seq_mk, idx_mk, optList_some]
    rw [List.drop_eq_getElem_cons hlt]
    rfl

/-- From a well placed cursor the reading loop reads exactly the items from the cursor on, as
soon as it may read that many. -/
theorem collect_wellPlaced : ∀ (fuel : Nat) (c : sequenceCursor α) (k : Nat), wellPlaced k c →
    (afterCursor Sequence.items c).length < fuel →
    collect fuel c = some (fromCursor Sequence.items c)
  | 0, _, _, _, hf => by omega
  | fuel + 1, c, k, h, hf => by
    obtain ⟨x, hx, hfrom⟩ := current_of_wellPlaced c k h
    obtain ⟨c', b, hadv, hfalse, htrue⟩ := advance_probe c k h
    cases b with
    | true =>
      obtain ⟨hw', _, hproj⟩ := htrue rfl
      have hstep := hproj _ Sequence.items (fun s => le_refl _)
      obtain ⟨x', _, hfrom'⟩ := current_of_wellPlaced c' k hw'
      have hlen : (afterCursor Sequence.items c').length < fuel := by
        rw [hstep, hfrom', List.length_cons] at hf
        omega
      have ih := collect_wellPlaced fuel c' k hw' hlen
      simp only [collect, hx, Option.some_bind, advance, advance_allow_of_true c c' hadv,
        if_true, ih, Option.map_some']
      rw [hfrom, hstep]
    | false =>
      obtain ⟨_, hlen, hright⟩ := hfalse rfl
      obtain ⟨s, hs, _, h0, h1⟩ := wellPlaced_seq c k h
      obtain ⟨parent, seq, idx⟩ := c
      simp only [seq_mk] at hs
      subst hs
      simp only [length_mk, Option.map_some', idx_mk, Option.some.injEq] at hlen h0 h1
      have hafter : afterCursor Sequence.items (mk parent (some s) idx) = [] := by
        simp only [afterCursor, seq_mk, idx_mk, optList_some, hright, List.flatMap_nil,
          List.append_nil]
        apply List.drop_of_length_le
        unfold Sequence.seqLen at hlen
        omega
      simp only [collect, hx, Option.some_bind, advance,
        advance_allow_of_false parent s idx c' hadv hlen, Bool.false_eq_true, if_false]
      rw [hfrom, hafter]

/-- A chain in sync with index 0 at every level, over a tree of non-empty chunks, is well
placed and has nothing before it. -/
theorem wellPlaced_of_zero : ∀ (c : sequenceCursor α) (t : Sequence α) (k : Nat),
    rootSeq c = some t → t.nonEmptyTo (depth c + k) → inSync c → allIdxZero c →
    wellPlaced k c ∧ ∀ (β : Type) (proj : Sequence α → List β), beforeCursor proj c = []
  | mk none seq idx, t, k, hroot, hne, _, hz => by
    simp only [rootSeq] at hroot
    subst hroot
    simp only [depth, Nat.zero_add] at hne
    simp only [allIdxZero] at hz
    subst hz
    refine ⟨⟨t, rfl, hne, le_refl _, Sequence.nonEmptyTo_pos k t hne⟩, ?_⟩
    intro β proj
    simp [beforeCursor, leftSeqs]
  | mk (some p) seq idx, t, k, hroot, hne, hsync, hz => by
    simp only [rootSeq] at hroot
    simp only [depth] at hne
    have hne' : t.nonEmptyTo (depth p + (k + 1)) := by
      have : depth p + 1 + k = depth p + (k + 1) := by omega
      rw [this] at hne
      exact hne
    obtain ⟨hsy, hsp⟩ := hsync
    obtain ⟨hz0, hzp⟩ := hz
    subst hz0
    obtain ⟨hp, hbefore⟩ := wellPlaced_of_zero p t (k + 1) hroot hne' hsp hzp
    obtain ⟨child, hchild, hcne, _⟩ := wellPlaced_child p k hp
    rw [hchild] at hsy
    simp only [Option.some.injEq] at hsy
    subst hsy
    refine ⟨⟨child, rfl, hcne, le_refl _, Sequence.nonEmptyTo_pos k child hcne, hchild, hp⟩, ?_⟩
    intro β proj
    rw [beforeCursor, leftSeqs_child, hbefore _ Sequence.children]
    simp

/-- C1 as stated fails: `lopsidedTree` has every chunk at every level non-empty and the chain
`lopsidedCursor` is in sync with index 0 at every level, yet reading `current()` and calling
`advance()` yields `a`, then `advance()` returns true and leaves the cursor with a nil sequence,
on which `current()` fails: the loop does not return the leaf items `[a, b]`, which the
single-level cursor over the flat sequence does return. -/
theorem collect_lopsided_fails :
    rootSeq lopsidedCursor = some lopsidedTree
    ∧ lopsidedTree.chunksNonEmptyTo 2
    ∧ inSync lopsidedCursor ∧ allIdxZero lopsidedCursor
    ∧ lopsidedTree.leafItems = ['a', 'b']
    ∧ collect 2 (mk none (some (Sequence.leaf lopsidedTree.leafItems)) 0) = some ['a', 'b']
    ∧ current lopsidedCursor = some 'a'
    ∧ advance lopsidedCursor
        = some (mk (some (mk (some (mk none (some lopsidedTree) 1))
            (some (Sequence.leaf ['b'])) 0)) none 0, true)
    ∧ current (mk (some (mk (some (mk none (some lopsidedTree) 1))
        (some (Sequence.leaf ['b'])) 0)) (none : Option (Sequence Char)) 0) = none
    ∧ collect 50 lopsidedCursor = none := by
  refine ⟨rfl, ?_, ⟨by decide, by decide, trivial⟩, ⟨rfl, rfl, rfl⟩, by decide, by decide,
    by decide, by decide, by decide, by decide⟩
  simp [lopsidedTree, Sequence.chunksNonEmptyTo, Sequence.seqLen, Sequence.items,
    Sequence.children]

/-- C1, amended: on a tree whose chunks are all non-empty and whose leaves all lie at the depth
of the cursor, the chain in sync with index 0 at every level yields, by reading `current()` and
calling `advance()` until it returns false, exactly the leaf items in chunk order, and so does
the single-level cursor over the flat sequence of those items (the loop may read as many items
as the tree has). -/
theorem collect_leaf_items (c : sequenceCursor α) (t : Sequence α) (fuel : Nat)
    (hroot : rootSeq c = some t) (hne : t.chunksNonEmptyTo (depth c))
    (hleaf : t.leafDepth (depth c))
    (hsync : inSync c) (hzero : allIdxZero c) (hfuel : t.leafItems.length ≤ fuel) :
    collect fuel c = some t.leafItems
    ∧ collect fuel (mk none (some (Sequence.leaf t.leafItems)) 0) = some t.leafItems := by
  obtain ⟨hw, hbefore⟩ := wellPlaced_of_zero c t 0 hroot
    (Sequence.nonEmptyTo_of_leafDepth _ t hne hleaf) hsync hzero
  have hlevel := level_entries Sequence.items c 0 t hw hroot
  rw [hbefore _ Sequence.items, List.nil_append] at hlevel
  have hitems : fromCursor Sequence.items c = t.leafItems := by
    rw [hlevel]
    exact Sequence.itemsAtDepth_eq_leafItems (depth c) t hleaf
  obtain ⟨x, _, hfrom⟩ := current_of_wellPlaced c 0 hw
  have hlen : (afterCursor Sequence.items c).length < fuel := by
    rw [← hitems, hfrom, List.length_cons] at hfuel
    omega
  have hpos : 0 < t.leafItems.length := by
    rw [← hitems, hfrom, List.length_cons]
    omega
  refine ⟨by rw [collect_wellPlaced fuel c 0 hw hlen, hitems], ?_⟩
  have hwf : wellPlaced 0 (mk none (some (Sequence.leaf t.leafItems)) 0) :=
    ⟨Sequence.leaf t.leafItems, rfl, by
      show (0 : Int) < (Sequence.leaf t.leafItems).seqLen
      simp only [Sequence.seqLen, Sequence.items]
      omega, le_refl _, by
      simp only [Sequence.seqLen, Sequence.items]
      omega⟩
  have hflat : fromCursor Sequence.items (mk none (some (Sequence.leaf t.leafItems)) 0)
      = t.leafItems := by
    simp [fromCursor, rightSeqs, optList, Sequence.items]
  obtain ⟨y, _, hfromf⟩ := current_of_wellPlaced _ 0 hwf
  have hlenf : (afterCursor Sequence.items
      (mk none (some (Sequence.leaf t.leafItems)) 0)).length < fuel := by
    have := hflat
    rw [hfromf] at this
    rw [← this, List.length_cons] at hfuel
    omega
  rw [collect_wellPlaced fuel _ 0 hwf hlenf, hflat]

end sequenceCursor

namespace sequenceCursor

theorem collect_leaf_items_witness :
    sampleTree.leafItems = ['a', 'b', 'c', 'd', 'e', 'f']
    ∧ inSync (sampleCursor 0 0) ∧ allIdxZero (sampleCursor 0 0)
    ∧ collect 6 (sampleCursor 0 0) = some sampleTree.leafItems
    ∧ collect 6 (mk none (some (Sequence.leaf sampleTree.leafItems)) 0)
        = some sampleTree.leafItems :=
  have h1 : sampleTree.chunksNonEmptyTo (depth (sampleCursor 0 0)) := by
    simp [sampleTree, sampleCursor, depth, Sequence.chunksNonEmptyTo,
      Sequence.seqLen, Sequence.items, Sequence.children, Sequence.getChildSequence]
  have h2 : sampleTree.leafDepth (depth (sampleCursor 0 0)) := by
    simp [sampleTree, sampleCursor, depth, Sequence.leafDepth, Sequence.isMeta,
      Sequence.children, Sequence.getChildSequence]
  have h3 : inSync (sampleCursor 0 0) := ⟨by decide, trivial⟩
  have h4 : allIdxZero (sampleCursor 0 0) := ⟨rfl, rfl⟩
  ⟨by decide, h3, h4,
    collect_leaf_items (sampleCursor 0 0) sampleTree 6 rfl h1 h2 h3 h4 (by decide)⟩

end sequenceCursor

/-! ## The two loops of `maxNPrevItems` -/

namespace sequenceCursor
variable {α : Type}

theorem swapLoop_spec : ∀ (m i : Nat) (l : List α), i + m ≤ l.length / 2 →
    ∃ l', swapLoop m i l = some l' ∧ l'.length = l.length
      ∧ ∀ j, l'[j]? = if (i ≤ j ∧ j < i + m) ∨ (l.length - (i + m) ≤ j ∧ j < l.length - i)
          then l[l.length - 1 - j]? else l[j]?
  | 0, i, l, _ => by
    refine ⟨l, rfl, rfl, ?_⟩
    intro j
    rw [if_neg (by omega)]
  | m + 1, i, l, h => by
    have hi : i < l.length := by omega
    have hi' : l.length - i - 1 < l.length := by omega
    obtain ⟨l', hl', hlen, hget⟩ := swapLoop_spec m (i + 1)
      ((l.set i (l[l.length - i - 1])).set (l.length - i - 1) (l[i])) (by
        simp only [List.length_set]
        omega)
    simp only [List.length_set] at hlen hget
    refine ⟨l', ?_, hlen, ?_⟩
    · rw [swapLoop, List.getElem?_eq_getElem hi, List.getElem?_eq_getElem hi']
      exact hl'
    · intro j
      rw [hget j]
      simp only [List.getElem?_set, List.length_set]
      by_cases hj : j < l.length
      · have e1 : l[i]? = some l[i] := List.getElem?_eq_getElem hi
        have e2 : l[l.length - i - 1]? = some l[l.length - i - 1] :=
          List.getElem?_eq_getElem hi'
        rw [← e1, ← e2]
        split_ifs <;> first
          | rfl
          | omega
          | (congr 1; omega)
      · rw [if_neg (by omega), if_neg (by omega), if_neg (by omega), if_neg (by omega)]

theorem swapLoop_reverse (l : List α) : swapLoop (l.length / 2) 0 l = some l.reverse := by
  obtain ⟨l', hl', hlen, hget⟩ := swapLoop_spec (l.length / 2) 0 l (by omega)
  rw [hl']
  congr 1
  apply List.ext_getElem?
  intro j
  rw [hget j]
  by_cases hj : j < l.length
  · rw [List.getElem?_reverse hj]
    split_ifs with hc
    · rfl
    · congr 1
      omega
  · rw [if_neg (by omega), List.getElem?_eq_none (by omega),
      List.getElem?_eq_none (by simp only [List.length_reverse]; omega)]

theorem clone_eq : ∀ (c : sequenceCursor α), clone c = c
  | mk none seq idx => rfl
  | mk (some p) seq idx => by
    rw [clone, clone_eq p]

end sequenceCursor

namespace sequenceCursor
variable {α : Type}

theorem wellPlaced_child_get (p : sequenceCursor α) (k : Nat) (h : wellPlaced (k + 1) p)
    (child : Sequence α) (hchild : getChildSequence p = some (some child)) :
    (optList Sequence.children p.seq)[p.idx.toNat]? = some child := by
  obtain ⟨c2, hc2, _, hdrop⟩ := wellPlaced_child p k h
  rw [hc2] at hchild
  simp only [Option.some.injEq] at hchild
  subst hchild
  have : ((optList Sequence.children p.seq).drop p.idx.toNat)[0]? = some c2 := by
    rw [hdrop]
    simp
  rw [List.getElem?_drop] at this
  exact this

/-- One step of `retreatMaybeAllowBeforeStart(false)` from a well placed chain: it returns; on
false nothing has moved and there is nothing to the left; on true the new chain is well placed
and what lay before the cursor now ends at the cursor. -/
theorem retreat_probe : ∀ (c : sequenceCursor α) (k : Nat), wellPlaced k c →
    ∃ c' b, retreatMaybeAllowBeforeStart c false = some (c', b)
      ∧ (b = false → c' = c ∧ c.idx = 0 ∧ leftSeqs c = [])
      ∧ (b = true → wellPlaced k c'
          ∧ ∀ (β : Type) (proj : Sequence α → List β),
              (∀ s, (proj s).length ≤ s.items.length) →
              beforeCursor proj c = uptoCursor proj c')
  | mk none seq idx, k, h => by
    obtain ⟨s, hs, hne, h0, h1⟩ := h
    subst hs
    rw [retreat_eq]
    by_cases hpos : 0 < idx
    · rw [if_pos hpos]
      refine ⟨_, true, rfl, by simp, fun _ => ⟨⟨s, rfl, hne, by omega, by omega⟩, ?_⟩⟩
      intro β proj _
      simp only [beforeCursor, uptoCursor, idx_mk, seq_mk, leftSeqs]
      have : (idx - 1).toNat + 1 = idx.toNat := by omega
      rw [this]
    · have hz : idx = 0 := by omega
      subst hz
      simp only [lt_self_iff_false, if_false, Bool.false_eq_true]
      rw [if_neg (by omega), if_neg (by simp)]
      exact ⟨_, false, rfl, fun _ => ⟨rfl, rfl, rfl⟩, by simp⟩
  | mk (some p) seq idx, k, h => by
    obtain ⟨s, hs, hne, h0, h1, hsync, hp⟩ := h
    subst hs
    rw [retreat_eq]
    by_cases hpos : 0 < idx
    · rw [if_pos hpos]
      refine ⟨_, true, rfl, by simp,
        fun _ => ⟨⟨s, rfl, hne, by omega, by omega, hsync, hp⟩, ?_⟩⟩
      intro β proj _
      simp only [beforeCursor, uptoCursor, idx_mk, seq_mk, leftSeqs_child]
      have : (idx - 1).toNat + 1 = idx.toNat := by omega
      rw [this]
    · have hz : idx = 0 := by omega
      subst hz
      simp only [lt_self_iff_false, if_false, Bool.false_eq_true]
      rw [if_neg (by omega), if_neg (by simp)]
      obtain ⟨p', b, hret, hfalse, htrue⟩ := retreat_probe p (k + 1) hp
      cases b with
      | false =>
        obtain ⟨hpp, hpidx, hpleft⟩ := hfalse rfl
        subst hpp
        refine ⟨_, false, by simp only [hret], fun _ => ⟨rfl, rfl, ?_⟩, by simp⟩
        rw [leftSeqs_child, beforeCursor, hpleft, hpidx]
        simp
      | true =>
        obtain ⟨hp', hproj⟩ := htrue rfl
        obtain ⟨child, hchild, hcne, _⟩ := wellPlaced_child p' k hp'
        have hget := wellPlaced_child_get p' k hp' child hchild
        have hcpos := Sequence.nonEmptyTo_pos k child hcne
        refine ⟨mk (some p') (some child) (child.seqLen - 1), true, ?_, by simp,
          fun _ => ⟨⟨child, rfl, hcne, by omega, by omega, hchild, hp'⟩, ?_⟩⟩
        · simp only [hret, sync, parent_mk, hchild, Option.map_some', idx_mk, Option.some_bind,
            length_mk, seq_mk]
        · intro β proj hle
          have hleft := hproj _ Sequence.children proj_children_le
          rw [beforeCursor, uptoCursor, leftSeqs_child, leftSeqs_child, hleft]
          simp only [idx_mk, seq_mk, optList_some, Int.toNat_zero, List.take_zero,
            List.append_nil]
          have hall : (proj child).take ((child.seqLen - 1).toNat + 1) = proj child := by
            apply List.take_of_length_le
            have := hle child
            unfold Sequence.seqLen at hcpos ⊢
            omega
          rw [hall, uptoCursor, beforeCursor, List.take_succ, hget]
          simp

end sequenceCursor

namespace sequenceCursor
variable {α : Type}

theorem current_getElem (c : sequenceCursor α) (k : Nat) (h : wellPlaced k c) :
    ∃ x, current c = some x ∧ (optList Sequence.items c.seq)[c.idx.toNat]? = some x := by
  obtain ⟨s, hs, _, h0, h1⟩ := wellPlaced_seq c k h
  obtain ⟨parent, seq, idx⟩ := c
  simp only [seq_mk] at hs
  subst hs
  simp only [idx_mk] at h0 h1
  have hlt : idx.toNat < s.items.length := by
    unfold Sequence.seqLen at h1
    omega
  refine ⟨s.items[idx.toNat], ?_, List.getElem?_eq_getElem hlt⟩
  have hv := valid_of_bounds parent s idx h0 h1
  have hle : idx ≤ s.seqLen := by omega
  have hm1 : -1 ≤ idx := by omega
  simp [current, maybeCurrent, hv, getItem, Sequence.getItem, h0, hle, hm1,
    List.getElem?_eq_getElem hlt]

theorem upto_eq_before (c : sequenceCursor α) (k : Nat) (h : wellPlaced k c) :
    ∃ x, current c = some x
      ∧ uptoCursor Sequence.items c = beforeCursor Sequence.items c ++ [x] := by
  obtain ⟨x, hx, hget⟩ := current_getElem c k h
  refine ⟨x, hx, ?_⟩
  rw [uptoCursor, beforeCursor, List.take_succ, hget]
  simp

theorem upto_after_eq {β : Type} (proj : Sequence α → List β) (c : sequenceCursor α) :
    uptoCursor proj c ++ afterCursor proj c = beforeCursor proj c ++ fromCursor proj c := by
  simp only [uptoCursor, afterCursor, beforeCursor, fromCursor, List.append_assoc]
  congr 1
  rw [← List.append_assoc, ← List.append_assoc, List.take_append_drop, List.take_append_drop]

/-- From a well placed cursor the first loop of `maxNPrevItems` appends the items before the
cursor, nearest first, as many as the counter allows. -/
theorem prevLoop_wellPlaced : ∀ (m : Nat) (c : sequenceCursor α) (k : Nat) (acc : List α),
    wellPlaced k c →
    prevLoop m c acc = some (acc ++ (beforeCursor Sequence.items c).reverse.take m)
  | 0, c, k, acc, _ => by simp [prevLoop]
  | m + 1, c, k, acc, h => by
    obtain ⟨c', b, hret, hfalse, htrue⟩ := retreat_probe c k h
    cases b with
    | true =>
      obtain ⟨hw', hproj⟩ := htrue rfl
      have hstep := hproj _ Sequence.items (fun s => le_refl _)
      obtain ⟨x, hx, hupto⟩ := upto_eq_before c' k hw'
      have ih := prevLoop_wellPlaced m c' k (acc ++ [x]) hw'
      simp only [prevLoop, retreat, retreat_allow_of_true c c' hret, Option.some_bind, if_true,
        hx, ih]
      rw [hstep, hupto]
      simp
    | false =>
      obtain ⟨_, hidx, hleft⟩ := hfalse rfl
      obtain ⟨parent, seq, idx⟩ := c
      simp only [idx_mk] at hidx
      subst hidx
      have hb : beforeCursor Sequence.items (mk parent seq 0) = [] := by
        simp [beforeCursor, hleft]
      simp only [prevLoop, retreat, retreat_allow_of_false parent seq c' hret, Option.some_bind,
        Bool.false_eq_true, if_false, hb]
      simp

/-- A chain in sync over a tree of non-empty chunks whose ancestors all point at an item is
well placed at every index inside its sequence. -/
theorem wellPlaced_of_ancestors (parent : Option (sequenceCursor α)) (seq : Option (Sequence α))
    (idx : Int) (t : Sequence α) (k : Nat)
    (hroot : rootSeq (mk parent seq idx) = some t)
    (hne : t.nonEmptyTo (depth (mk parent seq idx) + k))
    (hsync : inSync (mk parent seq idx)) (hanc : ancestorsValid (mk parent seq idx)) :
    ∃ s, seq = some s ∧ s.nonEmptyTo k
      ∧ ∀ i, 0 ≤ i → i < s.seqLen → wellPlaced k (mk parent (some s) i) := by
  cases parent with
  | none =>
    simp only [rootSeq] at hroot
    subst hroot
    simp only [depth, Nat.zero_add] at hne
    exact ⟨t, rfl, hne, fun i h0 h1 => ⟨t, rfl, hne, h0, h1⟩⟩
  | some p =>
    simp only [rootSeq] at hroot
    simp only [depth] at hne
    have hne' : t.nonEmptyTo (depth p + (k + 1)) := by
      have : depth p + 1 + k = depth p + (k + 1) := by omega
      rw [this] at hne
      exact hne
    obtain ⟨hsy, hsp⟩ := hsync
    have hp := wellPlaced_of p t (k + 1) hroot hne' hsp hanc
    obtain ⟨child, hchild, hcne, _⟩ := wellPlaced_child p k hp
    rw [hchild] at hsy
    simp only [Option.some.injEq] at hsy
    subst hsy
    exact ⟨child, rfl, hcne, fun i h0 h1 => ⟨child, rfl, hcne, h0, h1, hchild, hp⟩⟩

end sequenceCursor

namespace sequenceCursor
variable {α : Type}

theorem leftSeqs_idx (parent : Option (sequenceCursor α)) (seq : Option (Sequence α))
    (i j : Int) : leftSeqs (mk parent seq i) = leftSeqs (mk parent seq j) := by
  cases parent <;> rfl

theorem rightSeqs_idx (parent : Option (sequenceCursor α)) (seq : Option (Sequence α))
    (i j : Int) : rightSeqs (mk parent seq i) = rightSeqs (mk parent seq j) := by
  cases parent <;> rfl

theorem rootSeq_idx (parent : Option (sequenceCursor α)) (seq : Option (Sequence α))
    (i j : Int) : rootSeq (mk parent seq i) = rootSeq (mk parent seq j) := by
  cases parent <;> rfl

theorem depth_idx (parent : Option (sequenceCursor α)) (seq : Option (Sequence α))
    (i j : Int) : depth (mk parent seq i) = depth (mk parent seq j) := by
  cases parent <;> rfl

/-- The first loop of `maxNPrevItems` from a valid position or from the end sentinel, together
with the place of the cursor in its level. -/
theorem prevLoop_from (parent : Option (sequenceCursor α)) (seq : Option (Sequence α))
    (idx : Int) (t : Sequence α) (m : Nat)
    (hroot : rootSeq (mk parent seq idx) = some t)
    (hne : t.nonEmptyTo (depth (mk parent seq idx)))
    (hsync : inSync (mk parent seq idx)) (hanc : ancestorsValid (mk parent seq idx))
    (hpos : valid (mk parent seq idx) = some true
      ∨ length (mk parent seq idx) = some idx) :
    prevLoop m (mk parent seq idx) []
        = some ((beforeCursor Sequence.items (mk parent seq idx)).reverse.take m)
    ∧ beforeCursor Sequence.items (mk parent seq idx)
        ++ fromCursor Sequence.items (mk parent seq idx)
        = t.itemsAtDepth (depth (mk parent seq idx)) := by
  obtain ⟨s, hs, hsne, hw⟩ := wellPlaced_of_ancestors parent seq idx t 0 hroot hne hsync hanc
  subst hs
  have hspos := Sequence.nonEmptyTo_pos 0 s hsne
  rcases hpos with hv | hend
  · simp only [valid, idx_mk, length_mk, Option.map_some'] at hv
    by_cases h0 : 0 ≤ idx
    · simp only [h0, if_true, Option.some.injEq, decide_eq_true_eq] at hv
      have hwc := hw idx h0 hv
      refine ⟨?_, level_entries Sequence.items _ 0 t hwc hroot⟩
      rw [prevLoop_wellPlaced m _ 0 [] hwc]
      simp
    · simp [h0] at hv
  · simp only [length_mk, Option.map_some', Option.some.injEq] at hend
    subst hend
    have hwc := hw (s.seqLen - 1) (by omega) (by omega)
    have hb : beforeCursor Sequence.items (mk parent (some s) s.seqLen)
        = uptoCursor Sequence.items (mk parent (some s) (s.seqLen - 1)) := by
      simp only [beforeCursor, uptoCursor, idx_mk, seq_mk]
      have : (s.seqLen - 1).toNat + 1 = s.seqLen.toNat := by omega
      rw [this, leftSeqs_idx parent (some s) s.seqLen (s.seqLen - 1)]
    have hf : fromCursor Sequence.items (mk parent (some s) s.seqLen)
        = afterCursor Sequence.items (mk parent (some s) (s.seqLen - 1)) := by
      simp only [fromCursor, afterCursor, idx_mk, seq_mk]
      have : (s.seqLen - 1).toNat + 1 = s.seqLen.toNat := by omega
      rw [this, rightSeqs_idx parent (some s) s.seqLen (s.seqLen - 1)]
    obtain ⟨x, hx, hupto⟩ := upto_eq_before _ 0 hwc
    constructor
    · cases m with
      | zero => simp [prevLoop]
      | succ m =>
        have hstep : retreat (mk parent (some s) s.seqLen)
            = some (mk parent (some s) (s.seqLen - 1), true) := retreat_pos _ _ _ true hspos
        simp only [prevLoop, hstep, Option.some_bind, if_true, hx,
          prevLoop_wellPlaced m _ 0 _ hwc]
        rw [hb, hupto]
        simp
    · rw [hb, hf, upto_after_eq, depth_idx parent (some s) s.seqLen (s.seqLen - 1)]
      rw [rootSeq_idx parent (some s) s.seqLen (s.seqLen - 1)] at hroot
      exact level_entries Sequence.items _ 0 t hwc hroot

/-- A cursor that resolves a child points at an item. -/
theorem valid_of_getChildSequence (p : sequenceCursor α) (s : Sequence α)
    (h : getChildSequence p = some (some s)) : valid p = some true := by
  obtain ⟨par, sq, i⟩ := p
  cases sq with
  | none => simp [getChildSequence] at h
  | some ps =>
    simp only [getChildSequence, seq_mk, idx_mk] at h
    by_cases hm : ps.isMeta = true
    · rw [if_pos hm] at h
      have hlen : ps.items.length = ps.children.length := by
        cases ps with
        | leaf xs => simp [Sequence.isMeta] at hm
        | meta ts => simp [Sequence.items, Sequence.children]
      unfold Sequence.getChildSequence at h
      by_cases h0 : 0 ≤ i
      · rw [if_pos h0] at h
        simp only [Option.map_eq_some', Option.some.injEq, exists_eq_right] at h
        have hlt : i.toNat < ps.children.length := (List.getElem?_eq_some_iff.mp h).1
        apply valid_of_bounds
        · exact h0
        · unfold Sequence.seqLen
          omega
      · rw [if_neg h0] at h
        simp at h
    · rw [if_neg hm] at h
      simp at h

/-- In a chain in sync, a cursor that resolves a child and all its ancestors point at items. -/
theorem allValid_of_getChildSequence : ∀ (p : sequenceCursor α) (s : Sequence α),
    getChildSequence p = some (some s) → inSync p → allValid p
  | mk none sq i, s, h, _ => valid_of_getChildSequence (mk none sq i) s h
  | mk (some g) sq i, s, h, hsync => by
    have hv := valid_of_getChildSequence (mk (some g) sq i) s h
    obtain ⟨ps, hps, _, _⟩ := (valid_true_iff _).mp hv
    simp only [seq_mk] at hps
    subst hps
    exact ⟨hv, allValid_of_getChildSequence g ps hsync.1 hsync.2⟩

/-- In a chain in sync whose cursor has a sequence, every ancestor points at an item. -/
theorem ancestorsValid_of_inSync (c : sequenceCursor α) (s : Sequence α)
    (hs : c.seq = some s) (hsync : inSync c) : ancestorsValid c := by
  obtain ⟨parent, seq, idx⟩ := c
  simp only [seq_mk] at hs
  subst hs
  cases parent with
  | none => trivial
  | some p => exact allValid_of_getChildSequence p s hsync.1 hsync.2

/-- C10 as stated fails: the chain `mirrorCursor` is in sync over a tree whose chunks are all
non-empty, every level at a valid position, on the item `b` with the item `a` before it in the
concatenated leaf order `[a, b]`; yet `retreat()` on its clone fails (the parent moves onto the
item `a` of a leaf, which has no child), so `maxNPrevItems(5)` fails instead of returning
`[a]`. -/
theorem maxNPrevItems_mirror_fails :
    rootSeq mirrorCursor = some mirrorTree
    ∧ mirrorTree.chunksNonEmptyTo 2
    ∧ inSync mirrorCursor ∧ allValid mirrorCursor
    ∧ mirrorTree.leafItems = ['a', 'b']
    ∧ current mirrorCursor = some 'b'
    ∧ retreat (clone mirrorCursor) = none
    ∧ maxNPrevItems mirrorCursor 5 = none := by
  refine ⟨rfl, ?_, ⟨by decide, by decide, trivial⟩, ?_, by decide, by decide, by decide,
    by decide⟩
  · simp [mirrorTree, Sequence.chunksNonEmptyTo, Sequence.seqLen, Sequence.items,
      Sequence.children]
  · unfold mirrorCursor
    unfold allValid
    unfold allValid
    unfold allValid
    decide

/-- C10, amended: for a chain in sync over a tree of non-empty chunks whose leaves all lie at
the depth of the cursor, the cursor at a valid position or at the end sentinel,
`maxNPrevItems(n)` returns the last `min(n, k)` of the `k` items that precede the cursor in the
concatenated leaf order, oldest first: the leaf items are the items before the cursor followed
by the items from the cursor on, and the result is the end of the first part. -/
theorem maxNPrevItems_spec (c : sequenceCursor α) (t : Sequence α) (n : Int)
    (hroot : rootSeq c = some t) (hne : t.chunksNonEmptyTo (depth c))
    (hleaf : t.leafDepth (depth c)) (hsync : inSync c)
    (hpos : valid c = some true ∨ length c = some c.idx) :
    maxNPrevItems c n
        = some ((beforeCursor Sequence.items c).drop
            ((beforeCursor Sequence.items c).length - n.toNat))
    ∧ beforeCursor Sequence.items c ++ fromCursor Sequence.items c = t.leafItems
    ∧ ((beforeCursor Sequence.items c).drop
          ((beforeCursor Sequence.items c).length - n.toNat)).length
        = min n.toNat (beforeCursor Sequence.items c).length := by
  have hanc : ancestorsValid c := by
    have hseq : ∃ s, c.seq = some s := by
      rcases hpos with hv | hl
      · obtain ⟨s, hs, _⟩ := (valid_true_iff c).mp hv
        exact ⟨s, hs⟩
      · cases hc : c.seq with
        | none => simp [length, hc] at hl
        | some s => exact ⟨s, rfl⟩
    obtain ⟨s, hs⟩ := hseq
    exact ancestorsValid_of_inSync c s hs hsync
  obtain ⟨parent, seq, idx⟩ := c
  obtain ⟨hloop, hlevel⟩ := prevLoop_from parent seq idx t n.toNat hroot
    (Sequence.nonEmptyTo_of_leafDepth _ t hne hleaf) hsync hanc hpos
  refine ⟨?_, ?_, ?_⟩
  · simp only [maxNPrevItems, clone_eq, hloop, Option.some_bind]
    rw [swapLoop_reverse, List.take_reverse, List.reverse_reverse]
  · rw [hlevel]
    exact Sequence.itemsAtDepth_eq_leafItems _ t hleaf
  · simp only [List.length_drop]
    omega

theorem maxNPrevItems_spec_witness :
    inSync (sampleCursor 1 0)
    ∧ valid (sampleCursor 1 0) = some true
    ∧ current (sampleCursor 1 0) = some 'd'
    ∧ maxNPrevItems (sampleCursor 1 0) 5 = some ['a', 'b', 'c']
    ∧ beforeCursor Sequence.items (sampleCursor 1 0) = ['a', 'b', 'c']
    ∧ maxNPrevItems (sampleCursor 1 0) 5
        = some ((beforeCursor Sequence.items (sampleCursor 1 0)).drop
            ((beforeCursor Sequence.items (sampleCursor 1 0)).length - (5 : Int).toNat))
    ∧ beforeCursor Sequence.items (sampleCursor 1 0)
        ++ fromCursor Sequence.items (sampleCursor 1 0) = sampleTree.leafItems
    ∧ ((beforeCursor Sequence.items (sampleCursor 1 0)).drop
          ((beforeCursor Sequence.items (sampleCursor 1 0)).length - (5 : Int).toNat)).length
        = min (5 : Int).toNat (beforeCursor Sequence.items (sampleCursor 1 0)).length :=
  have h1 : sampleTree.chunksNonEmptyTo (depth (sampleCursor 1 0)) := by
    simp [sampleTree, sampleCursor, depth, Sequence.chunksNonEmptyTo,
      Sequence.seqLen, Sequence.items, Sequence.children, Sequence.getChildSequence]
  have h2 : sampleTree.leafDepth (depth (sampleCursor 1 0)) := by
    simp [sampleTree, sampleCursor, depth, Sequence.leafDepth, Sequence.isMeta,
      Sequence.children, Sequence.getChildSequence]
  have h3 : inSync (sampleCursor 1 0) := ⟨by decide, trivial⟩
  ⟨h3, by decide, by decide, by decide, by decide,
    maxNPrevItems_spec (sampleCursor 1 0) sampleTree 5 rfl h1 h2 h3 (Or.inl (by decide))⟩

end sequenceCursor

/-! ## Reading the current item, and `sync` -/

namespace sequenceCursor
variable {α : Type}

theorem valid_at_length (parent : Option (sequenceCursor α)) (s : Sequence α) :
    valid (mk parent (some s) s.seqLen) = some false := by
  have : 0 ≤ s.seqLen := by unfold Sequence.seqLen; omega
  simp [valid, this]

theorem valid_at_start (parent : Option (sequenceCursor α)) (seq : Option (Sequence α)) :
    valid (mk parent seq (-1)) = some false := by
  simp [valid]

theorem maybeCurrent_of_valid (c : sequenceCursor α) (h : valid c = some true) :
    ∃ s x, c.seq = some s ∧ 0 ≤ c.idx ∧ s.items[c.idx.toNat]? = some x
      ∧ maybeCurrent c = some (some x, true) := by
  obtain ⟨s, hs, h0, h1⟩ := (valid_true_iff c).mp h
  obtain ⟨parent, seq, idx⟩ := c
  simp only [seq_mk, idx_mk] at hs h0 h1
  subst hs
  have hlt : idx.toNat < s.items.length := by
    unfold Sequence.seqLen at h1
    omega
  have hle : idx ≤ s.seqLen := by omega
  have hm1 : -1 ≤ idx := by omega
  refine ⟨s, s.items[idx.toNat], rfl, h0, List.getElem?_eq_getElem hlt, ?_⟩
  simp [maybeCurrent, h, getItem, Sequence.getItem, h0, hle, hm1,
    List.getElem?_eq_getElem hlt]

theorem maybeCurrent_true_valid (c : sequenceCursor α) (x : Option α)
    (h : maybeCurrent c = some (x, true)) : valid c = some true := by
  unfold maybeCurrent at h
  by_cases hm1 : -1 ≤ c.idx
  · rw [if_pos hm1] at h
    cases hl : c.length with
    | none => simp [hl] at h
    | some len =>
      simp only [hl, Option.some_bind] at h
      by_cases hle : c.idx ≤ len
      · rw [if_pos hle] at h
        cases hv : c.valid with
        | none => simp [hv] at h
        | some v =>
          cases v with
          | true => rfl
          | false => simp [hv] at h
      · simp [hle] at h
  · simp [hm1] at h

/-- C13: when `valid()` holds, `current()` returns the item at `idx`, the entry
`s.items[idx]` of the cursor's sequence `s`; it fails (returns no value) exactly when `valid()`
does not hold. -/
theorem current_iff_valid (c : sequenceCursor α) :
    (valid c = some true →
      ∃ s x, c.seq = some s ∧ 0 ≤ c.idx ∧ s.items[c.idx.toNat]? = some x ∧ current c = some x)
    ∧ (valid c ≠ some true → current c = none) := by
  constructor
  · intro h
    obtain ⟨s, x, hs, h0, hx, hm⟩ := maybeCurrent_of_valid c h
    exact ⟨s, x, hs, h0, hx, by simp [current, hm]⟩
  · intro h
    unfold current
    cases hm : maybeCurrent c with
    | none => rfl
    | some r =>
      obtain ⟨x, b⟩ := r
      cases b with
      | true => exact absurd (maybeCurrent_true_valid c x hm) h
      | false => simp

theorem current_iff_valid_witness :
    valid (sampleCursor 1 1) = some true
    ∧ current (sampleCursor 1 1) = some 'e'
    ∧ (∃ s x, (sampleCursor 1 1).seq = some s ∧ 0 ≤ (sampleCursor 1 1).idx
        ∧ s.items[(sampleCursor 1 1).idx.toNat]? = some x
        ∧ current (sampleCursor 1 1) = some x)
    ∧ valid (sampleCursor 1 3) ≠ some true
    ∧ current (sampleCursor 1 3) = none :=
  ⟨by decide, by decide, (current_iff_valid (sampleCursor 1 1)).1 (by decide), by decide,
    (current_iff_valid (sampleCursor 1 3)).2 (by decide)⟩

/-- Outside the range `-1 <= idx <= length()` the first assertion of `maybeCurrent` fails. -/
theorem maybeCurrent_outside_range (c : sequenceCursor α) (len : Int)
    (hl : length c = some len) (hidx : c.idx < -1 ∨ len < c.idx) : maybeCurrent c = none := by
  unfold maybeCurrent
  rcases hidx with h | h
  · rw [if_neg (by omega)]
  · by_cases hm1 : -1 ≤ c.idx
    · rw [if_pos hm1, hl]
      simp only [Option.some_bind]
      rw [if_neg (by omega)]
    · rw [if_neg hm1]

/-- C14: for a cursor within the index range of the cursor invariant (a sequence `s` and
`-1 <= idx <= length()`), `valid()` returns, with false exactly on the two sentinels
(`idx = -1` or `idx = length()`); when it is false `maybeCurrent` returns `(nil, false)`
without failing, and when it is true `maybeCurrent` returns the item at `idx`, the entry
`s.items[idx]`, and true. -/
theorem maybeCurrent_in_range (c : sequenceCursor α) (s : Sequence α)
    (hs : c.seq = some s) (hlo : -1 ≤ c.idx) (hhi : c.idx ≤ s.seqLen) :
    (valid c = some false → maybeCurrent c = some (none, false))
    ∧ (valid c = some true →
        ∃ x, 0 ≤ c.idx ∧ s.items[c.idx.toNat]? = some x ∧ maybeCurrent c = some (some x, true))
    ∧ (valid c = some false ∨ valid c = some true)
    ∧ (valid c = some false ↔ c.idx = -1 ∨ c.idx = s.seqLen) := by
  obtain ⟨parent, seq, idx⟩ := c
  simp only [seq_mk, idx_mk] at hs hlo hhi
  subst hs
  simp only [idx_mk]
  have hlen : (0 : Int) ≤ s.seqLen := by
    unfold Sequence.seqLen
    omega
  refine ⟨?_, ?_, ?_, ?_⟩
  · intro hv
    unfold maybeCurrent
    simp only [idx_mk, length_mk, Option.map_some', Option.some_bind]
    rw [if_pos hlo, if_pos hhi, hv]
    simp
  · intro hv
    obtain ⟨s', x, hs', h0, hx, hm⟩ := maybeCurrent_of_valid _ hv
    simp only [seq_mk, Option.some.injEq, idx_mk] at hs' h0 hx
    subst hs'
    exact ⟨x, h0, hx, hm⟩
  · by_cases h0 : 0 ≤ idx
    · by_cases h1 : idx < s.seqLen
      · exact Or.inr (valid_of_bounds parent s idx h0 h1)
      · left
        simp [valid, h0, h1]
    · left
      simp [valid, h0]
  · constructor
    · intro hv
      by_cases h0 : 0 ≤ idx
      · right
        simp only [valid, idx_mk, length_mk, Option.map_some', if_pos h0, Option.some.injEq,
          decide_eq_false_iff_not] at hv
        omega
      · left
        omega
    · rintro (h | h)
      · subst h
        exact valid_at_start parent (some s)
      · subst h
        exact valid_at_length parent s

theorem maybeCurrent_in_range_witness :
    (sampleCursor 1 3).seq = some (Sequence.leaf ['d', 'e', 'f'])
    ∧ valid (sampleCursor 1 3) = some false
    ∧ maybeCurrent (sampleCursor 1 3) = some (none, false)
    ∧ valid (sampleCursor 1 (-1)) = some false
    ∧ maybeCurrent (sampleCursor 1 (-1)) = some (none, false)
    ∧ valid (sampleCursor 1 1) = some true
    ∧ maybeCurrent (sampleCursor 1 1) = some (some 'e', true)
    ∧ (∃ x, 0 ≤ (sampleCursor 1 1).idx
        ∧ (Sequence.leaf ['d', 'e', 'f']).items[(sampleCursor 1 1).idx.toNat]? = some x
        ∧ maybeCurrent (sampleCursor 1 1) = some (some x, true)) :=
  ⟨rfl, by decide,
    (maybeCurrent_in_range (sampleCursor 1 3) (Sequence.leaf ['d', 'e', 'f']) rfl (by decide)
      (by decide)).1 (by decide),
    by decide,
    (maybeCurrent_in_range (sampleCursor 1 (-1)) (Sequence.leaf ['d', 'e', 'f']) rfl (by decide)
      (by decide)).1 (by decide),
    by decide, by decide,
    (maybeCurrent_in_range (sampleCursor 1 1) (Sequence.leaf ['d', 'e', 'f']) rfl (by decide)
      (by decide)).2.1 (by decide)⟩

theorem sync_eq_syncE (c : sequenceCursor α) : sync c = (syncE c).toOption := by
  unfold sync syncE
  cases c.parent with
  | none => rfl
  | some p =>
    simp only
    cases getChildSequence p <;> rfl

/-- C16: the assertion of `sync()` fails exactly when the cursor has no parent; with a parent,
`sync()` takes as sequence what the parent's child lookup returns and leaves the index and the
parent as they were, and when the parent points at an item of a meta-sequence that is the child
at the parent's index. -/
theorem sync_spec (c : sequenceCursor α) :
    (syncE c = Except.error Failure.assertion ↔ c.parent = none)
    ∧ sync c = (syncE c).toOption
    ∧ (∀ p child, c.parent = some p → getChildSequence p = some child →
        sync c = some (mk (some p) child c.idx))
    ∧ (∀ p s, c.parent = some p → p.seq = some s → s.isMeta = true → valid p = some true →
        ∃ child, s.children[p.idx.toNat]? = some child
          ∧ sync c = some (mk (some p) (some child) c.idx)) := by
  refine ⟨?_, sync_eq_syncE c, ?_, ?_⟩
  · unfold syncE
    cases hp : c.parent with
    | none => simp
    | some p =>
      simp only
      cases getChildSequence p <;> simp
  · intro p child hp hc
    simp [sync, hp, hc]
  · intro p s hp hs hm hv
    obtain ⟨child, hget, hc⟩ := getChildSequence_of_valid p s hs hm hv
    exact ⟨child, hget, by simp [sync, hp, hc]⟩

theorem sync_spec_witness :
    (sampleCursor 1 2).parent = some (mk none (some sampleTree) 1)
    ∧ valid (mk none (some sampleTree) 1) = some true
    ∧ (∃ child, sampleTree.children[(mk none (some sampleTree) (1 : Int)).idx.toNat]? = some child
        ∧ sync (sampleCursor 1 2) = some (mk (some (mk none (some sampleTree) 1)) (some child)
            (sampleCursor 1 2).idx))
    ∧ sync (mk none (some sampleTree) 0) = none :=
  ⟨rfl, by decide,
    (sync_spec (sampleCursor 1 2)).2.2.2 (mk none (some sampleTree) 1) sampleTree rfl rfl
      (by decide) (by decide),
    by decide⟩

end sequenceCursor

/-! ## Invariants of navigation -/

namespace sequenceCursor
variable {α : Type}

theorem inSync_idx (parent : Option (sequenceCursor α)) (seq : Option (Sequence α))
    (i j : Int) (h : inSync (mk parent seq i)) : inSync (mk parent seq j) := by
  cases parent with
  | none => trivial
  | some p => exact h

theorem sync_some (p : sequenceCursor α) (seq : Option (Sequence α)) (idx : Int)
    (cur : sequenceCursor α) (h : sync (mk (some p) seq idx) = some cur) :
    ∃ chseq, getChildSequence p = some chseq ∧ cur = mk (some p) chseq idx := by
  simp only [sync, parent_mk, idx_mk] at h
  cases hc : getChildSequence p with
  | none => simp [hc] at h
  | some chseq =>
    simp only [hc, Option.map_some', Option.some.injEq] at h
    exact ⟨chseq, rfl, h.symm⟩

/-- A step of `advanceMaybeAllowPastEnd` keeps a chain in sync. -/
theorem advance_inSync : ∀ (c : sequenceCursor α) (allow : Bool) (c' : sequenceCursor α)
    (b : Bool), inSync c → advanceMaybeAllowPastEnd c allow = some (c', b) → inSync c'
  | mk parent seq idx, allow, c', b, hs, h => by
    rw [advance_eq] at h
    cases seq with
    | none => simp at h
    | some s =>
      simp only [length_mk, Option.map_some', Option.some_bind] at h
      by_cases h1 : idx < s.seqLen - 1
      · rw [if_pos h1] at h
        simp only [Option.some.injEq, Prod.mk.injEq] at h
        rw [← h.1]
        exact inSync_idx _ _ idx _ hs
      · rw [if_neg h1] at h
        by_cases h2 : idx = s.seqLen
        · rw [if_pos h2] at h
          simp only [Option.some.injEq, Prod.mk.injEq] at h
          rw [← h.1]
          exact hs
        · rw [if_neg h2] at h
          cases parent with
          | none =>
            simp only [Option.some.injEq, Prod.mk.injEq] at h
            rw [← h.1]
            trivial
          | some p =>
            simp only at h
            cases hp : advanceMaybeAllowPastEnd p false with
            | none => simp [hp] at h
            | some r =>
              obtain ⟨p', bp⟩ := r
              cases bp with
              | true =>
                simp only [hp] at h
                cases hsy : sync (mk (some p') (some s) idx) with
                | none => simp [hsy] at h
                | some cur =>
                  obtain ⟨chseq, hch, hcur⟩ := sync_some p' _ _ cur hsy
                  subst hcur
                  simp only [hsy, Option.map_some', parent_mk, seq_mk, Option.some.injEq,
                    Prod.mk.injEq] at h
                  rw [← h.1]
                  exact ⟨hch, advance_inSync p false p' true hs.2 hp⟩
              | false =>
                have := advance_false_unchanged p p' hp
                subst this
                simp only [hp, Option.some.injEq, Prod.mk.injEq] at h
                rw [← h.1]
                exact hs

/-- A step of `retreatMaybeAllowBeforeStart` keeps a chain in sync. -/
theorem retreat_inSync : ∀ (c : sequenceCursor α) (allow : Bool) (c' : sequenceCursor α)
    (b : Bool), inSync c → retreatMaybeAllowBeforeStart c allow = some (c', b) → inSync c'
  | mk parent seq idx, allow, c', b, hs, h => by
    rw [retreat_eq] at h
    by_cases h1 : 0 < idx
    · rw [if_pos h1] at h
      simp only [Option.some.injEq, Prod.mk.injEq] at h
      rw [← h.1]
      exact inSync_idx _ _ idx _ hs
    · rw [if_neg h1] at h
      by_cases h2 : idx = -1
      · rw [if_pos h2] at h
        simp only [Option.some.injEq, Prod.mk.injEq] at h
        rw [← h.1]
        exact hs
      · rw [if_neg h2] at h
        by_cases h3 : idx ≠ 0
        · rw [if_pos h3] at h
          simp at h
        · rw [if_neg h3] at h
          cases parent with
          | none =>
            simp only [Option.some.injEq, Prod.mk.injEq] at h
            rw [← h.1]
            trivial
          | some p =>
            simp only at h
            cases hp : retreatMaybeAllowBeforeStart p false with
            | none => simp [hp] at h
            | some r =>
              obtain ⟨p', bp⟩ := r
              cases bp with
              | true =>
                simp only [hp] at h
                cases hsy : sync (mk (some p') seq idx) with
                | none => simp [hsy] at h
                | some cur =>
                  obtain ⟨chseq, hch, hcur⟩ := sync_some p' _ _ cur hsy
                  subst hcur
                  simp only [hsy, Option.some_bind, length_mk, parent_mk, seq_mk] at h
                  cases chseq with
                  | none => simp at h
                  | some ch =>
                    simp only [Option.map_some', Option.some.injEq, Prod.mk.injEq] at h
                    rw [← h.1]
                    exact ⟨hch, retreat_inSync p false p' true hs.2 hp⟩
              | false =>
                have := retreat_false_unchanged p p' hp
                subst this
                simp only [hp, Option.some.injEq, Prod.mk.injEq] at h
                rw [← h.1]
                exact hs

/-- A chain on which `seekBinary` returns is in sync afterwards. -/
theorem seekBinary_inSync (compare : α → Bool) : ∀ (c c' : sequenceCursor α),
    seekBinary compare c = some c' → inSync c'
  | mk none seq idx, c', h => by
    rw [seekBinary_eq] at h
    simp only [Option.some_bind] at h
    obtain ⟨s, i, _, hc, -⟩ := localSeek_inv compare _ c' h
    subst hc
    trivial
  | mk (some p) seq idx, c', h => by
    rw [seekBinary_eq] at h
    cases hp : seekBinary compare p with
    | none => simp [hp] at h
    | some p' =>
      simp only [hp] at h
      cases hsy : sync (mk (some p') seq idx) with
      | none => simp [hsy] at h
      | some cur =>
        obtain ⟨chseq, hch, hcur⟩ := sync_some p' _ _ cur hsy
        subst hcur
        simp only [hsy, Option.some_bind] at h
        obtain ⟨s, i, hs, hc, -⟩ := localSeek_inv compare _ c' h
        simp only [seq_mk, parent_mk] at hs hc
        subst hs
        subst hc
        exact ⟨hch, seekBinary_inSync compare p p' hp⟩

/-- C19: a chain in sync is in sync after `advance()` and after `retreat()`, whether the call
returns true or false, and any chain is in sync after `seekBinary`. -/
theorem navigation_keeps_sync (c : sequenceCursor α) :
    (inSync c → ∀ c' b, advance c = some (c', b) → inSync c')
    ∧ (inSync c → ∀ c' b, retreat c = some (c', b) → inSync c')
    ∧ (∀ (compare : α → Bool) c', seekBinary compare c = some c' → inSync c') :=
  ⟨fun hs c' b h => advance_inSync c true c' b hs h,
   fun hs c' b h => retreat_inSync c true c' b hs h,
   fun compare c' h => seekBinary_inSync compare c c' h⟩

theorem navigation_keeps_sync_witness :
    inSync (sampleCursor 0 2)
    ∧ advance (sampleCursor 0 2) = some (sampleCursor 1 0, true)
    ∧ inSync (sampleCursor 1 0)
    ∧ retreat (sampleCursor 0 0) = some (sampleCursor 0 (-1), false)
    ∧ inSync (sampleCursor 0 (-1))
    ∧ seekBinary (fun x => decide ('e' ≤ x))
        (mk (some (mk none (some sampleTree) 0)) none 7) = some (sampleCursor 1 1)
    ∧ inSync (sampleCursor 1 1) :=
  have h0 : inSync (sampleCursor 0 2) := ⟨by decide, trivial⟩
  have h1 : inSync (sampleCursor 0 0) := ⟨by decide, trivial⟩
  ⟨h0, by decide,
    (navigation_keeps_sync (sampleCursor 0 2)).1 h0 (sampleCursor 1 0) true (by decide),
    by decide,
    (navigation_keeps_sync (sampleCursor 0 0)).2.1 h1 (sampleCursor 0 (-1)) false (by decide),
    by decide,
    (navigation_keeps_sync (mk (some (mk none (some sampleTree) 0)) none 7)).2.2
      (fun x => decide ('e' ≤ x)) (sampleCursor 1 1) (by decide)⟩

end sequenceCursor

namespace sequenceCursor
variable {α : Type}

theorem uniformNonEmpty_seq (c : sequenceCursor α) (k : Nat) (h : uniformNonEmpty k c) :
    ∃ s, c.seq = some s ∧ s.nonEmptyTo k := by
  obtain ⟨parent, seq, idx⟩ := c
  cases parent with
  | none => exact h
  | some p => exact h.1

theorem rangeOk_seq (c : sequenceCursor α) (h : rangeOk c) :
    ∃ s, c.seq = some s ∧ -1 ≤ c.idx ∧ c.idx ≤ s.seqLen := by
  obtain ⟨parent, seq, idx⟩ := c
  cases parent with
  | none => exact h
  | some p => exact h.1

theorem uniformNonEmpty_mk (parent : Option (sequenceCursor α)) (s : Sequence α) (i j : Int)
    (k : Nat) (h : uniformNonEmpty k (mk parent (some s) i)) :
    uniformNonEmpty k (mk parent (some s) j) := by
  cases parent with
  | none => exact h
  | some p => exact h

theorem rangeOk_mk (parent : Option (sequenceCursor α)) (s : Sequence α) (i j : Int)
    (h : rangeOk (mk parent (some s) i)) (h1 : -1 ≤ j) (h2 : j ≤ s.seqLen) :
    rangeOk (mk parent (some s) j) := by
  cases parent with
  | none => exact ⟨s, rfl, h1, h2⟩
  | some p => exact ⟨⟨s, rfl, h1, h2⟩, h.2⟩

/-- The child that a valid parent resolves, over non-empty chunks below meta-sequences. -/
theorem child_of_uniformNonEmpty (p : sequenceCursor α) (k : Nat)
    (hne : uniformNonEmpty (k + 1) p) (hv : valid p = some true) :
    ∃ child, getChildSequence p = some (some child) ∧ child.nonEmptyTo k := by
  obtain ⟨s, hs, hsne⟩ := uniformNonEmpty_seq p (k + 1) hne
  obtain ⟨hmeta, _, hch⟩ := hsne
  obtain ⟨child, hget, hchild⟩ := getChildSequence_of_valid p s hs hmeta hv
  exact ⟨child, hchild, hch child (List.getElem?_mem hget)⟩

/-- The probe `advanceMaybeAllowPastEnd(false)` on a chain over non-empty chunks below
meta-sequences (`uniformNonEmpty`) with every index in range: it returns; on false nothing has
moved; on true the cursor points at an item. -/
theorem advance_probe_range : ∀ (c : sequenceCursor α) (k : Nat),
    uniformNonEmpty k c → rangeOk c →
    ∃ c' b, advanceMaybeAllowPastEnd c false = some (c', b)
      ∧ (b = false → c' = c ∧ (length c = some c.idx ∨ length c = some (c.idx + 1)))
      ∧ (b = true → uniformNonEmpty k c' ∧ rangeOk c' ∧ valid c' = some true)
  | mk parent seq idx, k, hne, hr => by
    obtain ⟨s, hs, hsne⟩ := uniformNonEmpty_seq _ k hne
    obtain ⟨s', hs', hlo, hhi⟩ := rangeOk_seq _ hr
    simp only [seq_mk, idx_mk] at hs hs' hlo hhi
    subst hs
    cases hs'
    have hpos := Sequence.nonEmptyTo_pos k s hsne
    rw [advance_eq]
    simp only [length_mk, Option.map_some', Option.some_bind, Bool.false_eq_true, if_false]
    by_cases h1 : idx < s.seqLen - 1
    · rw [if_pos h1]
      exact ⟨_, true, rfl, by simp, fun _ => ⟨uniformNonEmpty_mk parent s idx _ k hne,
        rangeOk_mk parent s idx _ hr (by omega) (by omega),
        valid_of_bounds parent s _ (by omega) (by omega)⟩⟩
    · rw [if_neg h1]
      by_cases h2 : idx = s.seqLen
      · rw [if_pos h2]
        refine ⟨_, false, rfl, fun _ => ⟨rfl, Or.inl ?_⟩, by simp⟩
        simp [h2]
      · rw [if_neg h2]
        have hlast : s.seqLen = idx + 1 := by omega
        cases parent with
        | none =>
          refine ⟨_, false, rfl, fun _ => ⟨rfl, Or.inr ?_⟩, by simp⟩
          simp [hlast]
        | some p =>
          obtain ⟨p', bp, hadv, hfalse, htrue⟩ := advance_probe_range p (k + 1) hne.2 hr.2
          cases bp with
          | false =>
            obtain ⟨hpp, _⟩ := hfalse rfl
            subst hpp
            refine ⟨_, false, by simp only [hadv], fun _ => ⟨rfl, Or.inr ?_⟩, by simp⟩
            simp [hlast]
          | true =>
            obtain ⟨hne', hr', hv'⟩ := htrue rfl
            obtain ⟨child, hchild, hcne⟩ := child_of_uniformNonEmpty p' k hne' hv'
            have hcpos := Sequence.nonEmptyTo_pos k child hcne
            refine ⟨mk (some p') (some child) 0, true, ?_, by simp,
              fun _ => ⟨⟨⟨child, rfl, hcne⟩, hne'⟩, ⟨⟨child, rfl, by omega, by omega⟩, hr'⟩,
                valid_of_bounds _ child 0 (le_refl _) hcpos⟩⟩
            simp only [hadv, sync, parent_mk, hchild, Option.map_some', seq_mk]

/-- The probe `retreatMaybeAllowBeforeStart(false)` on a chain over non-empty chunks below
meta-sequences (`uniformNonEmpty`) with every index in range: it returns; on false nothing has
moved; on true the cursor points at an item. -/
theorem retreat_probe_range : ∀ (c : sequenceCursor α) (k : Nat),
    uniformNonEmpty k c → rangeOk c →
    ∃ c' b, retreatMaybeAllowBeforeStart c false = some (c', b)
      ∧ (b = false → c' = c ∧ (c.idx = -1 ∨ c.idx = 0))
      ∧ (b = true → uniformNonEmpty k c' ∧ rangeOk c' ∧ valid c' = some true)
  | mk parent seq idx, k, hne, hr => by
    obtain ⟨s, hs, hsne⟩ := uniformNonEmpty_seq _ k hne
    obtain ⟨s', hs', hlo, hhi⟩ := rangeOk_seq _ hr
    simp only [seq_mk, idx_mk] at hs hs' hlo hhi
    subst hs
    cases hs'
    rw [retreat_eq]
    simp only [Bool.false_eq_true, if_false]
    by_cases h1 : 0 < idx
    · rw [if_pos h1]
      exact ⟨_, true, rfl, by simp, fun _ => ⟨uniformNonEmpty_mk parent s idx _ k hne,
        rangeOk_mk parent s idx _ hr (by omega) (by omega),
        valid_of_bounds parent s _ (by omega) (by omega)⟩⟩
    · rw [if_neg h1]
      by_cases h2 : idx = -1
      · rw [if_pos h2]
        exact ⟨_, false, rfl, fun _ => ⟨rfl, Or.inl h2⟩, by simp⟩
      · rw [if_neg h2]
        have hz : idx = 0 := by omega
        subst hz
        rw [if_neg (by simp)]
        cases parent with
        | none => exact ⟨_, false, rfl, fun _ => ⟨rfl, Or.inr rfl⟩, by simp⟩
        | some p =>
          obtain ⟨p', bp, hret, hfalse, htrue⟩ := retreat_probe_range p (k + 1) hne.2 hr.2
          cases bp with
          | false =>
            obtain ⟨hpp, _⟩ := hfalse rfl
            subst hpp
            exact ⟨_, false, by simp only [hret], fun _ => ⟨rfl, Or.inr rfl⟩, by simp⟩
          | true =>
            obtain ⟨hne', hr', hv'⟩ := htrue rfl
            obtain ⟨child, hchild, hcne⟩ := child_of_uniformNonEmpty p' k hne' hv'
            have hcpos := Sequence.nonEmptyTo_pos k child hcne
            refine ⟨mk (some p') (some child) (child.seqLen - 1), true, ?_, by simp,
              fun _ => ⟨⟨⟨child, rfl, hcne⟩, hne'⟩,
                ⟨⟨child, rfl, by omega, by omega⟩, hr'⟩,
                valid_of_bounds _ child _ (by omega) (by omega)⟩⟩
            simp only [hret, sync, parent_mk, hchild, Option.map_some', idx_mk,
              Option.some_bind, length_mk, seq_mk]

/-- A chain over non-empty chunks whose sequences above the level of the cursor are
meta-sequences throughout satisfies the two conditions of `uniformNonEmpty`. -/
theorem uniformNonEmpty_of_levels : ∀ (c : sequenceCursor α) (k : Nat),
    levelsNonEmpty k c → levelsMeta k c → uniformNonEmpty k c
  | mk none seq idx, k, hne, hm => by
    obtain ⟨s, hs, h1⟩ := hne
    obtain ⟨s', hs', h2⟩ := hm
    subst hs
    cases hs'
    exact ⟨s, rfl, Sequence.nonEmptyTo_of_metaTo k s h1 h2⟩
  | mk (some p) seq idx, k, hne, hm => by
    obtain ⟨⟨s, hs, h1⟩, hnp⟩ := hne
    obtain ⟨⟨s', hs', h2⟩, hmp⟩ := hm
    subst hs
    cases hs'
    exact ⟨⟨s, rfl, Sequence.nonEmptyTo_of_metaTo k s h1 h2⟩,
      uniformNonEmpty_of_levels p (k + 1) hnp hmp⟩

theorem lopsided_levelsNonEmpty : levelsNonEmpty 0 lopsidedCursor := by
  refine ⟨⟨_, rfl, ?_⟩, ⟨_, rfl, ?_⟩, ⟨_, rfl, ?_⟩⟩ <;>
    simp [lopsidedTree, Sequence.chunksNonEmptyTo, Sequence.seqLen, Sequence.items,
      Sequence.children]

theorem lopsided_rangeOk : rangeOk lopsidedCursor :=
  ⟨⟨_, rfl, by decide, by decide⟩, ⟨_, rfl, by decide, by decide⟩,
    ⟨_, rfl, by decide, by decide⟩⟩

theorem mirror_levelsNonEmpty : levelsNonEmpty 0 mirrorCursor := by
  refine ⟨⟨_, rfl, ?_⟩, ⟨_, rfl, ?_⟩, ⟨_, rfl, ?_⟩⟩ <;>
    simp [mirrorTree, Sequence.chunksNonEmptyTo, Sequence.seqLen, Sequence.items,
      Sequence.children]

theorem mirror_rangeOk : rangeOk mirrorCursor :=
  ⟨⟨_, rfl, by decide, by decide⟩, ⟨_, rfl, by decide, by decide⟩,
    ⟨_, rfl, by decide, by decide⟩⟩

/-- C18 as stated fails: the chain `lopsidedCursor` is over non-empty chunks with
`-1 <= idx <= length()` at every level, yet the probe `advanceMaybeAllowPastEnd(false)` returns
true and leaves the cursor with a nil sequence, on which `valid()` does not hold (it fails on
reading the length); on the chain `mirrorCursor`, which meets the same conditions, the probe
`retreatMaybeAllowBeforeStart(false)` does not return. -/
theorem probe_lopsided_off_item :
    levelsNonEmpty 0 lopsidedCursor ∧ rangeOk lopsidedCursor
    ∧ advanceMaybeAllowPastEnd lopsidedCursor false
        = some (mk (some (mk (some (mk none (some lopsidedTree) 1))
            (some (Sequence.leaf ['b'])) 0)) none 0, true)
    ∧ valid (mk (some (mk (some (mk none (some lopsidedTree) 1))
        (some (Sequence.leaf ['b'])) 0)) (none : Option (Sequence Char)) 0) = none
    ∧ levelsNonEmpty 0 mirrorCursor ∧ rangeOk mirrorCursor
    ∧ retreatMaybeAllowBeforeStart mirrorCursor false = none :=
  ⟨lopsided_levelsNonEmpty, lopsided_rangeOk, by decide, by decide, mirror_levelsNonEmpty,
    mirror_rangeOk, by decide⟩

/-- C18, amended: on a chain over non-empty chunks with `-1 <= idx <= length()` at every level
whose sequences above the level of the cursor are meta-sequences throughout, the probe
`advanceMaybeAllowPastEnd(false)` returns, and either returns true and leaves the cursor on an
item, or returns false and leaves the whole chain as it was; the same holds for
`retreatMaybeAllowBeforeStart(false)`. -/
theorem probe_never_on_sentinel (c : sequenceCursor α) (hne : levelsNonEmpty 0 c)
    (hmeta : levelsMeta 0 c) (hr : rangeOk c) :
    (∃ c' b, advanceMaybeAllowPastEnd c false = some (c', b)
      ∧ (b = true → valid c' = some true) ∧ (b = false → c' = c))
    ∧ (∃ c' b, retreatMaybeAllowBeforeStart c false = some (c', b)
      ∧ (b = true → valid c' = some true) ∧ (b = false → c' = c)) := by
  have hu := uniformNonEmpty_of_levels c 0 hne hmeta
  obtain ⟨c1, b1, h1, hf1, ht1⟩ := advance_probe_range c 0 hu hr
  obtain ⟨c2, b2, h2, hf2, ht2⟩ := retreat_probe_range c 0 hu hr
  exact ⟨⟨c1, b1, h1, fun h => (ht1 h).2.2, fun h => (hf1 h).1⟩,
    ⟨c2, b2, h2, fun h => (ht2 h).2.2, fun h => (hf2 h).1⟩⟩

end sequenceCursor

namespace sequenceCursor
variable {α : Type}

theorem sample_levelsNonEmpty (j : Int) :
    levelsNonEmpty 0 (sampleCursor 0 j) ∧ levelsNonEmpty 0 (sampleCursor 1 j) := by
  refine ⟨⟨⟨_, rfl, ?_⟩, ⟨_, rfl, ?_⟩⟩, ⟨⟨_, rfl, ?_⟩, ⟨_, rfl, ?_⟩⟩⟩ <;>
    simp [sampleTree, Sequence.chunksNonEmptyTo, Sequence.seqLen, Sequence.items,
      Sequence.children]

theorem sample_levelsMeta (j : Int) :
    levelsMeta 0 (sampleCursor 0 j) ∧ levelsMeta 0 (sampleCursor 1 j) := by
  refine ⟨⟨⟨_, rfl, trivial⟩, ⟨_, rfl, ?_⟩⟩, ⟨⟨_, rfl, trivial⟩, ⟨_, rfl, ?_⟩⟩⟩ <;>
    simp [sampleTree, Sequence.metaTo, Sequence.isMeta]

theorem sample_rangeOk (j : Int) (h1 : -1 ≤ j) (h2 : j ≤ 3) :
    rangeOk (sampleCursor 0 j) ∧ rangeOk (sampleCursor 1 j) := by
  refine ⟨⟨⟨Sequence.leaf ['a', 'b', 'c'], rfl, h1, ?_⟩, ⟨_, rfl, ?_, ?_⟩⟩,
    ⟨⟨Sequence.leaf ['d', 'e', 'f'], rfl, h1, ?_⟩, ⟨_, rfl, ?_, ?_⟩⟩⟩ <;>
    simp [sampleTree, Sequence.seqLen, Sequence.items, h2]

theorem probe_never_on_sentinel_witness :
    levelsNonEmpty 0 (sampleCursor 0 2) ∧ levelsMeta 0 (sampleCursor 0 2)
    ∧ rangeOk (sampleCursor 0 2)
    ∧ advanceMaybeAllowPastEnd (sampleCursor 0 2) false = some (sampleCursor 1 0, true)
    ∧ advanceMaybeAllowPastEnd (sampleCursor 1 2) false = some (sampleCursor 1 2, false)
    ∧ (∃ c' b, advanceMaybeAllowPastEnd (sampleCursor 0 2) false = some (c', b)
        ∧ (b = true → valid c' = some true) ∧ (b = false → c' = sampleCursor 0 2))
    ∧ (∃ c' b, retreatMaybeAllowBeforeStart (sampleCursor 0 2) false = some (c', b)
        ∧ (b = true → valid c' = some true) ∧ (b = false → c' = sampleCursor 0 2)) :=
  ⟨(sample_levelsNonEmpty 2).1, (sample_levelsMeta 2).1,
    (sample_rangeOk 2 (by decide) (by decide)).1, by decide, by decide,
    probe_never_on_sentinel (sampleCursor 0 2) (sample_levelsNonEmpty 2).1
      (sample_levelsMeta 2).1 (sample_rangeOk 2 (by decide) (by decide)).1⟩

/-- C20 as stated fails: the chain `lopsidedCursor` is over non-empty chunks with
`-1 <= idx <= length()` at every level, yet the public `advance()` returns true while `valid()`
does not hold afterwards (the cursor is left with a nil sequence, and `valid()` fails on reading
its length); on the chain `mirrorCursor`, which meets the same conditions, the public
`retreat()` does not return. -/
theorem step_lopsided_true_not_valid :
    levelsNonEmpty 0 lopsidedCursor ∧ rangeOk lopsidedCursor
    ∧ (∃ c', advance lopsidedCursor = some (c', true) ∧ c'.seq = none
        ∧ valid c' ≠ some true)
    ∧ levelsNonEmpty 0 mirrorCursor ∧ rangeOk mirrorCursor
    ∧ retreat mirrorCursor = none :=
  ⟨lopsided_levelsNonEmpty, lopsided_rangeOk,
    ⟨mk (some (mk (some (mk none (some lopsidedTree) 1)) (some (Sequence.leaf ['b'])) 0))
        none 0, by decide, rfl, by decide⟩,
    mirror_levelsNonEmpty, mirror_rangeOk, by decide⟩

/-- C20, amended: on a chain over non-empty chunks with `-1 <= idx <= length()` at every level
whose sequences above the level of the cursor are meta-sequences throughout, `advance()`
returns, with true if and only if `valid()` holds afterwards, and on false the cursor is at
`idx = length()`; `retreat()` returns, with true if and only if `valid()` holds afterwards, and
on false the cursor is at `idx = -1`. -/
theorem step_result_iff_valid (c : sequenceCursor α) (hne : levelsNonEmpty 0 c)
    (hmeta : levelsMeta 0 c) (hr : rangeOk c) :
    (∃ c' b, advance c = some (c', b) ∧ (b = true ↔ valid c' = some true)
      ∧ (b = false → length c' = some c'.idx))
    ∧ (∃ c' b, retreat c = some (c', b) ∧ (b = true ↔ valid c' = some true)
      ∧ (b = false → c'.idx = -1)) := by
  have hu := uniformNonEmpty_of_levels c 0 hne hmeta
  obtain ⟨c1, b1, h1, hf1, ht1⟩ := advance_probe_range c 0 hu hr
  obtain ⟨c2, b2, h2, hf2, ht2⟩ := retreat_probe_range c 0 hu hr
  obtain ⟨s, hs, _, _⟩ := rangeOk_seq c hr
  obtain ⟨parent, seq, idx⟩ := c
  simp only [seq_mk] at hs
  subst hs
  constructor
  · cases b1 with
    | true =>
      exact ⟨c1, true, advance_allow_of_true _ c1 h1, by simp [(ht1 rfl).2.2], by simp⟩
    | false =>
      obtain ⟨_, hlen⟩ := hf1 rfl
      simp only [length_mk, Option.map_some', idx_mk, Option.some.injEq] at hlen
      rcases hlen with hlen | hlen
      · subst hlen
        exact ⟨_, false, advance_at_end parent s, by simp [valid_at_length], fun _ => rfl⟩
      · refine ⟨_, false, advance_allow_of_false parent s idx c1 h1 hlen, ?_, fun _ => ?_⟩
        · rw [← hlen]
          simp [valid_at_length]
        · simp [hlen]
  · cases b2 with
    | true =>
      exact ⟨c2, true, retreat_allow_of_true _ c2 h2, by simp [(ht2 rfl).2.2], by simp⟩
    | false =>
      obtain ⟨_, hidx⟩ := hf2 rfl
      simp only [idx_mk] at hidx
      rcases hidx with hidx | hidx
      · subst hidx
        exact ⟨_, false, retreat_at_start parent (some s) true, by simp [valid_at_start],
          fun _ => rfl⟩
      · subst hidx
        exact ⟨_, false, retreat_allow_of_false parent (some s) c2 h2,
          by simp [valid_at_start], fun _ => rfl⟩

theorem step_result_iff_valid_witness :
    levelsNonEmpty 0 (sampleCursor 1 2) ∧ levelsMeta 0 (sampleCursor 1 2)
    ∧ rangeOk (sampleCursor 1 2)
    ∧ advance (sampleCursor 1 2) = some (sampleCursor 1 3, false)
    ∧ valid (sampleCursor 1 3) = some false
    ∧ retreat (sampleCursor 1 2) = some (sampleCursor 1 1, true)
    ∧ valid (sampleCursor 1 1) = some true
    ∧ (∃ c' b, advance (sampleCursor 1 2) = some (c', b) ∧ (b = true ↔ valid c' = some true)
        ∧ (b = false → length c' = some c'.idx))
    ∧ (∃ c' b, retreat (sampleCursor 1 2) = some (c', b) ∧ (b = true ↔ valid c' = some true)
        ∧ (b = false → c'.idx = -1)) :=
  ⟨(sample_levelsNonEmpty 2).2, (sample_levelsMeta 2).2,
    (sample_rangeOk 2 (by decide) (by decide)).2, by decide, by decide, by decide, by decide,
    step_result_iff_valid (sampleCursor 1 2) (sample_levelsNonEmpty 2).2
      (sample_levelsMeta 2).2 (sample_rangeOk 2 (by decide) (by decide)).2⟩

end sequenceCursor

namespace sequenceCursor
variable {α : Type}

theorem levelsMeta_seq (c : sequenceCursor α) (k : Nat) (h : levelsMeta k c) :
    ∃ s, c.seq = some s ∧ s.metaTo k := by
  obtain ⟨parent, seq, idx⟩ := c
  cases parent with
  | none => exact h
  | some p => exact h.1

theorem levelsMeta_mk (parent : Option (sequenceCursor α)) (s : Sequence α) (i j : Int)
    (k : Nat) (h : levelsMeta k (mk parent (some s) i)) :
    levelsMeta k (mk parent (some s) j) := by
  cases parent with
  | none => exact h
  | some p => exact h

/-- What a parent over meta-sequences resolves, when its lookup returns, is a sequence. -/
theorem child_of_levelsMeta (p : sequenceCursor α) (k : Nat) (hm : levelsMeta (k + 1) p)
    (chseq : Option (Sequence α)) (h : getChildSequence p = some chseq) :
    ∃ child, chseq = some child ∧ child.metaTo k := by
  obtain ⟨s, hs, hmeta, hch⟩ := levelsMeta_seq p (k + 1) hm
  simp only [getChildSequence, hs, hmeta, if_true, Sequence.getChildSequence] at h
  by_cases h0 : 0 ≤ p.idx
  · rw [if_pos h0] at h
    cases hget : s.children[p.idx.toNat]? with
    | none => simp [hget] at h
    | some child =>
      simp only [hget, Option.map_some', Option.some.injEq] at h
      exact ⟨child, h.symm, hch child (List.getElem?_mem hget)⟩
  · simp [h0] at h

/-- A step of `advanceMaybeAllowPastEnd` keeps every index in range when the sequences above
the cursor are meta-sequences throughout. -/
theorem advance_rangeOk : ∀ (c : sequenceCursor α) (k : Nat) (allow : Bool)
    (c' : sequenceCursor α) (b : Bool), levelsMeta k c → rangeOk c →
    advanceMaybeAllowPastEnd c allow = some (c', b) → rangeOk c' ∧ levelsMeta k c'
  | mk parent seq idx, k, allow, c', b, hm, hr, h => by
    obtain ⟨s, hs, hlo, hhi⟩ := rangeOk_seq _ hr
    simp only [seq_mk, idx_mk] at hs hlo hhi
    subst hs
    rw [advance_eq] at h
    simp only [length_mk, Option.map_some', Option.some_bind] at h
    by_cases h1 : idx < s.seqLen - 1
    · rw [if_pos h1] at h
      simp only [Option.some.injEq, Prod.mk.injEq] at h
      rw [← h.1]
      exact ⟨rangeOk_mk parent s idx _ hr (by omega) (by omega), levelsMeta_mk parent s idx _ k hm⟩
    · rw [if_neg h1] at h
      by_cases h2 : idx = s.seqLen
      · rw [if_pos h2] at h
        simp only [Option.some.injEq, Prod.mk.injEq] at h
        rw [← h.1]
        exact ⟨hr, hm⟩
      · rw [if_neg h2] at h
        have hstep : -1 ≤ (if allow = true then idx + 1 else idx)
            ∧ (if allow = true then idx + 1 else idx) ≤ s.seqLen := by
          split_ifs <;> constructor <;> omega
        cases parent with
        | none =>
          simp only [Option.some.injEq, Prod.mk.injEq] at h
          rw [← h.1]
          exact ⟨rangeOk_mk none s idx _ hr hstep.1 hstep.2, levelsMeta_mk none s idx _ k hm⟩
        | some p =>
          simp only at h
          cases hp : advanceMaybeAllowPastEnd p false with
          | none => simp [hp] at h
          | some r =>
            obtain ⟨p', bp⟩ := r
            obtain ⟨hr', hm'⟩ := advance_rangeOk p (k + 1) false p' bp hm.2 hr.2 hp
            cases bp with
            | true =>
              simp only [hp] at h
              cases hsy : sync (mk (some p') (some s) idx) with
              | none => simp [hsy] at h
              | some cur =>
                obtain ⟨chseq, hch, hcur⟩ := sync_some p' _ _ cur hsy
                subst hcur
                obtain ⟨child, hc, hcm⟩ := child_of_levelsMeta p' k hm' chseq hch
                subst hc
                simp only [hsy, Option.map_some', parent_mk, seq_mk, Option.some.injEq,
                  Prod.mk.injEq] at h
                rw [← h.1]
                have hpos : (0 : Int) ≤ child.seqLen := by unfold Sequence.seqLen; omega
                exact ⟨⟨⟨child, rfl, by omega, hpos⟩, hr'⟩, ⟨⟨child, rfl, hcm⟩, hm'⟩⟩
            | false =>
              have := advance_false_unchanged p p' hp
              subst this
              simp only [hp, Option.some.injEq, Prod.mk.injEq] at h
              rw [← h.1]
              exact ⟨rangeOk_mk (some p') s idx _ hr hstep.1 hstep.2,
                levelsMeta_mk (some p') s idx _ k hm⟩

/-- A step of `retreatMaybeAllowBeforeStart` keeps every index in range. -/
theorem retreat_rangeOk : ∀ (c : sequenceCursor α) (allow : Bool)
    (c' : sequenceCursor α) (b : Bool), rangeOk c →
    retreatMaybeAllowBeforeStart c allow = some (c', b) → rangeOk c'
  | mk parent seq idx, allow, c', b, hr, h => by
    obtain ⟨s, hs, hlo, hhi⟩ := rangeOk_seq _ hr
    simp only [seq_mk, idx_mk] at hs hlo hhi
    subst hs
    rw [retreat_eq] at h
    by_cases h1 : 0 < idx
    · rw [if_pos h1] at h
      simp only [Option.some.injEq, Prod.mk.injEq] at h
      rw [← h.1]
      exact rangeOk_mk parent s idx _ hr (by omega) (by omega)
    · rw [if_neg h1] at h
      by_cases h2 : idx = -1
      · rw [if_pos h2] at h
        simp only [Option.some.injEq, Prod.mk.injEq] at h
        rw [← h.1]
        exact hr
      · rw [if_neg h2] at h
        have hz : idx = 0 := by omega
        subst hz
        rw [if_neg (by simp)] at h
        have hpos : (0 : Int) ≤ s.seqLen := by unfold Sequence.seqLen; omega
        have hstep : -1 ≤ (if allow = true then (0 : Int) - 1 else 0)
            ∧ (if allow = true then (0 : Int) - 1 else 0) ≤ s.seqLen := by
          split_ifs <;> constructor <;> omega
        cases parent with
        | none =>
          simp only [Option.some.injEq, Prod.mk.injEq] at h
          rw [← h.1]
          exact rangeOk_mk none s 0 _ hr hstep.1 hstep.2
        | some p =>
          simp only at h
          cases hp : retreatMaybeAllowBeforeStart p false with
          | none => simp [hp] at h
          | some r =>
            obtain ⟨p', bp⟩ := r
            have hr' := retreat_rangeOk p false p' bp hr.2 hp
            cases bp with
            | true =>
              simp only [hp] at h
              cases hsy : sync (mk (some p') (some s) 0) with
              | none => simp [hsy] at h
              | some cur =>
                obtain ⟨chseq, hch, hcur⟩ := sync_some p' _ _ cur hsy
                subst hcur
                simp only [hsy, Option.some_bind, length_mk, parent_mk, seq_mk] at h
                cases chseq with
                | none => simp at h
                | some child =>
                  simp only [Option.map_some', Option.some.injEq, Prod.mk.injEq] at h
                  rw [← h.1]
                  have hcpos : (0 : Int) ≤ child.seqLen := by unfold Sequence.seqLen; omega
                  exact ⟨⟨child, rfl, by omega, by omega⟩, hr'⟩
            | false =>
              have := retreat_false_unchanged p p' hp
              subst this
              simp only [hp, Option.some.injEq, Prod.mk.injEq] at h
              rw [← h.1]
              exact rangeOk_mk (some p') s 0 _ hr hstep.1 hstep.2

/-- A chain on which `seekBinary` returns has every index in range afterwards. -/
theorem seekBinary_rangeOk (compare : α → Bool) : ∀ (c c' : sequenceCursor α),
    seekBinary compare c = some c' → rangeOk c'
  | mk none seq idx, c', h => by
    rw [seekBinary_eq] at h
    simp only [Option.some_bind] at h
    obtain ⟨s, i, _, hc, h1, h2, _⟩ := localSeek_inv compare _ c' h
    subst hc
    exact ⟨s, rfl, h1, by omega⟩
  | mk (some p) seq idx, c', h => by
    rw [seekBinary_eq] at h
    cases hp : seekBinary compare p with
    | none => simp [hp] at h
    | some p' =>
      simp only [hp] at h
      cases hsy : sync (mk (some p') seq idx) with
      | none => simp [hsy] at h
      | some cur =>
        obtain ⟨chseq, hch, hcur⟩ := sync_some p' _ _ cur hsy
        subst hcur
        simp only [hsy, Option.some_bind] at h
        obtain ⟨s, i, hs, hc, h1, h2, _⟩ := localSeek_inv compare _ c' h
        simp only [seq_mk, parent_mk] at hs hc
        subst hs
        subst hc
        exact ⟨⟨s, rfl, h1, by omega⟩, seekBinary_rangeOk compare p p' hp⟩

/-- C17 as stated fails: on the chain `lopsidedCursor`, in sync with every index in range, over
a tree whose second chunk is a leaf one level too high, `advance()` returns true and leaves the
cursor with a nil sequence, which has no length. -/
theorem advance_range_lopsided :
    rangeOk lopsidedCursor ∧ inSync lopsidedCursor
    ∧ advance lopsidedCursor
        = some (mk (some (mk (some (mk none (some lopsidedTree) 1))
            (some (Sequence.leaf ['b'])) 0)) none 0, true)
    ∧ length (mk (some (mk (some (mk none (some lopsidedTree) 1))
        (some (Sequence.leaf ['b'])) 0)) (none : Option (Sequence Char)) 0) = none
    ∧ ¬ rangeOk (mk (some (mk (some (mk none (some lopsidedTree) 1))
        (some (Sequence.leaf ['b'])) 0)) (none : Option (Sequence Char)) 0) := by
  refine ⟨⟨⟨_, rfl, by decide, by decide⟩, ⟨_, rfl, by decide, by decide⟩,
    ⟨_, rfl, by decide, by decide⟩⟩, ⟨by decide, by decide, trivial⟩, by decide, rfl, ?_⟩
  rintro ⟨⟨s, hs, _⟩, _⟩
  cases hs

/-- C17, amended: if every level of a chain satisfies `-1 <= idx <= length()`, then every level
still does after `retreat()` and after `seekBinary` (for `seekBinary` whatever the chain was
before), and after `advance()` when the sequences above the level of the cursor are
meta-sequences throughout. -/
theorem navigation_keeps_range (c : sequenceCursor α) :
    (rangeOk c → levelsMeta 0 c → ∀ c' b, advance c = some (c', b) → rangeOk c')
    ∧ (rangeOk c → ∀ c' b, retreat c = some (c', b) → rangeOk c')
    ∧ (∀ (compare : α → Bool) c', seekBinary compare c = some c' → rangeOk c') :=
  ⟨fun hr hm c' b h => (advance_rangeOk c 0 true c' b hm hr h).1,
   fun hr c' b h => retreat_rangeOk c true c' b hr h,
   fun compare c' h => seekBinary_rangeOk compare c c' h⟩

theorem navigation_keeps_range_witness :
    rangeOk (sampleCursor 0 2) ∧ levelsMeta 0 (sampleCursor 0 2)
    ∧ advance (sampleCursor 0 2) = some (sampleCursor 1 0, true)
    ∧ rangeOk (sampleCursor 1 0)
    ∧ retreat (sampleCursor 0 2) = some (sampleCursor 0 1, true)
    ∧ rangeOk (sampleCursor 0 1)
    ∧ seekBinary (fun x => decide ('z' ≤ x)) (sampleCursor 0 2) = some (sampleCursor 1 2)
    ∧ rangeOk (sampleCursor 1 2) :=
  have hr : rangeOk (sampleCursor 0 2) := (sample_rangeOk 2 (by decide) (by decide)).1
  have hm : levelsMeta 0 (sampleCursor 0 2) :=
    ⟨⟨Sequence.leaf ['a', 'b', 'c'], rfl, trivial⟩, ⟨sampleTree, rfl, by
      simp [sampleTree, Sequence.metaTo, Sequence.isMeta]⟩⟩
  ⟨hr, hm, by decide,
    (navigation_keeps_range (sampleCursor 0 2)).1 hr hm (sampleCursor 1 0) true (by decide),
    by decide,
    (navigation_keeps_range (sampleCursor 0 2)).2.1 hr (sampleCursor 0 1) true (by decide),
    by decide,
    (navigation_keeps_range (sampleCursor 0 2)).2.2 (fun x => decide ('z' ≤ x))
      (sampleCursor 1 2) (by decide)⟩

end sequenceCursor

/-! ## The loop of `iter` -/

namespace sequenceCursor
variable {α : Type}

theorem advance_root (s : Sequence α) (i : Nat) (h : i < s.items.length) :
    ∃ b, advance (mk none (some s) (i : Int)) = some (mk none (some s) ((i : Int) + 1), b) := by
  unfold advance
  rw [advance_eq]
  simp only [length_mk, Option.map_some', Option.some_bind, if_true]
  by_cases h1 : (i : Int) < s.seqLen - 1
  · rw [if_pos h1]
    exact ⟨true, rfl⟩
  · rw [if_neg h1, if_neg (by unfold Sequence.seqLen; omega)]
    exact ⟨false, rfl⟩

theorem iter_step (cb : α → Bool) (s : Sequence α) (i : Nat) (x : α) (fuel : Nat)
    (calls : List α) (hx : s.items[i]? = some x) :
    iter cb (fuel + 1) (mk none (some s) (i : Int)) calls
      = if cb x then some (mk none (some s) (i : Int), calls ++ [x])
        else iter cb fuel (mk none (some s) ((i : Int) + 1)) (calls ++ [x]) := by
  have hlt := (List.getElem?_eq_some.mp hx).1
  have hv : valid (mk none (some s) (i : Int)) = some true :=
    valid_of_bounds none s i (by omega) (by unfold Sequence.seqLen; omega)
  obtain ⟨b, hadv⟩ := advance_root s i hlt
  have hget : getItem (mk none (some s) (i : Int)) (i : Int) = some x := by
    simp [getItem, Sequence.getItem, hx]
  simp only [iter, hv, Option.some_bind, if_true, idx_mk, hget, hadv]

theorem iter_stop (cb : α → Bool) (s : Sequence α) (i0 j : Nat) (y : α)
    (hy : s.items[j]? = some y) (hcy : cb y = true)
    (hbefore : ∀ (k : Nat) (x : α), i0 ≤ k → k < j → s.items[k]? = some x → cb x = false) :
    ∀ (fuel i : Nat) (calls : List α), i0 ≤ i → i ≤ j → j - i < fuel →
      iter cb fuel (mk none (some s) (i : Int)) calls
        = some (mk none (some s) (j : Int), calls ++ (s.items.drop i).take (j - i + 1))
  | 0, _, _, _, _, hf => by omega
  | fuel + 1, i, calls, hi0, hij, hf => by
    have hjlt := (List.getElem?_eq_some.mp hy).1
    have hilt : i < s.items.length := by omega
    rw [iter_step cb s i _ fuel calls (List.getElem?_eq_getElem hilt)]
    rcases Nat.eq_or_lt_of_le hij with h | h
    · subst h
      have hx : s.items[i] = y := by
        have := List.getElem?_eq_getElem hilt
        rw [hy] at this
        exact (Option.some.inj this).symm
      rw [hx, hcy, if_pos rfl, List.drop_eq_getElem_cons hilt, hx]
      simp
    · have hfalse := hbefore i _ hi0 h (List.getElem?_eq_getElem hilt)
      rw [hfalse]
      simp only [Bool.false_eq_true, if_false]
      have ih := iter_stop cb s i0 j y hy hcy hbefore fuel (i + 1) (calls ++ [s.items[i]])
        (by omega) h (by omega)
      have hcast : ((i : Int) + 1) = ((i + 1 : Nat) : Int) := by omega
      rw [hcast, ih, List.drop_eq_getElem_cons hilt]
      have hsub : j - i + 1 = (j - (i + 1) + 1) + 1 := by omega
      rw [hsub, List.take_succ_cons]
      simp

theorem iter_all (cb : α → Bool) (s : Sequence α) :
    ∀ (fuel i : Nat) (calls : List α), i ≤ s.items.length → s.items.length - i < fuel →
      (∀ (k : Nat) (x : α), i ≤ k → s.items[k]? = some x → cb x = false) →
      iter cb fuel (mk none (some s) (i : Int)) calls
        = some (mk none (some s) s.seqLen, calls ++ s.items.drop i)
  | 0, _, _, _, hf, _ => by omega
  | fuel + 1, i, calls, hi, hf, hall => by
    rcases Nat.eq_or_lt_of_le hi with h | h
    · subst h
      have hv : valid (mk none (some s) (s.items.length : Int)) = some false :=
        valid_at_length none s
      simp only [iter, hv, Option.some_bind, Bool.false_eq_true, if_false, List.drop_length,
        List.append_nil]
      rfl
    · rw [iter_step cb s i _ fuel calls (List.getElem?_eq_getElem h)]
      rw [hall i _ (le_refl _) (List.getElem?_eq_getElem h)]
      simp only [Bool.false_eq_true, if_false]
      have ih := iter_all cb s fuel (i + 1) (calls ++ [s.items[i]]) h (by omega) (by
        intro k x hk hx
        exact hall k x (by omega) hx)
      have hcast : ((i : Int) + 1) = ((i + 1 : Nat) : Int) := by omega
      rw [hcast, ih, List.drop_eq_getElem_cons h]
      simp

/-- C15: on a root cursor at a valid index `i`, `iter` calls the callback on the items
`i, i + 1, ...` in this order, each once; when `j` is the first of them on which the callback
returns true, the calls are those on `i .. j` and the cursor is left at `idx = j`; when the
callback returns true on none of them, the calls are those on `i .. length() - 1` and the cursor
is left at `idx = length()`. In both cases the loop ends within `length() - i + 1` evaluations of
its condition. -/
theorem iter_root (cb : α → Bool) (s : Sequence α) (i : Nat) (hi : i < s.items.length) :
    (∀ (j : Nat) (y : α), i ≤ j → s.items[j]? = some y → cb y = true →
      (∀ (k : Nat) (x : α), i ≤ k → k < j → s.items[k]? = some x → cb x = false) →
      ∀ fuel, s.items.length - i < fuel →
        iter cb fuel (mk none (some s) (i : Int)) []
          = some (mk none (some s) (j : Int), (s.items.drop i).take (j - i + 1)))
    ∧ ((∀ (k : Nat) (x : α), i ≤ k → s.items[k]? = some x → cb x = false) →
      ∀ fuel, s.items.length - i < fuel →
        iter cb fuel (mk none (some s) (i : Int)) []
          = some (mk none (some s) s.seqLen, s.items.drop i)) := by
  constructor
  · intro j y hij hy hcy hbefore fuel hf
    have hjlt := (List.getElem?_eq_some.mp hy).1
    have := iter_stop cb s i j y hy hcy hbefore fuel i [] (le_refl _) hij (by omega)
    simpa using this
  · intro hall fuel hf
    have := iter_all cb s fuel i [] (le_of_lt hi) hf hall
    simpa using this

end sequenceCursor

namespace sequenceCursor

theorem iter_root_witness :
    iter (fun x => decide (x = 'c')) 4 (mk none (some (Sequence.leaf ['a', 'b', 'c', 'd'])) 1) []
      = some (mk none (some (Sequence.leaf ['a', 'b', 'c', 'd'])) 2, ['b', 'c'])
    ∧ iter (fun _ => false) 4 (mk none (some (Sequence.leaf ['a', 'b', 'c', 'd'])) 1) []
      = some (mk none (some (Sequence.leaf ['a', 'b', 'c', 'd'])) 4, ['b', 'c', 'd'])
    ∧ iter (fun x => decide (x = 'c')) 4
        (mk none (some (Sequence.leaf ['a', 'b', 'c', 'd'])) ((1 : Nat) : Int)) []
      = some (mk none (some (Sequence.leaf ['a', 'b', 'c', 'd'])) ((2 : Nat) : Int),
          ((Sequence.leaf ['a', 'b', 'c', 'd']).items.drop 1).take (2 - 1 + 1))
    ∧ iter (fun _ => false) 4
        (mk none (some (Sequence.leaf ['a', 'b', 'c', 'd'])) ((1 : Nat) : Int)) []
      = some (mk none (some (Sequence.leaf ['a', 'b', 'c', 'd']))
          (Sequence.leaf ['a', 'b', 'c', 'd']).seqLen,
          (Sequence.leaf ['a', 'b', 'c', 'd']).items.drop 1) :=
  ⟨by decide, by decide,
    (iter_root (fun x => decide (x = 'c')) (Sequence.leaf ['a', 'b', 'c', 'd']) 1
      (by decide)).1 2 'c' (by decide) (by decide) (by decide) (by
        intro k x h1 h2 hx
        have hk : k = 1 := by omega
        subst hk
        simp [Sequence.items] at hx
        subst hx
        decide) 4 (by decide),
    (iter_root (fun _ => false) (Sequence.leaf ['a', 'b', 'c', 'd']) 1
      (by decide)).2 (fun _ _ _ _ => rfl) 4 (by decide)⟩

end sequenceCursor

/-! ## Cursor objects in memory -/

namespace heap
variable {α : Type}

theorem holds_root (h : cursorHeap α) (addrs : List Nat) (seq : Option (Sequence α))
    (idx : Int) (hh : holds h addrs (sequenceCursor.mk none seq idx)) :
    ∃ a, addrs = [a] ∧ h[a]? = some { parent := none, seq := seq, idx := idx } := by
  match addrs, hh with
  | [a], hh => exact ⟨a, rfl, hh⟩

theorem holds_child (h : cursorHeap α) (addrs : List Nat) (p : sequenceCursor α)
    (seq : Option (Sequence α)) (idx : Int)
    (hh : holds h addrs (sequenceCursor.mk (some p) seq idx)) :
    ∃ a b rest, addrs = a :: b :: rest
      ∧ h[a]? = some { parent := some b, seq := seq, idx := idx } ∧ b < a
      ∧ holds h (b :: rest) p := by
  match addrs, hh with
  | a :: b :: rest, hh => exact ⟨a, b, rest, rfl, hh.1, hh.2.1, hh.2.2⟩

end heap

namespace heap
variable {α : Type}

theorem holds_mk_root (h : cursorHeap α) (a : Nat) (seq : Option (Sequence α)) (idx : Int)
    (hc : h[a]? = some { parent := none, seq := seq, idx := idx }) :
    holds h [a] (sequenceCursor.mk none seq idx) := hc

theorem holds_mk_child (h : cursorHeap α) (a b : Nat) (rest : List Nat) (p : sequenceCursor α)
    (seq : Option (Sequence α)) (idx : Int)
    (hc : h[a]? = some { parent := some b, seq := seq, idx := idx }) (hlt : b < a)
    (hp : holds h (b :: rest) p) :
    holds h (a :: b :: rest) (sequenceCursor.mk (some p) seq idx) := ⟨hc, hlt, hp⟩

/-- The object at the first address carries the sequence and the index of the cursor. -/
theorem holds_head : ∀ (c : sequenceCursor α) (h : cursorHeap α) (a : Nat) (rest : List Nat),
    holds h (a :: rest) c → ∃ par, h[a]? = some { parent := par, seq := c.seq, idx := c.idx }
  | sequenceCursor.mk none seq idx, h, a, rest, hh => by
    obtain ⟨a', he, hc⟩ := holds_root h _ seq idx hh
    cases he
    exact ⟨none, hc⟩
  | sequenceCursor.mk (some p) seq idx, h, a, rest, hh => by
    obtain ⟨a', b, rest', he, hc, _, _⟩ := holds_child h _ p seq idx hh
    cases he
    exact ⟨some b, hc⟩

/-- The ancestors lie at smaller addresses than the cursor. -/
theorem holds_lt : ∀ (c : sequenceCursor α) (h : cursorHeap α) (a : Nat) (rest : List Nat),
    holds h (a :: rest) c → ∀ x ∈ rest, x < a
  | sequenceCursor.mk none seq idx, h, a, rest, hh => by
    obtain ⟨a', he, _⟩ := holds_root h _ seq idx hh
    cases he
    intro x hx
    cases hx
  | sequenceCursor.mk (some p) seq idx, h, a, rest, hh => by
    obtain ⟨a', b, rest', he, _, hlt, hp⟩ := holds_child h _ p seq idx hh
    cases he
    intro x hx
    rcases List.mem_cons.mp hx with hx | hx
    · omega
    · have := holds_lt p h b rest' hp x hx
      omega

theorem holds_not_mem (c : sequenceCursor α) (h : cursorHeap α) (a : Nat) (rest : List Nat)
    (hh : holds h (a :: rest) c) : a ∉ rest := by
  intro hmem
  have := holds_lt c h a rest hh a hmem
  omega

/-- The addresses of a chain are addresses of the heap. -/
theorem holds_bound : ∀ (c : sequenceCursor α) (h : cursorHeap α) (addrs : List Nat),
    holds h addrs c → ∀ x ∈ addrs, x < h.length
  | sequenceCursor.mk none seq idx, h, addrs, hh => by
    obtain ⟨a, he, hc⟩ := holds_root h _ seq idx hh
    subst he
    intro x hx
    simp only [List.mem_singleton] at hx
    subst hx
    exact (List.getElem?_eq_some.mp hc).1
  | sequenceCursor.mk (some p) seq idx, h, addrs, hh => by
    obtain ⟨a, b, rest, he, hc, _, hp⟩ := holds_child h _ p seq idx hh
    subst he
    intro x hx
    rcases List.mem_cons.mp hx with hx | hx
    · subst hx
      exact (List.getElem?_eq_some.mp hc).1
    · exact holds_bound p h (b :: rest) hp x hx

/-- A chain has at most as many objects as its first address allows. -/
theorem holds_length : ∀ (c : sequenceCursor α) (h : cursorHeap α) (a : Nat) (rest : List Nat),
    holds h (a :: rest) c → rest.length ≤ a
  | sequenceCursor.mk none seq idx, h, a, rest, hh => by
    obtain ⟨a', he, _⟩ := holds_root h _ seq idx hh
    cases he
    simp
  | sequenceCursor.mk (some p) seq idx, h, a, rest, hh => by
    obtain ⟨a', b, rest', he, _, hlt, hp⟩ := holds_child h _ p seq idx hh
    cases he
    have := holds_length p h b rest' hp
    simp only [List.length_cons]
    omega

theorem holds_fuel (c : sequenceCursor α) (h : cursorHeap α) (a : Nat) (rest : List Nat)
    (hh : holds h (a :: rest) c) : rest.length < h.length := by
  have h1 := holds_length c h a rest hh
  have h2 := holds_bound c h (a :: rest) hh a (List.mem_cons_self _ _)
  omega

/-- A chain is held by every heap that agrees on its addresses. -/
theorem holds_frame : ∀ (c : sequenceCursor α) (h h' : cursorHeap α) (addrs : List Nat),
    holds h addrs c → (∀ x ∈ addrs, h'[x]? = h[x]?) → holds h' addrs c
  | sequenceCursor.mk none seq idx, h, h', addrs, hh, hf => by
    obtain ⟨a, he, hc⟩ := holds_root h _ seq idx hh
    subst he
    exact holds_mk_root h' a seq idx (by rw [hf a (List.mem_cons_self _ _)]; exact hc)
  | sequenceCursor.mk (some p) seq idx, h, h', addrs, hh, hf => by
    obtain ⟨a, b, rest, he, hc, hlt, hp⟩ := holds_child h _ p seq idx hh
    subst he
    exact holds_mk_child h' a b rest p seq idx
      (by rw [hf a (List.mem_cons_self _ _)]; exact hc) hlt
      (holds_frame p h h' (b :: rest) hp (fun x hx => hf x (List.mem_cons_of_mem _ hx)))

theorem sameOutside_refl (h : cursorHeap α) (addrs : List Nat) : sameOutside h h addrs :=
  ⟨rfl, fun _ _ => rfl⟩

theorem sameOutside_set (h : cursorHeap α) (a : Nat) (v : cursorCell α) (addrs : List Nat)
    (ha : a ∈ addrs) : sameOutside h (h.set a v) addrs := by
  refine ⟨List.length_set _ _ _, ?_⟩
  intro x hx
  have hne : a ≠ x := by
    intro he
    subst he
    exact hx ha
  exact List.getElem?_set_ne hne

theorem sameOutside_trans (h h1 h2 : cursorHeap α) (addrs1 addrs : List Nat)
    (h12 : sameOutside h h1 addrs1) (h23 : sameOutside h1 h2 addrs)
    (hsub : ∀ x ∈ addrs1, x ∈ addrs) : sameOutside h h2 addrs := by
  refine ⟨h23.1.trans h12.1, ?_⟩
  intro x hx
  rw [h23.2 x hx, h12.2 x (fun hm => hx (hsub x hm))]

theorem getChildSequence_holds (c : sequenceCursor α) (h : cursorHeap α) (a : Nat)
    (rest : List Nat) (hh : holds h (a :: rest) c) :
    getChildSequence h a = sequenceCursor.getChildSequence c := by
  obtain ⟨par, hc⟩ := holds_head c h a rest hh
  simp only [getChildSequence, hc, Option.some_bind, sequenceCursor.getChildSequence]

end heap

namespace heap
variable {α : Type}

theorem agrees_some (h : cursorHeap α) (addrs : List Nat) (c' : sequenceCursor α) (b : Bool)
    (h' : cursorHeap α) (hh : holds h' addrs c') (hs : sameOutside h h' addrs) :
    agrees h addrs (some (c', b)) (some (h', b)) := ⟨rfl, hh, hs⟩

/-- Writing an index through the first address of a chain. -/
theorem holds_set_idx (c : sequenceCursor α) (h : cursorHeap α) (a : Nat) (rest : List Nat)
    (hh : holds h (a :: rest) c) (par : Option Nat)
    (hc : h[a]? = some { parent := par, seq := c.seq, idx := c.idx })
    (seq : Option (Sequence α)) (idx : Int) :
    holds (h.set a { parent := par, seq := seq, idx := idx }) (a :: rest)
        (sequenceCursor.mk c.parent seq idx)
      ∧ sameOutside h (h.set a { parent := par, seq := seq, idx := idx }) (a :: rest) := by
  have halt : a < h.length := (List.getElem?_eq_some.mp hc).1
  refine ⟨?_, sameOutside_set h a _ _ (List.mem_cons_self _ _)⟩
  obtain ⟨parent, seq0, idx0⟩ := c
  cases parent with
  | none =>
    obtain ⟨a', he, hc'⟩ := holds_root h _ seq0 idx0 hh
    cases he
    simp only [sequenceCursor.seq_mk, sequenceCursor.idx_mk] at hc
    rw [hc] at hc'
    cases hc'
    exact holds_mk_root _ a seq idx (List.getElem?_set_self halt)
  | some p =>
    obtain ⟨a', b, rest', he, hc', hlt, hp⟩ := holds_child h _ p seq0 idx0 hh
    cases he
    simp only [sequenceCursor.seq_mk, sequenceCursor.idx_mk] at hc
    rw [hc] at hc'
    cases hc'
    refine holds_mk_child _ a b rest' p seq idx (List.getElem?_set_self halt) hlt ?_
    apply holds_frame p h _ (b :: rest') hp
    intro x hx
    have : x < a := by
      rcases List.mem_cons.mp hx with hx | hx
      · omega
      · have := holds_lt p h b rest' hp x hx
        omega
    exact List.getElem?_set_ne (by omega)

end heap

namespace heap
variable {α : Type}

theorem sync_agrees (p' : sequenceCursor α) (h h1 : cursorHeap α) (a b : Nat)
    (rest : List Nat) (seq : Option (Sequence α)) (idx : Int)
    (hc : h[a]? = some { parent := some b, seq := seq, idx := idx }) (hlt : b < a)
    (hp' : holds h1 (b :: rest) p') (hs : sameOutside h h1 (b :: rest)) :
    h1[a]? = some { parent := some b, seq := seq, idx := idx }
    ∧ (sequenceCursor.getChildSequence p' = none → sync h1 a = none)
    ∧ (∀ chseq, sequenceCursor.getChildSequence p' = some chseq →
        sync h1 a = some (h1.set a { parent := some b, seq := chseq, idx := idx })) := by
  have hnot : a ∉ b :: rest := by
    intro hm
    rcases List.mem_cons.mp hm with hm | hm
    · omega
    · have := holds_lt p' h1 b rest hp' a hm
      omega
  have hc1 : h1[a]? = some { parent := some b, seq := seq, idx := idx } := by
    rw [hs.2 a hnot]
    exact hc
  have hg := getChildSequence_holds p' h1 b rest hp'
  refine ⟨hc1, ?_, ?_⟩
  · intro hn
    simp [sync, hc1, hg, hn]
  · intro chseq hsome
    simp [sync, hc1, hg, hsome]

/-- The cursor's own object after a call on its parent, and the chain written through it. -/
theorem holds_after_parent (p p' : sequenceCursor α) (h h1 : cursorHeap α) (a b : Nat)
    (rest : List Nat) (seq seq' : Option (Sequence α)) (idx idx' : Int)
    (hh : holds h (a :: b :: rest) (sequenceCursor.mk (some p) seq idx))
    (hp' : holds h1 (b :: rest) p') (hs : sameOutside h h1 (b :: rest)) :
    holds (h1.set a { parent := some b, seq := seq', idx := idx' }) (a :: b :: rest)
        (sequenceCursor.mk (some p') seq' idx')
      ∧ sameOutside h (h1.set a { parent := some b, seq := seq', idx := idx' })
          (a :: b :: rest) := by
  obtain ⟨hc, hlt, _⟩ := hh
  have halt : a < h1.length := by
    rw [hs.1]
    exact (List.getElem?_eq_some.mp hc).1
  constructor
  · refine holds_mk_child _ a b rest p' seq' idx' (List.getElem?_set_self halt) hlt ?_
    apply holds_frame p' h1 _ (b :: rest) hp'
    intro x hx
    have : x < a := by
      rcases List.mem_cons.mp hx with hx | hx
      · omega
      · have := holds_lt p' h1 b rest hp' x hx
        omega
    exact List.getElem?_set_ne (by omega)
  · refine ⟨by rw [List.length_set]; exact hs.1, ?_⟩
    intro x hx
    have hxa : a ≠ x := by
      intro he
      subst he
      exact hx (List.mem_cons_self _ _)
    rw [List.getElem?_set_ne hxa]
    exact hs.2 x (fun hm => hx (List.mem_cons_of_mem _ hm))

theorem holds_after_parent_same (p p' : sequenceCursor α) (h h1 : cursorHeap α) (a b : Nat)
    (rest : List Nat) (seq : Option (Sequence α)) (idx : Int)
    (hh : holds h (a :: b :: rest) (sequenceCursor.mk (some p) seq idx))
    (hp' : holds h1 (b :: rest) p') (hs : sameOutside h h1 (b :: rest)) :
    holds h1 (a :: b :: rest) (sequenceCursor.mk (some p') seq idx)
      ∧ sameOutside h h1 (a :: b :: rest) := by
  obtain ⟨hc, hlt, _⟩ := hh
  have hnot : a ∉ b :: rest := by
    intro hm
    rcases List.mem_cons.mp hm with hm | hm
    · omega
    · have := holds_lt p' h1 b rest hp' a hm
      omega
  refine ⟨holds_mk_child h1 a b rest p' seq idx (by rw [hs.2 a hnot]; exact hc) hlt hp',
    hs.1, ?_⟩
  intro x hx
  exact hs.2 x (fun hm => hx (List.mem_cons_of_mem _ hm))

/-- A call of `advanceMaybeAllowPastEnd` through a pointer does to the heap what the call does
to the chain held at that pointer. -/
theorem advance_agrees : ∀ (c : sequenceCursor α) (fuel : Nat) (h : cursorHeap α)
    (addrs : List Nat) (allow : Bool), holds h addrs c → addrs.length ≤ fuel →
    agrees h addrs (sequenceCursor.advanceMaybeAllowPastEnd c allow)
      (advanceMaybeAllowPastEnd fuel h (addrs.headD 0) allow)
  | sequenceCursor.mk none seq idx, fuel, h, addrs, allow, hh, hf => by
    obtain ⟨a, he, hc⟩ := holds_root h _ seq idx hh
    subst he
    obtain ⟨fuel, rfl⟩ : ∃ f, fuel = f + 1 := ⟨fuel - 1, by simp at hf; omega⟩
    have hset := fun (i : Int) => holds_set_idx _ h a [] hh none hc seq i
    rw [sequenceCursor.advance_eq, advanceMaybeAllowPastEnd]
    simp only [List.headD_cons, hc, Option.some_bind, sequenceCursor.length_mk]
    cases seq with
    | none => simp [agrees]
    | some s =>
      simp only [Option.map_some', Option.some_bind]
      by_cases h1 : idx < s.seqLen - 1
      · rw [if_pos h1, if_pos h1]
        exact agrees_some h _ _ _ _ (hset _).1 (hset _).2
      · rw [if_neg h1, if_neg h1]
        by_cases h2 : idx = s.seqLen
        · rw [if_pos h2, if_pos h2]
          exact agrees_some h _ _ _ _ hh (sameOutside_refl h _)
        · rw [if_neg h2, if_neg h2]
          cases allow with
          | true => exact agrees_some h _ _ _ _ (hset _).1 (hset _).2
          | false => exact agrees_some h _ _ _ _ hh (sameOutside_refl h _)
  | sequenceCursor.mk (some p) seq idx, fuel, h, addrs, allow, hh, hf => by
    obtain ⟨a, b, rest, he, hc, hlt, hp⟩ := holds_child h _ p seq idx hh
    subst he
    obtain ⟨fuel, rfl⟩ : ∃ f, fuel = f + 1 := ⟨fuel - 1, by simp at hf; omega⟩
    have hset := fun (i : Int) => holds_set_idx _ h a (b :: rest) hh (some b) hc seq i
    rw [sequenceCursor.advance_eq, advanceMaybeAllowPastEnd]
    simp only [List.headD_cons, hc, Option.some_bind, sequenceCursor.length_mk]
    cases seq with
    | none => simp [agrees]
    | some s =>
      simp only [Option.map_some', Option.some_bind]
      by_cases h1 : idx < s.seqLen - 1
      · rw [if_pos h1, if_pos h1]
        exact agrees_some h _ _ _ _ (hset _).1 (hset _).2
      · rw [if_neg h1, if_neg h1]
        by_cases h2 : idx = s.seqLen
        · rw [if_pos h2, if_pos h2]
          exact agrees_some h _ _ _ _ hh (sameOutside_refl h _)
        · rw [if_neg h2, if_neg h2]
          have ih := advance_agrees p fuel h (b :: rest) false hp (by
            simp only [List.length_cons] at hf ⊢
            omega)
          simp only [List.headD_cons] at ih
          cases hv : sequenceCursor.advanceMaybeAllowPastEnd p false with
          | none =>
            cases hm : advanceMaybeAllowPastEnd fuel h b false with
            | none => simp [agrees]
            | some r' => simp [hv, hm, agrees] at ih
          | some r =>
            cases hm : advanceMaybeAllowPastEnd fuel h b false with
            | none => simp [hv, hm, agrees] at ih
            | some r' =>
              obtain ⟨p', bp⟩ := r
              obtain ⟨h1', bp'⟩ := r'
              rw [hv, hm] at ih
              obtain ⟨hb, hp', hs⟩ := ih
              simp only at hb hp' hs
              subst hb
              cases bp' with
              | true =>
                obtain ⟨hc1, hnone, hsome⟩ := sync_agrees p' h h1' a b rest (some s) idx hc hlt hp' hs
                simp only [sequenceCursor.sync, sequenceCursor.parent_mk,
                  sequenceCursor.idx_mk]
                cases hg : sequenceCursor.getChildSequence p' with
                | none => simp [hnone hg, agrees]
                | some chseq =>
                  have halt : a < h1'.length := (List.getElem?_eq_some.mp hc1).1
                  simp only [hsome chseq hg, Option.map_some', Option.some_bind, setIdx,
                    List.getElem?_set_self halt, List.set_set, sequenceCursor.parent_mk,
                    sequenceCursor.seq_mk]
                  obtain ⟨hh3, hs3⟩ := holds_after_parent p p' h h1' a b rest (some s) chseq
                    idx 0 hh hp' hs
                  exact agrees_some h _ _ _ _ hh3 hs3
              | false =>
                cases allow with
                | true =>
                  have hc1 := (sync_agrees p' h h1' a b rest (some s) idx hc hlt hp' hs).1
                  simp only [if_true, hc1, Option.map_some']
                  obtain ⟨hh3, hs3⟩ := holds_after_parent p p' h h1' a b rest (some s) (some s)
                    idx (idx + 1) hh hp' hs
                  exact agrees_some h _ _ _ _ hh3 hs3
                | false =>
                  simp only [Bool.false_eq_true, if_false]
                  obtain ⟨hh3, hs3⟩ := holds_after_parent_same p p' h h1' a b rest (some s)
                    idx hh hp' hs
                  exact agrees_some h _ _ _ _ hh3 hs3

end heap

namespace heap
variable {α : Type}

/-- A call of `retreatMaybeAllowBeforeStart` through a pointer does to the heap what the call
does to the chain held at that pointer. -/
theorem retreat_agrees : ∀ (c : sequenceCursor α) (fuel : Nat) (h : cursorHeap α)
    (addrs : List Nat) (allow : Bool), holds h addrs c → addrs.length ≤ fuel →
    agrees h addrs (sequenceCursor.retreatMaybeAllowBeforeStart c allow)
      (retreatMaybeAllowBeforeStart fuel h (addrs.headD 0) allow)
  | sequenceCursor.mk none seq idx, fuel, h, addrs, allow, hh, hf => by
    obtain ⟨a, he, hc⟩ := holds_root h _ seq idx hh
    subst he
    obtain ⟨fuel, rfl⟩ : ∃ f, fuel = f + 1 := ⟨fuel - 1, by simp at hf; omega⟩
    have hset := fun (i : Int) => holds_set_idx _ h a [] hh none hc seq i
    rw [sequenceCursor.retreat_eq, retreatMaybeAllowBeforeStart]
    simp only [List.headD_cons, hc, Option.some_bind]
    by_cases h1 : 0 < idx
    · rw [if_pos h1, if_pos h1]
      exact agrees_some h _ _ _ _ (hset _).1 (hset _).2
    · rw [if_neg h1, if_neg h1]
      by_cases h2 : idx = -1
      · rw [if_pos h2, if_pos h2]
        exact agrees_some h _ _ _ _ hh (sameOutside_refl h _)
      · rw [if_neg h2, if_neg h2]
        by_cases h3 : idx ≠ 0
        · rw [if_pos h3, if_pos h3]
          trivial
        · rw [if_neg h3, if_neg h3]
          cases allow with
          | true => exact agrees_some h _ _ _ _ (hset _).1 (hset _).2
          | false => exact agrees_some h _ _ _ _ hh (sameOutside_refl h _)
  | sequenceCursor.mk (some p) seq idx, fuel, h, addrs, allow, hh, hf => by
    obtain ⟨a, b, rest, he, hc, hlt, hp⟩ := holds_child h _ p seq idx hh
    subst he
    obtain ⟨fuel, rfl⟩ : ∃ f, fuel = f + 1 := ⟨fuel - 1, by simp at hf; omega⟩
    have hset := fun (i : Int) => holds_set_idx _ h a (b :: rest) hh (some b) hc seq i
    rw [sequenceCursor.retreat_eq, retreatMaybeAllowBeforeStart]
    simp only [List.headD_cons, hc, Option.some_bind]
    by_cases h1 : 0 < idx
    · rw [if_pos h1, if_pos h1]
      exact agrees_some h _ _ _ _ (hset _).1 (hset _).2
    · rw [if_neg h1, if_neg h1]
      by_cases h2 : idx = -1
      · rw [if_pos h2, if_pos h2]
        exact agrees_some h _ _ _ _ hh (sameOutside_refl h _)
      · rw [if_neg h2, if_neg h2]
        by_cases h3 : idx ≠ 0
        · rw [if_pos h3, if_pos h3]
          trivial
        · rw [if_neg h3, if_neg h3]
          have ih := retreat_agrees p fuel h (b :: rest) false hp (by
            simp only [List.length_cons] at hf ⊢
            omega)
          simp only [List.headD_cons] at ih
          cases hv : sequenceCursor.retreatMaybeAllowBeforeStart p false with
          | none =>
            cases hm : retreatMaybeAllowBeforeStart fuel h b false with
            | none => simp [agrees]
            | some r' => simp [hv, hm, agrees] at ih
          | some r =>
            cases hm : retreatMaybeAllowBeforeStart fuel h b false with
            | none => simp [hv, hm, agrees] at ih
            | some r' =>
              obtain ⟨p', bp⟩ := r
              obtain ⟨h1', bp'⟩ := r'
              rw [hv, hm] at ih
              obtain ⟨hb, hp', hs⟩ := ih
              simp only at hb hp' hs
              subst hb
              obtain ⟨hc1, hnone, hsome⟩ := sync_agrees p' h h1' a b rest seq idx hc hlt hp' hs
              have halt : a < h1'.length := (List.getElem?_eq_some.mp hc1).1
              cases bp' with
              | true =>
                simp only [sequenceCursor.sync, sequenceCursor.parent_mk,
                  sequenceCursor.idx_mk]
                cases hg : sequenceCursor.getChildSequence p' with
                | none => simp [hnone hg, agrees]
                | some chseq =>
                  simp only [hsome chseq hg, Option.map_some', Option.some_bind, length,
                    List.getElem?_set_self halt, sequenceCursor.length_mk]
                  cases chseq with
                  | none => simp [agrees]
                  | some child =>
                    simp only [Option.map_some', Option.some_bind, setIdx,
                      List.getElem?_set_self halt, List.set_set, sequenceCursor.parent_mk,
                      sequenceCursor.seq_mk]
                    obtain ⟨hh3, hs3⟩ := holds_after_parent p p' h h1' a b rest seq
                      (some child) idx (child.seqLen - 1) hh hp' hs
                    exact agrees_some h _ _ _ _ hh3 hs3
              | false =>
                cases allow with
                | true =>
                  simp only [if_true, hc1, Option.map_some']
                  obtain ⟨hh3, hs3⟩ := holds_after_parent p p' h h1' a b rest seq seq
                    idx (idx - 1) hh hp' hs
                  exact agrees_some h _ _ _ _ hh3 hs3
                | false =>
                  simp only [Bool.false_eq_true, if_false]
                  obtain ⟨hh3, hs3⟩ := holds_after_parent_same p p' h h1' a b rest seq
                    idx hh hp' hs
                  exact agrees_some h _ _ _ _ hh3 hs3

end heap

namespace heap
variable {α : Type}

theorem holds_append (c : sequenceCursor α) (h ext : cursorHeap α) (addrs : List Nat)
    (hh : holds h addrs c) : holds (h ++ ext) addrs c := by
  apply holds_frame c h _ addrs hh
  intro x hx
  exact List.getElem?_append_left (holds_bound c h addrs hh x hx)

/-- The recursion of `clone`: it returns, the new objects are put after the old ones, and they
hold the same chain as the objects cloned. -/
theorem cloneAux_spec : ∀ (c : sequenceCursor α) (fuel : Nat) (h : cursorHeap α)
    (addrs : List Nat), holds h addrs c → addrs.length ≤ fuel →
    ∃ ext q bs, cloneAux fuel h (addrs.headD 0) = some (h ++ ext, q)
      ∧ holds (h ++ ext) (q :: bs) c ∧ (∀ x ∈ q :: bs, h.length ≤ x)
  | sequenceCursor.mk none seq idx, fuel, h, addrs, hh, hf => by
    obtain ⟨a, he, hc⟩ := holds_root h _ seq idx hh
    subst he
    obtain ⟨fuel, rfl⟩ : ∃ f, fuel = f + 1 := ⟨fuel - 1, by simp at hf; omega⟩
    refine ⟨[{ parent := none, seq := seq, idx := idx }], h.length, [], ?_, ?_, ?_⟩
    · simp only [cloneAux, List.headD_cons, hc, Option.some_bind]
    · exact holds_mk_root _ _ seq idx (List.getElem?_concat_length h _)
    · intro x hx
      simp only [List.mem_singleton] at hx
      omega
  | sequenceCursor.mk (some p) seq idx, fuel, h, addrs, hh, hf => by
    obtain ⟨a, b, rest, he, hc, hlt, hp⟩ := holds_child h _ p seq idx hh
    subst he
    obtain ⟨fuel, rfl⟩ : ∃ f, fuel = f + 1 := ⟨fuel - 1, by simp at hf; omega⟩
    obtain ⟨ext1, q1, bs1, hcl, hh1, hfresh⟩ := cloneAux_spec p fuel h (b :: rest) hp (by
      simp only [List.length_cons] at hf ⊢
      omega)
    simp only [List.headD_cons] at hcl
    have halt : a < h.length := (List.getElem?_eq_some.mp hc).1
    have hc1 : (h ++ ext1)[a]? = some { parent := some b, seq := seq, idx := idx } := by
      rw [List.getElem?_append_left halt]
      exact hc
    have hq1 : q1 < (h ++ ext1).length :=
      holds_bound p _ (q1 :: bs1) hh1 q1 (List.mem_cons_self _ _)
    refine ⟨ext1 ++ [{ parent := some q1, seq := seq, idx := idx }], (h ++ ext1).length,
      q1 :: bs1, ?_, ?_, ?_⟩
    · simp only [cloneAux, List.headD_cons, hc, Option.some_bind, hcl, hc1, Option.map_some',
        List.append_assoc]
    · rw [← List.append_assoc]
      exact holds_mk_child _ _ q1 bs1 p seq idx (List.getElem?_concat_length _ _) hq1
        (holds_append p _ _ _ hh1)
    · intro x hx
      rcases List.mem_cons.mp hx with hx | hx
      · subst hx
        simp only [List.length_append]
        omega
      · exact hfresh x hx

theorem agrees_frame (h h'' : cursorHeap α) (addrs : List Nat)
    (r : Option (sequenceCursor α × Bool)) (b : Bool) (ha : agrees h addrs r (some (h'', b))) :
    sameOutside h h'' addrs := by
  cases r with
  | none => exact absurd ha (by simp [agrees])
  | some r => exact ha.2.2

/-- A chain whose addresses lie outside the addresses a call may write to is still held. -/
theorem holds_outside (c : sequenceCursor α) (h h'' : cursorHeap α) (addrs written : List Nat)
    (hh : holds h addrs c) (hs : sameOutside h h'' written)
    (hd : ∀ x ∈ addrs, x ∉ written) : holds h'' addrs c :=
  holds_frame c h h'' addrs hh (fun x hx => hs.2 x (hd x hx))

theorem sync_frame (h h'' : cursorHeap α) (cur : Nat) (hsy : sync h cur = some h'') :
    sameOutside h h'' [cur] := by
  unfold sync at hsy
  cases hc : h[cur]? with
  | none => simp [hc] at hsy
  | some c =>
    simp only [hc, Option.some_bind] at hsy
    cases hp : c.parent with
    | none => simp [hp] at hsy
    | some pp =>
      simp only [hp] at hsy
      cases hg : getChildSequence h pp with
      | none => simp [hg] at hsy
      | some s =>
        simp only [hg, Option.map_some', Option.some.injEq] at hsy
        rw [← hsy]
        exact sameOutside_set h cur _ _ (List.mem_cons_self _ _)

theorem sameOutside_mono (h h' : cursorHeap α) (small big : List Nat)
    (hs : sameOutside h h' small) (hsub : ∀ x ∈ small, x ∈ big) : sameOutside h h' big :=
  ⟨hs.1, fun x hx => hs.2 x (fun hm => hx (hsub x hm))⟩

end heap

namespace heap
variable {α : Type}

/-- C12: `clone()` returns; the new objects hold a chain with the same sequence and index at
every level as the chain cloned (so of the same depth), and the objects cloned still hold
theirs. The two chains are independent: `advance`, `retreat` or `sync` through the clone leaves
the original chain as it was, and through the original leaves the clone's chain as it was. The
calls through the clone do to it what they do to the chain. -/
theorem clone_independent (c : sequenceCursor α) (h : cursorHeap α) (a : Nat)
    (rest : List Nat) (hh : holds h (a :: rest) c) :
    ∃ h' q bs, clone h a = some (h', q)
      ∧ holds h' (q :: bs) c ∧ holds h' (a :: rest) c
      ∧ agrees h' (q :: bs) (sequenceCursor.advance c) (advance h' q)
      ∧ agrees h' (q :: bs) (sequenceCursor.retreat c) (retreat h' q)
      ∧ (∀ h'' b, advance h' q = some (h'', b) → holds h'' (a :: rest) c)
      ∧ (∀ h'' b, retreat h' q = some (h'', b) → holds h'' (a :: rest) c)
      ∧ (∀ h'', sync h' q = some h'' → holds h'' (a :: rest) c)
      ∧ (∀ h'' b, advance h' a = some (h'', b) → holds h'' (q :: bs) c)
      ∧ (∀ h'' b, retreat h' a = some (h'', b) → holds h'' (q :: bs) c)
      ∧ (∀ h'', sync h' a = some h'' → holds h'' (q :: bs) c) := by
  have hfuel := holds_fuel c h a rest hh
  obtain ⟨ext, q, bs, hcl, hq, hfresh⟩ := cloneAux_spec c h.length h (a :: rest) hh (by
    simp only [List.length_cons]
    omega)
  simp only [List.headD_cons] at hcl
  have ha := holds_append c h ext (a :: rest) hh
  have hold : ∀ x ∈ a :: rest, x < h.length := holds_bound c h (a :: rest) hh
  have hd1 : ∀ x ∈ a :: rest, x ∉ q :: bs := by
    intro x hx hm
    have := hold x hx
    have := hfresh x hm
    omega
  have hd2 : ∀ x ∈ q :: bs, x ∉ a :: rest := fun x hx hm => hd1 x hm hx
  have hfq : (q :: bs).length ≤ (h ++ ext).length := by
    have := holds_fuel c _ q bs hq
    simp only [List.length_cons]
    omega
  have hfa : (a :: rest).length ≤ (h ++ ext).length := by
    have := holds_fuel c _ a rest ha
    simp only [List.length_cons]
    omega
  have hadvq := advance_agrees c (h ++ ext).length (h ++ ext) (q :: bs) true hq hfq
  have hretq := retreat_agrees c (h ++ ext).length (h ++ ext) (q :: bs) true hq hfq
  have hadva := advance_agrees c (h ++ ext).length (h ++ ext) (a :: rest) true ha hfa
  have hreta := retreat_agrees c (h ++ ext).length (h ++ ext) (a :: rest) true ha hfa
  simp only [List.headD_cons] at hadvq hretq hadva hreta
  refine ⟨h ++ ext, q, bs, hcl, hq, ha, hadvq, hretq, ?_, ?_, ?_, ?_, ?_, ?_⟩
  · intro h'' b hop
    have hop' : advanceMaybeAllowPastEnd (h ++ ext).length (h ++ ext) q true
        = some (h'', b) := hop
    rw [hop'] at hadvq
    exact holds_outside c _ h'' _ _ ha (agrees_frame _ _ _ _ _ hadvq) hd1
  · intro h'' b hop
    have hop' : retreatMaybeAllowBeforeStart (h ++ ext).length (h ++ ext) q true
        = some (h'', b) := hop
    rw [hop'] at hretq
    exact holds_outside c _ h'' _ _ ha (agrees_frame _ _ _ _ _ hretq) hd1
  · intro h'' hop
    exact holds_outside c _ h'' _ _ ha
      (sameOutside_mono _ _ [q] (q :: bs) (sync_frame _ _ q hop) (by
        intro x hx
        simp only [List.mem_singleton] at hx
        subst hx
        exact List.mem_cons_self _ _)) hd1
  · intro h'' b hop
    have hop' : advanceMaybeAllowPastEnd (h ++ ext).length (h ++ ext) a true
        = some (h'', b) := hop
    rw [hop'] at hadva
    exact holds_outside c _ h'' _ _ hq (agrees_frame _ _ _ _ _ hadva) hd2
  · intro h'' b hop
    have hop' : retreatMaybeAllowBeforeStart (h ++ ext).length (h ++ ext) a true
        = some (h'', b) := hop
    rw [hop'] at hreta
    exact holds_outside c _ h'' _ _ hq (agrees_frame _ _ _ _ _ hreta) hd2
  · intro h'' hop
    exact holds_outside c _ h'' _ _ hq
      (sameOutside_mono _ _ [a] (a :: rest) (sync_frame _ _ a hop) (by
        intro x hx
        simp only [List.mem_singleton] at hx
        subst hx
        exact List.mem_cons_self _ _)) hd2

end heap

namespace heap

theorem sampleHeap_holds : holds sampleHeap [1, 0] (sequenceCursor.sampleCursor 0 2) :=
  ⟨rfl, by decide, rfl⟩

theorem clone_independent_witness :
    holds sampleHeap [1, 0] (sequenceCursor.sampleCursor 0 2)
    ∧ clone sampleHeap 1
        = some (sampleHeap
            ++ [{ parent := none, seq := some sequenceCursor.sampleTree, idx := 0 },
                { parent := some 2, seq := some (Sequence.leaf ['a', 'b', 'c']), idx := 2 }], 3)
    ∧ advance (sampleHeap
            ++ [{ parent := none, seq := some sequenceCursor.sampleTree, idx := 0 },
                { parent := some 2, seq := some (Sequence.leaf ['a', 'b', 'c']), idx := 2 }]) 3
        = some (sampleHeap
            ++ [{ parent := none, seq := some sequenceCursor.sampleTree, idx := 1 },
                { parent := some 2, seq := some (Sequence.leaf ['d', 'e', 'f']), idx := 0 }],
            true)
    ∧ ∃ h' q bs, clone sampleHeap 1 = some (h', q)
      ∧ holds h' (q :: bs) (sequenceCursor.sampleCursor 0 2)
      ∧ holds h' [1, 0] (sequenceCursor.sampleCursor 0 2)
      ∧ agrees h' (q :: bs) (sequenceCursor.advance (sequenceCursor.sampleCursor 0 2))
          (advance h' q)
      ∧ agrees h' (q :: bs) (sequenceCursor.retreat (sequenceCursor.sampleCursor 0 2))
          (retreat h' q)
      ∧ (∀ h'' b, advance h' q = some (h'', b) →
          holds h'' [1, 0] (sequenceCursor.sampleCursor 0 2))
      ∧ (∀ h'' b, retreat h' q = some (h'', b) →
          holds h'' [1, 0] (sequenceCursor.sampleCursor 0 2))
      ∧ (∀ h'', sync h' q = some h'' → holds h'' [1, 0] (sequenceCursor.sampleCursor 0 2))
      ∧ (∀ h'' b, advance h' 1 = some (h'', b) →
          holds h'' (q :: bs) (sequenceCursor.sampleCursor 0 2))
      ∧ (∀ h'' b, retreat h' 1 = some (h'', b) →
          holds h'' (q :: bs) (sequenceCursor.sampleCursor 0 2))
      ∧ (∀ h'', sync h' 1 = some h'' →
          holds h'' (q :: bs) (sequenceCursor.sampleCursor 0 2)) :=
  ⟨sampleHeap_holds, by decide, by decide,
    clone_independent (sequenceCursor.sampleCursor 0 2) sampleHeap 1 [0] sampleHeap_holds⟩

end heap

namespace heap
variable {α : Type}

theorem current_holds (c : sequenceCursor α) (h : cursorHeap α) (a : Nat) (rest : List Nat)
    (hh : holds h (a :: rest) c) : current h a = sequenceCursor.current c := by
  obtain ⟨par, hc⟩ := holds_head c h a rest hh
  simp only [current, hc, Option.some_bind]
  obtain ⟨parent, seq, idx⟩ := c
  rfl

/-- The first loop of `maxNPrevItems` through a pointer collects what the loop collects on the
chain held there, and writes only to the objects of that chain. -/
theorem prevLoop_agrees : ∀ (m : Nat) (c : sequenceCursor α) (h : cursorHeap α) (a : Nat)
    (rest : List Nat) (prev : List α), holds h (a :: rest) c →
    (sequenceCursor.prevLoop m c prev = none → prevLoop m h a prev = none)
    ∧ (∀ l, sequenceCursor.prevLoop m c prev = some l →
        ∃ h', prevLoop m h a prev = some (h', l) ∧ sameOutside h h' (a :: rest))
  | 0, c, h, a, rest, prev, _ => by
    constructor
    · intro hn
      simp [sequenceCursor.prevLoop] at hn
    · intro l hl
      simp only [sequenceCursor.prevLoop, Option.some.injEq] at hl
      subst hl
      exact ⟨h, rfl, sameOutside_refl h _⟩
  | m + 1, c, h, a, rest, prev, hh => by
    have hfuel := holds_fuel c h a rest hh
    have hret := retreat_agrees c h.length h (a :: rest) true hh (by
      simp only [List.length_cons]
      omega)
    simp only [List.headD_cons] at hret
    simp only [sequenceCursor.prevLoop, prevLoop, retreat, sequenceCursor.retreat]
    cases hv : sequenceCursor.retreatMaybeAllowBeforeStart c true with
    | none =>
      cases hm : retreatMaybeAllowBeforeStart h.length h a true with
      | none => simp
      | some r' => simp [hv, hm, agrees] at hret
    | some r =>
      cases hm : retreatMaybeAllowBeforeStart h.length h a true with
      | none => simp [hv, hm, agrees] at hret
      | some r' =>
        obtain ⟨c1, b⟩ := r
        obtain ⟨h1, b'⟩ := r'
        rw [hv, hm] at hret
        obtain ⟨hb, hh1, hs1⟩ := hret
        simp only at hb hh1 hs1
        subst hb
        simp only [Option.some_bind]
        cases b' with
        | false =>
          simp only [Bool.false_eq_true, if_false]
          constructor
          · intro hn
            simp at hn
          · intro l hl
            simp only [Option.some.injEq] at hl
            subst hl
            exact ⟨h1, rfl, hs1⟩
        | true =>
          simp only [if_true, current_holds c1 h1 a rest hh1]
          cases hcur : sequenceCursor.current c1 with
          | none => simp
          | some item =>
            simp only [Option.some_bind]
            obtain ⟨ihn, ihs⟩ := prevLoop_agrees m c1 h1 a rest (prev ++ [item]) hh1
            refine ⟨ihn, ?_⟩
            intro l hl
            obtain ⟨h', hp, hs'⟩ := ihs l hl
            exact ⟨h', hp, sameOutside_trans h h1 h' (a :: rest) (a :: rest) hs1 hs'
              (fun _ hx => hx)⟩

/-- C11: `maxNPrevItems(n)` through a pointer returns the slice it returns on the chain held at
that pointer, and returns whenever the call on the chain does; after the call every object that
existed before it is unchanged, so the cursor and each of its ancestors have the sequence and
the index they had. -/
theorem maxNPrevItems_keeps_cursor (c : sequenceCursor α) (h : cursorHeap α) (a : Nat)
    (rest : List Nat) (n : Int) (hh : holds h (a :: rest) c) :
    (∀ h' prev, maxNPrevItems h a n = some (h', prev) →
      holds h' (a :: rest) c ∧ (∀ x, x < h.length → h'[x]? = h[x]?)
        ∧ sequenceCursor.maxNPrevItems c n = some prev)
    ∧ (∀ prev, sequenceCursor.maxNPrevItems c n = some prev →
      ∃ h', maxNPrevItems h a n = some (h', prev)) := by
  have hfuel := holds_fuel c h a rest hh
  obtain ⟨ext, q, bs, hcl, hq, hfresh⟩ := cloneAux_spec c h.length h (a :: rest) hh (by
    simp only [List.length_cons]
    omega)
  simp only [List.headD_cons] at hcl
  have hcl' : clone h a = some (h ++ ext, q) := hcl
  obtain ⟨hnone, hsome⟩ := prevLoop_agrees n.toNat c (h ++ ext) q bs [] hq
  have hval : sequenceCursor.maxNPrevItems c n
      = (sequenceCursor.prevLoop n.toNat c []).bind fun prev =>
          sequenceCursor.swapLoop (prev.length / 2) 0 prev := by
    simp only [sequenceCursor.maxNPrevItems, sequenceCursor.clone_eq]
  constructor
  · intro h' prev hres
    simp only [maxNPrevItems, hcl', Option.some_bind] at hres
    cases hv : sequenceCursor.prevLoop n.toNat c [] with
    | none => simp [hnone hv] at hres
    | some l =>
      obtain ⟨h1, hp, hs⟩ := hsome l hv
      simp only [hp, Option.some_bind, sequenceCursor.swapLoop_reverse, Option.map_some',
        Option.some.injEq, Prod.mk.injEq] at hres
      obtain ⟨he1, he2⟩ := hres
      subst he1
      subst he2
      have hunch : ∀ x, x < h.length → h1[x]? = h[x]? := by
        intro x hx
        rw [hs.2 x (fun hm => by
          have := hfresh x hm
          omega)]
        exact List.getElem?_append_left hx
      refine ⟨holds_frame c h h1 (a :: rest) hh
        (fun x hx => hunch x (holds_bound c h (a :: rest) hh x hx)), hunch, ?_⟩
      rw [hval, hv]
      simp only [Option.some_bind, sequenceCursor.swapLoop_reverse]
  · intro prev hres
    rw [hval] at hres
    cases hv : sequenceCursor.prevLoop n.toNat c [] with
    | none => simp [hv] at hres
    | some l =>
      obtain ⟨h1, hp, _⟩ := hsome l hv
      simp only [hv, Option.some_bind, sequenceCursor.swapLoop_reverse,
        Option.some.injEq] at hres
      subst hres
      exact ⟨h1, by simp only [maxNPrevItems, hcl', Option.some_bind, hp,
        sequenceCursor.swapLoop_reverse, Option.map_some']⟩

theorem maxNPrevItems_keeps_cursor_witness :
    holds sampleHeap [1, 0] (sequenceCursor.sampleCursor 0 2)
    ∧ maxNPrevItems sampleHeap 1 5
        = some (sampleHeap
            ++ [{ parent := none, seq := some sequenceCursor.sampleTree, idx := 0 },
                { parent := some 2, seq := some (Sequence.leaf ['a', 'b', 'c']), idx := -1 }],
            ['a', 'b'])
    ∧ holds (sampleHeap
            ++ [{ parent := none, seq := some sequenceCursor.sampleTree, idx := 0 },
                { parent := some 2, seq := some (Sequence.leaf ['a', 'b', 'c']), idx := -1 }])
        [1, 0] (sequenceCursor.sampleCursor 0 2)
    ∧ sequenceCursor.maxNPrevItems (sequenceCursor.sampleCursor 0 2) 5 = some ['a', 'b'] :=
  have hres : maxNPrevItems sampleHeap 1 5
      = some (sampleHeap
          ++ [{ parent := none, seq := some sequenceCursor.sampleTree, idx := 0 },
              { parent := some 2, seq := some (Sequence.leaf ['a', 'b', 'c']), idx := -1 }],
          ['a', 'b']) := by decide
  ⟨sampleHeap_holds, hres,
    ((maxNPrevItems_keeps_cursor (sequenceCursor.sampleCursor 0 2) sampleHeap 1 [0] 5
      sampleHeap_holds).1 _ _ hres).1,
    ((maxNPrevItems_keeps_cursor (sequenceCursor.sampleCursor 0 2) sampleHeap 1 [0] 5
      sampleHeap_holds).1 _ _ hres).2.2⟩

end heap

end Noms
